import Mathlib

/-!
# The CFS scheduling core of `proc.c`

A shallow embedding of the process table, the red-black scheduling tree and
the weight computation of `xv6-public/proc.c`, with the properties of the
specification stated over it.

Pointers to `struct proc` are slot indices into `ptable.proc` (`none` is the
null pointer).  A function that dereferences a null or wild pointer halts with
`Halt.nullDeref`; a loop that is cut off by its iteration budget halts with
`Halt.outOfFuel`.
-/

namespace CfsXv6

/-! ## Weight computation (`power`, `compute_weight`) -/

/-- Significand width of `long double` on the i386 target of the kernel
(the x87 extended format). -/
def LDBL_MANT_DIG : Nat := 64

/-- A finite non-negative `long double`: the value `m * 2 ^ e`.  The exponent
range is not modelled; the values met here are far from its limits. -/
structure LongDouble where
  m : Nat
  e : Int
deriving DecidableEq

namespace LongDouble

/-- Auxiliary recursion of `ilog2`, bounded by its first argument. -/
def ilog2Aux : Nat → Nat → Nat
  | 0, _ => 0
  | f + 1, n => if n < 2 then 0 else ilog2Aux f (n / 2) + 1

/-- Floor of the binary logarithm (`0` at `0`). -/
def ilog2 (n : Nat) : Nat := ilog2Aux n n

/-- Numerator and denominator of `n / (d * 2 ^ s)`. -/
def scaled (n d : Nat) (s : Int) : Nat × Nat :=
  if 0 ≤ s then (n, d * 2 ^ s.toNat) else (n * 2 ^ (-s).toNat, d)

/-- Round the quotient `N / D` to an integer, ties to even. -/
def nearestEven (N D : Nat) : Nat :=
  let q := N / D
  let r := N % D
  if D < 2 * r ∨ (2 * r = D ∧ q % 2 = 1) then q + 1 else q

/-- The `long double` nearest to the rational `n / d` (round to nearest, ties
to even, `LDBL_MANT_DIG` significant bits). -/
def round (n d : Nat) : LongDouble :=
  if n = 0 then ⟨0, 0⟩
  else
    let s1 : Int := (ilog2 n : Int) - (ilog2 d : Int) - ((LDBL_MANT_DIG : Int) - 1)
    let nd1 := scaled n d s1
    let s : Int := if nd1.1 / nd1.2 < 2 ^ (LDBL_MANT_DIG - 1) then s1 - 1 else s1
    let nd := scaled n d s
    ⟨nearestEven nd.1 nd.2, s⟩

/-- Numerator and denominator of the exact value of a `long double`. -/
def toFrac (x : LongDouble) : Nat × Nat :=
  if 0 ≤ x.e then (x.m * 2 ^ x.e.toNat, 1) else (x.m, 2 ^ (-x.e).toNat)

/-- Conversion of an `int` (here always non-negative) to `long double`. -/
def ofNat (n : Nat) : LongDouble := round n 1

/-- Rounded product `x * y`. -/
def mul (x y : LongDouble) : LongDouble :=
  let a := toFrac x
  let b := toFrac y
  round (a.1 * b.1) (a.2 * b.2)

/-- Rounded quotient `x / y`. -/
def div (x y : LongDouble) : LongDouble :=
  let a := toFrac x
  let b := toFrac y
  round (a.1 * b.2) (a.2 * b.1)

/-- Conversion to `int`: truncation toward zero. -/
def toInt (x : LongDouble) : Int :=
  let a := toFrac x
  ((a.1 / a.2 : Nat) : Int)

end LongDouble

/-- The constant `1.25`. -/
def ld_1_25 : LongDouble := LongDouble.round 5 4

/-- The loop `for (i = 0; i < exponent; i++) result *= base;` of `power`. -/
def powerLoop (base : LongDouble) : Nat → LongDouble → LongDouble
  | 0, result => result
  | n + 1, result => powerLoop base n (LongDouble.mul result base)

/-- `long double power(long double base, int exponent)`. -/
def power (base : LongDouble) (exponent : Int) : LongDouble :=
  let is_negative := decide (exponent < 0)
  let exponent := if exponent < 0 then -exponent else exponent
  let result := powerLoop base exponent.toNat (LongDouble.ofNat 1)
  if is_negative then LongDouble.div (LongDouble.ofNat 1) result else result

/-- `int compute_weight(int nice_value)`. -/
def compute_weight (nice_value : Int) : Int :=
  if nice_value < 0 then
    let ans := power ld_1_25 (-1 * nice_value)
    let ans := LongDouble.div (LongDouble.ofNat 1) ans
    LongDouble.toInt (LongDouble.div (LongDouble.ofNat 1024) ans)
  else
    LongDouble.toInt (LongDouble.div (LongDouble.ofNat 1024) (power ld_1_25 nice_value))

/-- The weight formula of the specification, `floor(1024 / 1.25^nice)`, in
exact rational arithmetic. -/
def weightSpec (nice : Int) : Int :=
  Int.floor ((1024 : ℚ) / ((5 : ℚ) / 4) ^ nice)

/-! ## Data model (`struct proc`, `struct rbtree`, `ptable`) -/

/-- The process states of `enum procstate`. -/
inductive procstate where
  | UNUSED | EMBRYO | SLEEPING | RUNNABLE | RUNNING | ZOMBIE
deriving DecidableEq

/-- The node colours `RED` and `BLACK`. -/
inductive Color where
  | RED | BLACK
deriving DecidableEq

/-- A `struct proc *`: a slot index of `ptable.proc`, or the null pointer. -/
abbrev Ptr := Option Nat

/-- A wait channel (`void *chan`): null, the address of a process slot, or
some other kernel address. -/
inductive Chan where
  | null
  | slot (i : Nat)
  | addr (a : Nat)
deriving DecidableEq

/-- The channel that is the address of the process `q`. -/
def Chan.ofPtr : Ptr → Chan
  | none => Chan.null
  | some i => Chan.slot i

/-- The fields of `struct proc` that `proc.c` reads and writes in the
scheduling core.  `parent` is the parent process; `l`, `r`, `p` and `color`
are the tree members initialised by `allocproc`. -/
structure proc where
  pid : Int := 0
  state : procstate := procstate.UNUSED
  parent : Ptr := none
  chan : Chan := Chan.null
  killed : Int := 0
  name : String := ""
  kstack : Bool := false
  nice_value : Int := 0
  weight : Int := 0
  vruntime : Int := 0
  curr_runtime : Int := 0
  time_slice : Int := 0
  l : Ptr := none
  r : Ptr := none
  p : Ptr := none
  color : Color := Color.RED
deriving DecidableEq

/-- The fields of `struct rbtree`. -/
structure rbtree where
  root : Ptr := none
  length : Int := 0
  total_weight : Int := 0
  period : Int := 0
  min_vruntime : Ptr := none
deriving DecidableEq

/-- The memory the scheduling core works on: the slots of `ptable.proc` and
the tree `rbTree` that `runnable_tasks` points to. -/
structure Mem where
  procs : List proc := []
  tree : rbtree := {}
deriving DecidableEq

/-- Why a run did not return. -/
inductive Halt where
  | nullDeref
  | outOfFuel
  | panic
deriving DecidableEq

/-- Result of running a function on the memory. -/
abbrev Run (α : Type) := Except Halt α

/-- Equality of results is decidable. -/
instance decEqRun {α : Type} [DecidableEq α] : DecidableEq (Run α)
  | Except.ok a, Except.ok b =>
    if h : a = b then isTrue (congrArg Except.ok h)
    else isFalse (fun h2 => h (Except.ok.inj h2))
  | Except.error a, Except.error b =>
    if h : a = b then isTrue (congrArg Except.error h)
    else isFalse (fun h2 => h (Except.error.inj h2))
  | Except.ok _, Except.error _ => isFalse (fun h => Except.noConfusion h)
  | Except.error _, Except.ok _ => isFalse (fun h => Except.noConfusion h)

/-- Read through a pointer: `*q`. -/
def rd (m : Mem) (q : Ptr) : Run proc :=
  match q with
  | none => Except.error Halt.nullDeref
  | some i =>
    match m.procs[i]? with
    | none => Except.error Halt.nullDeref
    | some x => Except.ok x

/-- Write through a pointer: `*q = f (*q)`. -/
def wr (m : Mem) (q : Ptr) (f : proc → proc) : Run Mem :=
  match q with
  | none => Except.error Halt.nullDeref
  | some i =>
    match m.procs[i]? with
    | none => Except.error Halt.nullDeref
    | some x => Except.ok { m with procs := m.procs.set i (f x) }

/-- The assignment `q->l = v`. -/
def setL (m : Mem) (q v : Ptr) : Run Mem := wr m q fun x => { x with l := v }

/-- The assignment `q->r = v`. -/
def setR (m : Mem) (q v : Ptr) : Run Mem := wr m q fun x => { x with r := v }

/-- The assignment `q->p = v`. -/
def setP (m : Mem) (q v : Ptr) : Run Mem := wr m q fun x => { x with p := v }

/-- The assignment `q->parent = v`. -/
def setParent (m : Mem) (q v : Ptr) : Run Mem := wr m q fun x => { x with parent := v }

/-- The assignment `q->color = c`. -/
def setColor (m : Mem) (q : Ptr) (c : Color) : Run Mem := wr m q fun x => { x with color := c }

/-- The assignment `tree->root = v`. -/
def setRoot (m : Mem) (v : Ptr) : Mem := { m with tree := { m.tree with root := v } }

/-- Two's-complement wrap of an `int` result to 32 bits. -/
def wrapInt (x : Int) : Int := (x + 2 ^ 31) % 2 ^ 32 - 2 ^ 31

/-! ## The scheduling tree -/

/-- `void treeinit(struct rbtree *tree, char *lockName)`; `NPROC` is the
table capacity of `param.h`. -/
def treeinit (m : Mem) (NPROC : Nat) : Mem :=
  { m with tree := { m.tree with root := none, length := 0, total_weight := 0,
                                 period := ((NPROC / 2 : Nat) : Int) } }

/-- `int full(struct rbtree *tree)`. -/
def full (m : Mem) (NPROC : Nat) : Int :=
  if m.tree.length ≥ (NPROC : Int) then 1 else 0

/-- `void leftrotate(struct rbtree* tree, struct proc* p)`. -/
def leftrotate (m : Mem) (p : Ptr) : Run Mem := do
  let r := (← rd m p).r
  if r = none then
    return m
  let m ← setR m p (← rd m r).l
  let m ← (do if (← rd m r).l ≠ none then setParent m (← rd m r).l p else pure m)
  let m ← setParent m r (← rd m p).parent
  let m ← (do
    if (← rd m p).parent = none then pure (setRoot m r)
    else if p = (← rd m (← rd m p).parent).l then setL m (← rd m p).parent r
    else setR m (← rd m p).parent r)
  let m ← setL m r p
  setParent m p r

/-- `void rightrotate(struct rbtree* tree, struct proc* p)`. -/
def rightrotate (m : Mem) (p : Ptr) : Run Mem := do
  let l := (← rd m p).l
  if l = none then
    return m
  let m ← setL m p (← rd m l).r
  let m ← (do if (← rd m l).r ≠ none then setParent m (← rd m l).r p else pure m)
  let m ← setParent m l (← rd m p).parent
  let m ← (do
    if (← rd m p).parent = none then pure (setRoot m l)
    else if p = (← rd m (← rd m p).parent).r then setR m (← rd m p).parent l
    else setL m (← rd m p).parent l)
  let m ← setR m l p
  setParent m p l

/-- The loop `while (p->l != 0) p = p->l;` of `minproc`. -/
def minprocLoop : Nat → Mem → Ptr → Run Ptr
  | 0, _, _ => Except.error Halt.outOfFuel
  | fuel + 1, m, p => do
    if (← rd m p).l ≠ none then
      minprocLoop fuel m (← rd m p).l
    else
      return p

/-- `struct proc* minproc(struct proc* p)`. -/
def minproc (fuel : Nat) (m : Mem) (p : Ptr) : Run Ptr :=
  if p = none then pure none else minprocLoop fuel m p

/-- `void transplant(struct rbtree* tree, struct proc* u, struct proc* v)`. -/
def transplant (m : Mem) (u v : Ptr) : Run Mem := do
  let m ← (do
    if (← rd m u).parent = none then pure (setRoot m v)
    else if u = (← rd m (← rd m u).parent).l then setL m (← rd m u).parent v
    else setR m (← rd m u).parent v)
  if v ≠ none then
    setParent m v (← rd m u).parent
  else
    return m

/-- The test `q == 0 || q->color == BLACK`. -/
def nullOrBlack (m : Mem) (q : Ptr) : Run Bool := do
  if q = none then
    return true
  return decide ((← rd m q).color = Color.BLACK)

/-- The test `q != 0 && q->color == RED`. -/
def presentAndRed (m : Mem) (q : Ptr) : Run Bool := do
  if q = none then
    return false
  return decide ((← rd m q).color = Color.RED)

/-- `void fixdelete(struct rbtree* tree, struct proc* parentProc, struct proc* p)`. -/
def fixdelete : Nat → Mem → Ptr → Ptr → Run Mem
  | 0, _, _, _ => Except.error Halt.outOfFuel
  | fuel + 1, m, parentProc, p => do
    let cont ← (do if p ≠ m.tree.root then nullOrBlack m p else pure false)
    if !cont then
      return m
    if p = (← rd m parentProc).l then
      let siblingProc := (← rd m parentProc).r
      let (m, siblingProc) ← (do
        if (← rd m siblingProc).color = Color.RED then
          let m ← setColor m siblingProc Color.BLACK
          let m ← setColor m parentProc Color.RED
          let m ← leftrotate m parentProc
          pure (m, (← rd m parentProc).r)
        else pure (m, siblingProc))
      let bothBlack ← (do
        if ← nullOrBlack m (← rd m siblingProc).l then nullOrBlack m (← rd m siblingProc).r
        else pure false)
      if bothBlack then
        let m ← setColor m siblingProc Color.RED
        let p := parentProc
        let parentProc := (← rd m p).p
        fixdelete fuel m parentProc p
      else
        let (m, siblingProc) ← (do
          if ← nullOrBlack m (← rd m siblingProc).r then
            let m ← setColor m (← rd m siblingProc).l Color.BLACK
            let m ← setColor m siblingProc Color.RED
            let m ← rightrotate m siblingProc
            pure (m, (← rd m parentProc).r)
          else pure (m, siblingProc))
        let m ← setColor m siblingProc (← rd m parentProc).color
        let m ← setColor m parentProc Color.BLACK
        let m ← setColor m (← rd m siblingProc).r Color.BLACK
        let m ← leftrotate m parentProc
        fixdelete fuel m parentProc m.tree.root
    else
      let siblingProc := (← rd m parentProc).l
      let (m, siblingProc) ← (do
        if (← rd m siblingProc).color = Color.RED then
          let m ← setColor m siblingProc Color.BLACK
          let m ← setColor m parentProc Color.RED
          let m ← rightrotate m parentProc
          pure (m, (← rd m parentProc).l)
        else pure (m, siblingProc))
      let bothBlack ← (do
        if ← nullOrBlack m (← rd m siblingProc).r then nullOrBlack m (← rd m siblingProc).l
        else pure false)
      if bothBlack then
        let m ← setColor m siblingProc Color.RED
        let p := parentProc
        let parentProc := (← rd m p).p
        fixdelete fuel m parentProc p
      else
        let (m, siblingProc) ← (do
          if ← nullOrBlack m (← rd m siblingProc).l then
            let m ← setColor m (← rd m siblingProc).r Color.BLACK
            let m ← setColor m siblingProc Color.RED
            let m ← leftrotate m siblingProc
            pure (m, (← rd m parentProc).l)
          else pure (m, siblingProc))
        let m ← setColor m siblingProc (← rd m parentProc).color
        let m ← setColor m parentProc Color.BLACK
        let m ← setColor m (← rd m siblingProc).l Color.BLACK
        let m ← rightrotate m parentProc
        fixdelete fuel m parentProc m.tree.root

/-- `struct proc* deleteproc(struct rbtree* tree, struct proc* p)`; the value
returned by the C function is the `tree.root` of the result. -/
def deleteproc (fuel : Nat) (m : Mem) (p : Ptr) : Run Mem := do
  let y := p
  let y_original_color := (← rd m y).color
  let (m, x, y_original_color) ← (do
    if (← rd m p).l = none then
      let x := (← rd m p).r
      let m ← transplant m p (← rd m p).r
      pure (m, x, y_original_color)
    else if (← rd m p).r = none then
      let x := (← rd m p).l
      let m ← transplant m p (← rd m p).l
      pure (m, x, y_original_color)
    else
      let y ← minproc fuel m (← rd m p).r
      let y_original_color := (← rd m y).color
      let x := (← rd m y).r
      let m ← (do
        if (← rd m y).parent = p then
          setParent m x y
        else
          let m ← transplant m y (← rd m y).r
          let m ← setR m y (← rd m p).r
          setParent m (← rd m y).r y)
      let m ← transplant m p y
      let m ← setL m y (← rd m p).l
      let m ← setParent m (← rd m y).l y
      let m ← setColor m y (← rd m p).color
      pure (m, x, y_original_color))
  if y_original_color = Color.BLACK then
    fixdelete fuel m (← rd m p).parent x
  else
    return m

/-- `void fixinsert(struct rbtree* tree, struct proc* p)`. -/
def fixinsert : Nat → Mem → Ptr → Run Mem
  | 0, _, _ => Except.error Halt.outOfFuel
  | fuel + 1, m, p => do
    let cont ← (do
      if p ≠ m.tree.root then
        pure (decide ((← rd m (← rd m p).p).color = Color.RED))
      else pure false)
    if !cont then
      setColor m m.tree.root Color.BLACK
    else
      let parentProc := (← rd m p).p
      let grandParentProc := (← rd m (← rd m p).p).p
      if parentProc = (← rd m grandParentProc).l then
        let uncleProc := (← rd m grandParentProc).r
        if ← presentAndRed m uncleProc then
          let m ← setColor m parentProc Color.BLACK
          let m ← setColor m uncleProc Color.BLACK
          let m ← setColor m grandParentProc Color.RED
          fixinsert fuel m grandParentProc
        else
          let (m, p) ← (do
            if p = (← rd m parentProc).r then
              let m ← leftrotate m parentProc
              pure (m, parentProc)
            else pure (m, p))
          let m ← setColor m parentProc Color.BLACK
          let m ← setColor m grandParentProc Color.RED
          let m ← rightrotate m grandParentProc
          fixinsert fuel m p
      else
        let uncleProc := (← rd m grandParentProc).l
        if ← presentAndRed m uncleProc then
          let m ← setColor m parentProc Color.BLACK
          let m ← setColor m uncleProc Color.BLACK
          let m ← setColor m grandParentProc Color.RED
          fixinsert fuel m grandParentProc
        else
          let (m, p) ← (do
            if p = (← rd m parentProc).l then
              let m ← rightrotate m parentProc
              pure (m, parentProc)
            else pure (m, p))
          let m ← setColor m parentProc Color.BLACK
          let m ← setColor m grandParentProc Color.RED
          let m ← leftrotate m grandParentProc
          fixinsert fuel m p

/-- The descent loop of `add_to_tree`: returns the final `parent`. -/
def descend : Nat → Mem → Ptr → Ptr → Ptr → Run Ptr
  | 0, _, _, _, _ => Except.error Halt.outOfFuel
  | fuel + 1, m, p, trav, parent =>
    if trav = none then pure parent
    else do
      if (← rd m p).vruntime < (← rd m trav).vruntime then
        descend fuel m p (← rd m trav).l trav
      else
        descend fuel m p (← rd m trav).r trav

/-- `void add_to_tree(struct rbtree* tree, struct proc* p)`. -/
def add_to_tree (fuel : Nat) (m : Mem) (p : Ptr) : Run Mem := do
  let trav := m.tree.root
  let m ← setColor m p Color.RED
  let parent ← descend fuel m p trav none
  let m ← setP m p parent
  let m ← (do
    if parent = none then pure (setRoot m p)
    else if (← rd m p).vruntime < (← rd m parent).vruntime then setL m parent p
    else setR m parent p)
  let m ← setL m p none
  let m ← setR m p none
  let m ← setColor m p Color.RED
  let m ← fixinsert fuel m p
  let m := { m with tree := { m.tree with length := wrapInt (m.tree.length + 1) } }
  let m := { m with tree := { m.tree with
    total_weight := wrapInt (m.tree.total_weight + (← rd m p).weight) } }
  let isMin ← (do
    if m.tree.min_vruntime = none then pure true
    else pure (decide ((← rd m p).vruntime < (← rd m m.tree.min_vruntime).vruntime)))
  if isMin then
    return { m with tree := { m.tree with min_vruntime := p } }
  else
    return m

/-- `struct proc* next_process(struct rbtree* tree)`: the returned pointer and
the memory afterwards. -/
def next_process (fuel : Nat) (m : Mem) : Run (Ptr × Mem) := do
  let minProc := m.tree.min_vruntime
  if minProc = none then
    return (none, m)
  let m := { m with tree := { m.tree with min_vruntime := none } }
  let m := { m with tree := { m.tree with
    total_weight := wrapInt (m.tree.total_weight - (← rd m minProc).weight) } }
  let m ← deleteproc fuel m minProc
  let m := { m with tree := { m.tree with length := wrapInt (m.tree.length - 1) } }
  return (minProc, m)

/-- `int check_rb_tree_properties(struct proc *node, int black_count,
int *path_black_count)`: the returned flag and the final `*path_black_count`. -/
def check_rb_tree_properties : Nat → Mem → Ptr → Int → Int → Run (Int × Int)
  | 0, _, _, _, _ => Except.error Halt.outOfFuel
  | fuel + 1, m, node, black_count, path_black_count =>
    if node = none then
      if path_black_count = -1 then pure (1, black_count)
      else if black_count ≠ path_black_count then pure (0, path_black_count)
      else pure (1, path_black_count)
    else do
      let redRed ← (do
        if (← rd m node).color = Color.RED then
          if ← presentAndRed m (← rd m node).l then pure true
          else presentAndRed m (← rd m node).r
        else pure false)
      if redRed then
        return (0, path_black_count)
      let black_count :=
        if (← rd m node).color = Color.BLACK then wrapInt (black_count + 1) else black_count
      let (ok, path_black_count) ←
        check_rb_tree_properties fuel m (← rd m node).l black_count path_black_count
      if ok = 0 then
        return (0, path_black_count)
      let (ok, path_black_count) ←
        check_rb_tree_properties fuel m (← rd m node).r black_count path_black_count
      if ok = 0 then
        return (0, path_black_count)
      return (1, path_black_count)

/-- `int treebalanced(void)`. -/
def treebalanced (fuel : Nat) (m : Mem) : Run Int := do
  let rootNotBlack ← (do
    if m.tree.root ≠ none then
      pure (decide ((← rd m m.tree.root).color ≠ Color.BLACK))
    else pure false)
  if rootNotBlack then
    return 0
  else
    return (← check_rb_tree_properties fuel m m.tree.root 0 (-1)).1

/-! ## Process table operations -/

/-- Apply `f` to slot `i` of the table (a slot found by a table scan). -/
def modSlot (m : Mem) (i : Nat) (f : proc → proc) : Mem :=
  match m.procs[i]? with
  | some x => { m with procs := m.procs.set i (f x) }
  | none => m

/-- The out-parameter `struct proc_info` of `getprocinfo`. -/
structure proc_info where
  pid : Int := 0
  nice_value : Int := 0
  weight : Int := 0
  vruntime : Int := 0
  curr_runtime : Int := 0
deriving DecidableEq

/-- `void getprocinfo(int pid, struct proc_info *info)`: the contents of
`*info` afterwards.  The scan stops at the first slot whose `pid` matches. -/
def getprocinfo (m : Mem) (pid : Int) (info : proc_info) : proc_info :=
  match m.procs.find? (fun x => decide (x.pid = pid)) with
  | some x =>
    { info with pid := x.pid, nice_value := x.nice_value, weight := x.weight,
                vruntime := x.vruntime, curr_runtime := x.curr_runtime }
  | none => { info with pid := -1 }

/-- The clamping at the head of `setnice`. -/
def clampNice (nice_value : Int) : Int :=
  let nice_value := if nice_value < -20 then -20 else nice_value
  if nice_value > 19 then 19 else nice_value

/-- `int setnice(int pid, int nice_value)`: the return value and the memory
afterwards.  The scan stops at the first slot whose `pid` matches. -/
def setnice (m : Mem) (pid : Int) (nice_value : Int) : Int × Mem :=
  let nice_value := clampNice nice_value
  match m.procs.findIdx? (fun x => decide (x.pid = pid)) with
  | some i =>
    let m := modSlot m i fun x => { x with nice_value := nice_value }
    let m := modSlot m i fun x => { x with weight := compute_weight x.nice_value }
    (0, m)
  | none => (-1, m)

/-- `int kill(int pid)`: the return value and the memory afterwards. -/
def kill (m : Mem) (pid : Int) : Int × Mem :=
  match m.procs.findIdx? (fun x => decide (x.pid = pid)) with
  | some i =>
    let m := modSlot m i fun x => { x with killed := 1 }
    let m := modSlot m i fun x =>
      if x.state = procstate.SLEEPING then { x with state := procstate.RUNNABLE } else x
    (0, m)
  | none => (-1, m)

/-- `static void wakeup1(void *chan)`. -/
def wakeup1 (m : Mem) (chan : Chan) : Mem :=
  { m with procs := m.procs.map fun x =>
      if x.state = procstate.SLEEPING ∧ x.chan = chan then
        { x with state := procstate.RUNNABLE }
      else x }

/-- `void wakeup(void *chan)`. -/
def wakeup (m : Mem) (chan : Chan) : Mem := wakeup1 m chan

/-- The kernel globals of `proc.c`: the memory, `nextpid` and `initproc`. -/
structure Kernel where
  mem : Mem := {}
  nextpid : Int := 1
  initproc : Ptr := none
deriving DecidableEq

/-- The statically initialised globals of a table with `NPROC` slots. -/
def boot (NPROC : Nat) : Kernel :=
  { mem := { procs := List.replicate NPROC {} } }

/-- `int should_preempt(struct proc* current, struct proc* min_vruntime)`. -/
def should_preempt (m : Mem) (current min_vruntime : Ptr) : Run Int := do
  if min_vruntime = none then
    return 0
  if (← rd m current).curr_runtime ≥ (← rd m current).time_slice then
    return 1
  if (← rd m current).vruntime > (← rd m min_vruntime).vruntime then
    return 1
  return 0

/-- `void pinit(void)`. -/
def pinit (k : Kernel) : Kernel :=
  { k with mem := treeinit k.mem k.mem.procs.length }

/-- `static struct proc* allocproc(void)`; `kalloc_ok` tells whether `kalloc`
returns a page. -/
def allocproc (k : Kernel) (kalloc_ok : Bool) : Ptr × Kernel :=
  match k.mem.procs.findIdx? (fun x => decide (x.state = procstate.UNUSED)) with
  | none => (none, k)
  | some i =>
    let m := modSlot k.mem i fun x => { x with state := procstate.EMBRYO }
    let m := modSlot m i fun x => { x with pid := k.nextpid }
    let k := { k with mem := m, nextpid := wrapInt (k.nextpid + 1) }
    if !kalloc_ok then
      let m := modSlot k.mem i fun x => { x with kstack := false }
      let m := modSlot m i fun x => { x with state := procstate.UNUSED }
      (none, { k with mem := m })
    else
      let m := modSlot k.mem i fun x => { x with kstack := true }
      let m := modSlot m i fun x => { x with vruntime := 0 }
      let m := modSlot m i fun x => { x with curr_runtime := 0 }
      let m := modSlot m i fun x => { x with time_slice := 0 }
      let m := modSlot m i fun x => { x with nice_value := 0 }
      let m := modSlot m i fun x => { x with weight := compute_weight x.nice_value }
      let m := modSlot m i fun x => { x with l := none }
      let m := modSlot m i fun x => { x with r := none }
      let m := modSlot m i fun x => { x with p := none }
      (some i, { k with mem := m })

/-- `void userinit(void)`; `setupkvm` is taken to succeed. -/
def userinit (k : Kernel) (kalloc_ok : Bool) : Run Kernel := do
  let (p, k) := allocproc k kalloc_ok
  let k := { k with initproc := p }
  let m ← wr k.mem p fun x => { x with name := "initcode" }
  let m ← wr m p fun x => { x with state := procstate.RUNNABLE }
  return { k with mem := m }

/-- `int fork(void)` called by `curproc`; `copyuvm_ok` tells whether the
address space could be copied. -/
def fork (k : Kernel) (curproc : Ptr) (kalloc_ok copyuvm_ok : Bool) : Run (Int × Kernel) := do
  let (np, k) := allocproc k kalloc_ok
  if np = none then
    return (-1, k)
  let _ ← rd k.mem curproc
  if !copyuvm_ok then
    let m ← wr k.mem np fun x => { x with kstack := false }
    let m ← wr m np fun x => { x with state := procstate.UNUSED }
    return (-1, { k with mem := m })
  let m ← wr k.mem np fun x => { x with parent := curproc }
  let name := (← rd m curproc).name
  let m ← wr m np fun x => { x with name := name }
  let pid := (← rd m np).pid
  let m ← wr m np fun x => { x with state := procstate.RUNNABLE }
  return (pid, { k with mem := m })

/-- The reparenting loop of `exit` over the slots `is`. -/
def exitLoop (curproc initproc : Ptr) : List Nat → Mem → Mem
  | [], m => m
  | i :: is, m =>
    match m.procs[i]? with
    | none => exitLoop curproc initproc is m
    | some x =>
      if x.parent = curproc then
        let m := modSlot m i fun y => { y with parent := initproc }
        let m := if x.state = procstate.ZOMBIE then wakeup1 m (Chan.ofPtr initproc) else m
        exitLoop curproc initproc is m
      else exitLoop curproc initproc is m

/-- The table update of `void exit(void)` called by `curproc`, up to the jump
into the scheduler. -/
def exit (k : Kernel) (curproc : Ptr) : Run Kernel := do
  if curproc = k.initproc then
    throw Halt.panic
  let m := wakeup1 k.mem (Chan.ofPtr (← rd k.mem curproc).parent)
  let m := exitLoop curproc k.initproc (List.range m.procs.length) m
  let m ← wr m curproc fun x => { x with state := procstate.ZOMBIE }
  return { k with mem := m }

/-- How one pass of the `for(;;)` loop of `wait` ends. -/
inductive WaitOutcome where
  | returned (pid : Int)
  | sleeping
deriving DecidableEq

/-- One pass of the loop of `int wait(void)` called by `curproc`: the scan
returns at the first Zombie child in table order; without one it returns `-1`
when there is no child or the caller is killed, and sleeps on its own address
otherwise. -/
def wait (k : Kernel) (curproc : Ptr) : Run (WaitOutcome × Kernel) := do
  match k.mem.procs.findIdx? (fun x => decide (x.parent = curproc ∧ x.state = procstate.ZOMBIE)) with
  | some i =>
    let pid := (← rd k.mem (some i)).pid
    let m := modSlot k.mem i fun x => { x with kstack := false }
    let m := modSlot m i fun x => { x with pid := 0 }
    let m := modSlot m i fun x => { x with parent := none }
    let m := modSlot m i fun x => { x with name := "" }
    let m := modSlot m i fun x => { x with killed := 0 }
    let m := modSlot m i fun x => { x with state := procstate.UNUSED }
    return (WaitOutcome.returned pid, { k with mem := m })
  | none =>
    let havekids := k.mem.procs.any fun x => decide (x.parent = curproc)
    let stop ← (do
      if !havekids then pure true
      else pure (decide ((← rd k.mem curproc).killed ≠ 0)))
    if stop then
      return (WaitOutcome.returned (-1), k)
    let m ← wr k.mem curproc fun x => { x with chan := Chan.ofPtr curproc }
    let m ← wr m curproc fun x => { x with state := procstate.SLEEPING }
    return (WaitOutcome.sleeping, { k with mem := m })

/-- `void yield(void)` called by `curproc`, up to the jump into the scheduler. -/
def yield (k : Kernel) (curproc : Ptr) : Run Kernel := do
  let m ← wr k.mem curproc fun x => { x with state := procstate.RUNNABLE }
  return { k with mem := m }

/-- `void sleep(void *chan, struct spinlock *lk)` called by `curproc`, up to
the jump into the scheduler. -/
def sleep (k : Kernel) (curproc : Ptr) (chan : Chan) : Run Kernel := do
  if curproc = none then
    throw Halt.panic
  let m ← wr k.mem curproc fun x => { x with chan := chan }
  let m ← wr m curproc fun x => { x with state := procstate.SLEEPING }
  return { k with mem := m }

/-- The tail of `sleep`, run when `curproc` is dispatched again. -/
def sleepReturn (k : Kernel) (curproc : Ptr) : Run Kernel := do
  let m ← wr k.mem curproc fun x => { x with chan := Chan.null }
  return { k with mem := m }

/-- The selection step of `scheduler`: slot `i`, met by the scan in state
Runnable, is marked Running. -/
def schedulerPick (k : Kernel) (i : Nat) : Option Kernel :=
  match k.mem.procs[i]? with
  | some x =>
    if x.state = procstate.RUNNABLE then
      some { k with mem := modSlot k.mem i fun y => { y with state := procstate.RUNNING } }
    else none
  | none => none

/-- One operation of the lifecycle manager or the dispatcher, from `k` to `k2`. -/
inductive Step : Kernel → Kernel → Prop where
  | fork (k k2 : Kernel) (curproc : Ptr) (a b : Bool) (pid : Int) :
      CfsXv6.fork k curproc a b = Except.ok (pid, k2) → Step k k2
  | yield (k k2 : Kernel) (curproc : Ptr) :
      CfsXv6.yield k curproc = Except.ok k2 → Step k k2
  | sleep (k k2 : Kernel) (curproc : Ptr) (chan : Chan) :
      CfsXv6.sleep k curproc chan = Except.ok k2 → Step k k2
  | sleepReturn (k k2 : Kernel) (curproc : Ptr) :
      CfsXv6.sleepReturn k curproc = Except.ok k2 → Step k k2
  | wakeup (k : Kernel) (chan : Chan) :
      Step k { k with mem := CfsXv6.wakeup k.mem chan }
  | kill (k : Kernel) (pid : Int) :
      Step k { k with mem := (CfsXv6.kill k.mem pid).2 }
  | exit (k k2 : Kernel) (curproc : Ptr) :
      CfsXv6.exit k curproc = Except.ok k2 → Step k k2
  | wait (k k2 : Kernel) (curproc : Ptr) (o : WaitOutcome) :
      CfsXv6.wait k curproc = Except.ok (o, k2) → Step k k2
  | pick (k k2 : Kernel) (i : Nat) :
      schedulerPick k i = some k2 → Step k k2

/-- The states reachable from initialisation (`pinit`, `userinit`) of a table
with `NPROC` slots. -/
inductive Reachable (NPROC : Nat) : Kernel → Prop where
  | init (k : Kernel) (a : Bool) :
      userinit (pinit (boot NPROC)) a = Except.ok k → Reachable NPROC k
  | step (k k2 : Kernel) : Reachable NPROC k → Step k k2 → Reachable NPROC k2

/-- The number of slots of the table in state Runnable. -/
def runnableCount (m : Mem) : Nat :=
  (m.procs.filter fun x => decide (x.state = procstate.RUNNABLE)).length

/-! ## Specification-side notions for the tree -/

/-- In-order traversal of the subtree under `node` along the `l`/`r` links:
the slots visited, left to right. -/
def inorder : Nat → Mem → Ptr → Run (List Nat)
  | 0, _, _ => Except.error Halt.outOfFuel
  | _ + 1, _, none => pure []
  | fuel + 1, m, some i => do
    let a ← inorder fuel m (← rd m (some i)).l
    let b ← inorder fuel m (← rd m (some i)).r
    return a ++ i :: b

/-- The `vruntime` of slot `i` (`0` for a slot outside the table). -/
def vruntimeOf (m : Mem) (i : Nat) : Int :=
  match m.procs[i]? with
  | some x => x.vruntime
  | none => 0

/-- The `weight` of slot `i` (`0` for a slot outside the table). -/
def weightOf (m : Mem) (i : Nat) : Int :=
  match m.procs[i]? with
  | some x => x.weight
  | none => 0

/-- A list of integers is non-decreasing. -/
def nonDecreasing : List Int → Bool
  | a :: b :: rest => decide (a ≤ b) && nonDecreasing (b :: rest)
  | _ => true

/-- Run `add_to_tree` on the slots of `ps` in order. -/
def addAll (fuel : Nat) : Mem → List Nat → Run Mem
  | m, [] => pure m
  | m, i :: ps => do
    let m ← add_to_tree fuel m (some i)
    addAll fuel m ps

/-- The tree is empty: root none, length 0, total weight 0 and no cached
minimum (the period is whatever `treeinit` set). -/
def rbtree.isEmpty (t : rbtree) : Prop :=
  t.root = none ∧ t.length = 0 ∧ t.total_weight = 0 ∧ t.min_vruntime = none

/-! ## Auxiliary notions of the properties -/

/-- The clamp of the specification. -/
def clampSpec (v lo hi : Int) : Int := max lo (min v hi)

/-- A table with a Running process of pid 1 and an Unused slot. -/
def tableEx : Mem :=
  { procs := [{ pid := 1, state := procstate.RUNNING, weight := 1024 }, { }] }

/-- The state after `pinit` and `userinit` on a table of 64 slots. -/
def initState : Kernel :=
  match userinit (pinit (boot 64)) true with
  | Except.ok k => k
  | Except.error _ => {}

/-- Every result of the run satisfies `Q`. -/
structure Post {α : Type} (r : Run α) (Q : α → Prop) : Prop where
  out : ∀ a, r = Except.ok a → Q a

/-- The non-link part of a slot: every field the tree operations leave alone. -/
def proc.payload (x : proc) : proc :=
  { x with l := none, r := none, p := none, parent := none, color := Color.RED }

/-- The tree operations relate `m` to `m2` within their frame: only the link
fields of slots (`l`, `r`, `p`, `parent`, `color`) and `tree.root` may differ. -/
structure Frame (m m2 : Mem) : Prop where
  procs : m2.procs.map proc.payload = m.procs.map proc.payload
  length : m2.tree.length = m.tree.length
  total_weight : m2.tree.total_weight = m.tree.total_weight
  min_vruntime : m2.tree.min_vruntime = m.tree.min_vruntime
  period : m2.tree.period = m.tree.period

/-- The update of the cached minimum at the end of `add_to_tree`. -/
def minUpdate (m : Mem) (cache : Ptr) (i : Nat) : Ptr :=
  match cache with
  | none => some i
  | some c => if vruntimeOf m i < vruntimeOf m c then some i else some c

/-- A call on the tree: `add_to_tree` of slot `i`, or `next_process`. -/
inductive TreeOp where
  | add (i : Nat)
  | next
deriving DecidableEq

/-- Run a sequence of calls in order. -/
def runOps (fuel : Nat) : Mem → List TreeOp → Run Mem
  | m, [] => pure m
  | m, TreeOp.add i :: ops => do
    let m ← add_to_tree fuel m (some i)
    runOps fuel m ops
  | m, TreeOp.next :: ops => do
    let r ← next_process fuel m
    runOps fuel r.2 ops

/-- The slots added after the last `next_process` call of `ops`, in the order
of their addition, starting from the pending slots `acc`. -/
def pendingAfter : List Nat → List TreeOp → List Nat
  | acc, [] => acc
  | acc, TreeOp.add i :: ops => pendingAfter (acc ++ [i]) ops
  | _, TreeOp.next :: ops => pendingAfter [] ops

/-- The slots added since the last `next_process` call (or since the start). -/
def sinceLastNext (ops : List TreeOp) : List Nat := pendingAfter [] ops

/-- A table of unlinked records (null `l`, `r`, `p` and `parent`, weight 1024,
as `allocproc` sets the tree members) with the given `vruntime`s; the tree is
empty. -/
def fresh (vs : List Int) : Mem :=
  { procs := vs.map fun v => { vruntime := v, weight := 1024 } }

/-- The result of a run, or the empty memory when it halted. -/
def Run.get (r : Run Mem) : Mem :=
  match r with
  | Except.ok m => m
  | Except.error _ => {}

/-- A two-node red-black tree: Black root (slot 0, `vruntime` 1) with a Red
right child (slot 1, `vruntime` 2); `p` and `parent` both hold the tree parent. -/
def twoNodeTree : Mem :=
  { procs := [{ vruntime := 1, weight := 1024, color := Color.BLACK, r := some 1 },
              { vruntime := 2, weight := 1024, color := Color.RED, p := some 0,
                parent := some 0 }],
    tree := { root := some 0, length := 2, total_weight := 2048, min_vruntime := some 0 } }

/-- A three-node red-black tree: Black root (slot 0, `vruntime` 2) with Red
children (slot 1, `vruntime` 1, and slot 2, `vruntime` 3); `p` and `parent`
both hold the tree parent. -/
def threeNodeTree : Mem :=
  { procs := [{ vruntime := 2, weight := 1024, color := Color.BLACK, l := some 1, r := some 2 },
              { vruntime := 1, weight := 1024, color := Color.RED, p := some 0,
                parent := some 0 },
              { vruntime := 3, weight := 1024, color := Color.RED, p := some 0,
                parent := some 0 }],
    tree := { root := some 0, length := 3, total_weight := 3072, min_vruntime := some 1 } }

/-- A table whose only process has used up its time slice (runtime 5 of 3). -/
def sliceUsedUp : Mem :=
  { procs := [{ pid := 1, state := procstate.RUNNING, curr_runtime := 5, time_slice := 3 }] }

/-- A table with a Running parent (pid 1) and two Zombie children (pids 2, 3). -/
def zombieTable : Mem :=
  { procs := [{ pid := 1, state := procstate.RUNNING, kstack := true },
              { pid := 2, state := procstate.ZOMBIE, parent := some 0, kstack := true,
                name := "a" },
              { pid := 3, state := procstate.ZOMBIE, parent := some 0, kstack := true,
                name := "b" }] }

/-- The fields of a slot that the invariant checker reads. -/
def proc.shape (x : proc) : Ptr × Ptr × Color := (x.l, x.r, x.color)

/-- A tree with valid colours and broken order: Black root (slot 0, `vruntime`
2) whose Red left child (slot 1) has the larger `vruntime` 3. -/
def unorderedTree : Mem :=
  { procs := [{ vruntime := 2, weight := 1024, color := Color.BLACK, l := some 1 },
              { vruntime := 3, weight := 1024, color := Color.RED, p := some 0,
                parent := some 0 }],
    tree := { root := some 0, length := 2, total_weight := 2048, min_vruntime := some 1 } }

/-- The tree `unorderedTree` with the two `vruntime`s exchanged. -/
def orderedTree : Mem :=
  { procs := [{ vruntime := 3, weight := 1024, color := Color.BLACK, l := some 1 },
              { vruntime := 2, weight := 1024, color := Color.RED, p := some 0,
                parent := some 0 }],
    tree := { root := some 0, length := 2, total_weight := 2048, min_vruntime := some 1 } }

/-- The link `sel` of the child `c` of slot `i` points back to `i` (a null
child agrees). -/
def childAgrees (sel : proc → Ptr) (m : Mem) (i : Nat) (c : Ptr) : Bool :=
  match c with
  | none => true
  | some j =>
    match m.procs[j]? with
    | some y => decide (sel y = some i)
    | none => false

/-- The parent links `sel` agree with the child links over the tree reachable
from the root: the root has none, and each child of a node names that node. -/
def parentLinksAgree (sel : proc → Ptr) (fuel : Nat) (m : Mem) : Run Bool := do
  let nodes ← inorder fuel m m.tree.root
  let rootOk :=
    match m.tree.root with
    | none => true
    | some r =>
      match m.procs[r]? with
      | some y => decide (sel y = none)
      | none => false
  return rootOk && nodes.all fun i =>
    match m.procs[i]? with
    | some x => childAgrees sel m i x.l && childAgrees sel m i x.r
    | none => false

/-- A right-leaning tree, slot 0 (root) over slot 1 over its left child slot 2;
`p` and `parent` both hold the tree parent. -/
def rightSpine : Mem :=
  { procs := [{ vruntime := 1, color := Color.BLACK, r := some 1 },
              { vruntime := 3, color := Color.RED, l := some 2, p := some 0, parent := some 0 },
              { vruntime := 2, color := Color.BLACK, p := some 1, parent := some 1 }],
    tree := { root := some 0, length := 3 } }

/-- The mirror image of `rightSpine`. -/
def leftSpine : Mem :=
  { procs := [{ vruntime := 3, color := Color.BLACK, l := some 1 },
              { vruntime := 1, color := Color.RED, r := some 2, p := some 0, parent := some 0 },
              { vruntime := 2, color := Color.BLACK, p := some 1, parent := some 1 }],
    tree := { root := some 0, length := 3 } }

/-- A chain of three slots as `add_to_tree` links them: the tree parents are
in `p`, and `parent` (the parent process) is null in every slot. -/
def chainByP : Mem :=
  { procs := [{ vruntime := 1, color := Color.BLACK, r := some 1 },
              { vruntime := 2, color := Color.RED, r := some 2, p := some 0 },
              { vruntime := 3, color := Color.RED, p := some 1 }],
    tree := { root := some 0, length := 3 } }

/-- What `wakeup1(c)` does to one slot. -/
def wakeSlot (c : Chan) (x : proc) : proc :=
  if x.state = procstate.SLEEPING ∧ x.chan = c then
    { x with state := procstate.RUNNABLE }
  else x

/-- Some slot of `is` holds a Zombie child of `curproc`. -/
def zombieChildIn (curproc : Ptr) (m : Mem) (is : List Nat) : Bool :=
  is.any fun i =>
    match m.procs[i]? with
    | some z => decide (z.parent = curproc ∧ z.state = procstate.ZOMBIE)
    | none => false

/-- What the reparenting loop of `exit` does to one slot: `visited` tells
whether the loop visits the slot, `woke` whether it calls `wakeup1(initproc)`. -/
def exitSlot (curproc initproc : Ptr) (visited woke : Bool) (y : proc) : proc :=
  { y with
    parent := if visited = true ∧ y.parent = curproc then initproc else y.parent,
    state := if woke = true ∧ y.state = procstate.SLEEPING ∧ y.chan = Chan.ofPtr initproc
             then procstate.RUNNABLE else y.state }

/-- The memory of `exit` after its `wakeup1` call and its reparenting loop,
`x` being the slot of the caller `P`. -/
def exitMem (k : Kernel) (P : Nat) (x : proc) : Mem :=
  exitLoop (some P) k.initproc (List.range k.mem.procs.length)
    (wakeup1 k.mem (Chan.ofPtr x.parent))

/-- A table in which init (slot 0) sleeps in `wait`, its child `P` (slot 1) is
Running and the child of `P` (slot 2) is a Zombie. -/
def exitEx : Kernel :=
  { mem := { procs := [{ pid := 1, state := procstate.SLEEPING, chan := Chan.slot 0 },
                        { pid := 2, state := procstate.RUNNING, parent := some 0 },
                        { pid := 3, state := procstate.ZOMBIE, parent := some 1 }] },
    nextpid := 4, initproc := some 0 }

/-- The pid invariant of the table: every non-Unused slot has a positive pid
below `nextpid`, and two non-Unused slots with the same pid are the same slot. -/
def PidInv (k : Kernel) : Prop :=
  (∀ (i : Nat) (x : proc), k.mem.procs[i]? = some x → x.state ≠ procstate.UNUSED →
    0 < x.pid ∧ x.pid < k.nextpid) ∧
  (∀ (i j : Nat) (x y : proc), k.mem.procs[i]? = some x → k.mem.procs[j]? = some y →
    x.state ≠ procstate.UNUSED → y.state ≠ procstate.UNUSED → x.pid = y.pid → i = j)

/-- One operation on the table: those that hand out, keep or release pids
(`allocproc`, `fork`, `exit`, the reap in `wait`, `kill`, `wakeup`, `setnice`)
and those that move a process between Runnable, Running and Sleeping (the
selection step of the dispatcher, `yield`, `sleep`, the sleeping branch of
`wait`).  `exit`, `yield`, `sleep` and `wait` are run by a process, `myproc()`:
their caller is a slot that is not Unused. -/
inductive PidStep : Kernel → Kernel → Prop where
  | alloc (k : Kernel) (b : Bool) : PidStep k (allocproc k b).2
  | fork (k k2 : Kernel) (curproc : Ptr) (a b : Bool) (pid : Int) :
      CfsXv6.fork k curproc a b = Except.ok (pid, k2) → PidStep k k2
  | exit (k k2 : Kernel) (P : Nat) (x : proc) :
      k.mem.procs[P]? = some x → x.state ≠ procstate.UNUSED →
      CfsXv6.exit k (some P) = Except.ok k2 → PidStep k k2
  | reap (k k2 : Kernel) (curproc : Ptr) (pid : Int) :
      CfsXv6.wait k curproc = Except.ok (WaitOutcome.returned pid, k2) → PidStep k k2
  | kill (k : Kernel) (pid : Int) : PidStep k { k with mem := (CfsXv6.kill k.mem pid).2 }
  | wakeup (k : Kernel) (chan : Chan) : PidStep k { k with mem := CfsXv6.wakeup k.mem chan }
  | setnice (k : Kernel) (pid v : Int) :
      PidStep k { k with mem := (CfsXv6.setnice k.mem pid v).2 }
  | pick (k k2 : Kernel) (i : Nat) : schedulerPick k i = some k2 → PidStep k k2
  | yield (k k2 : Kernel) (P : Nat) (x : proc) :
      k.mem.procs[P]? = some x → x.state ≠ procstate.UNUSED →
      CfsXv6.yield k (some P) = Except.ok k2 → PidStep k k2
  | sleep (k k2 : Kernel) (P : Nat) (x : proc) (chan : Chan) :
      k.mem.procs[P]? = some x → x.state ≠ procstate.UNUSED →
      CfsXv6.sleep k (some P) chan = Except.ok k2 → PidStep k k2
  | waitSleep (k k2 : Kernel) (P : Nat) (x : proc) :
      k.mem.procs[P]? = some x → x.state ≠ procstate.UNUSED →
      CfsXv6.wait k (some P) = Except.ok (WaitOutcome.sleeping, k2) → PidStep k k2

/-- The states reachable from the initial table of `NPROC` slots (all Unused
with pid 0, `nextpid == 1`) by the operations of `PidStep`. -/
inductive PidReachable (NPROC : Nat) : Kernel → Prop where
  | init : PidReachable NPROC (boot NPROC)
  | step (k k2 : Kernel) : PidReachable NPROC k → PidStep k k2 → PidReachable NPROC k2

/-- The states reachable as in `PidReachable` along a run in which every
operation starts with `nextpid` below `INT_MAX`, so that `nextpid++` never
overflows. -/
inductive PidReachableBelow (NPROC : Nat) : Kernel → Prop where
  | init : PidReachableBelow NPROC (boot NPROC)
  | step (k k2 : Kernel) : PidReachableBelow NPROC k → k.nextpid < 2 ^ 31 - 1 →
      PidStep k k2 → PidReachableBelow NPROC k2

/-- Every non-Unused slot of `m2` was non-Unused with the same pid in `m`. -/
def SlotsKept (m m2 : Mem) : Prop :=
  ∀ (j : Nat) (x2 : proc), m2.procs[j]? = some x2 → x2.state ≠ procstate.UNUSED →
    ∃ x, m.procs[j]? = some x ∧ x.state ≠ procstate.UNUSED ∧ x.pid = x2.pid

/-- The table of 64 slots after slot 0 was allocated (pid 1) and forked slot 1
(pid 2, Runnable). -/
def forkedTable : Kernel :=
  match fork (allocproc (boot 64) true).2 (some 0) true true with
  | Except.ok r => r.2
  | Except.error _ => {}

/-- The dispatcher has selected slot 1 of `forkedTable`: it is Running. -/
def pickedTable : Kernel :=
  match schedulerPick forkedTable 1 with
  | some k => k
  | none => {}

/-- Slot 1 of `pickedTable` has called `exit`: it is a Zombie with pid 2. -/
def exitedTable : Kernel :=
  match exit pickedTable (some 1) with
  | Except.ok k => k
  | Except.error _ => {}

/-- Slot 0 has reaped its Zombie child in `wait`: slot 1 is Unused with pid 0. -/
def reapedTable : Kernel :=
  match wait exitedTable (some 0) with
  | Except.ok r => r.2
  | Except.error _ => {}

/-- The table of 64 slots after `n` allocations that failed in `kalloc`: slot
0 is Unused again and holds the last pid handed out. -/
def afterFailedAllocs (n : Nat) : Kernel :=
  { mem := { procs := ({ pid := (n : Int) } : proc) :: List.replicate 63 {} },
    nextpid := (n : Int) + 1 }

/-- The table of 64 slots after the allocation that makes `nextpid` overflow. -/
def pidWrapped : Kernel :=
  { mem := { procs :=
      ({ pid := 2147483647, state := procstate.EMBRYO, kstack := true, weight := 1024 } : proc)
        :: List.replicate 63 {} },
    nextpid := -2147483648 }

/-- The tree members of a slot: `color`, `l`, `r`, `p` and `parent`. -/
structure Links where
  color : Color
  l : Ptr
  r : Ptr
  p : Ptr
  parent : Ptr
deriving DecidableEq

/-- The link state of the memory: `tree.root`, `tree.min_vruntime` and the
tree members of every slot. -/
structure LinkState where
  root : Ptr
  min_vruntime : Ptr
  slots : List Links
deriving DecidableEq

/-- The link state of `m`. -/
def linkState (m : Mem) : LinkState :=
  { root := m.tree.root, min_vruntime := m.tree.min_vruntime,
    slots := m.procs.map fun x => ⟨x.color, x.l, x.r, x.p, x.parent⟩ }

/-- A finite binary tree of coloured nodes: a tree over the `l`/`r` links
with the slots forgotten. -/
inductive ColorTree where
  | nil
  | node (c : Color) (l r : ColorTree)
deriving DecidableEq

/-- The finite tree under `node` along the `l`/`r` links. -/
def treeShape : Nat → Mem → Ptr → Run ColorTree
  | 0, _, _ => Except.error Halt.outOfFuel
  | _ + 1, _, none => pure ColorTree.nil
  | fuel + 1, m, some i => do
    let x ← rd m (some i)
    let tl ← treeShape fuel m x.l
    let tr ← treeShape fuel m x.r
    return ColorTree.node x.color tl tr

/-- Number of nodes on the longest path from the root to a nil link. -/
def ColorTree.height : ColorTree → Nat
  | ColorTree.nil => 0
  | ColorTree.node _ l r => max l.height r.height + 1

/-- The tree is a Red node. -/
def ColorTree.isRed : ColorTree → Bool
  | ColorTree.node Color.RED _ _ => true
  | _ => false

/-- The root is Black (false for the empty tree). -/
def ColorTree.rootBlack : ColorTree → Bool
  | ColorTree.node Color.BLACK _ _ => true
  | _ => false

/-- No Red node has a Red child. -/
def ColorTree.noRedRed : ColorTree → Bool
  | ColorTree.nil => true
  | ColorTree.node c l r =>
    !(decide (c = Color.RED) && (l.isRed || r.isRed)) && l.noRedRed && r.noRedRed

/-- The number of Black nodes on every path from the root to a nil link, left
to right. -/
def ColorTree.pathBlackCounts : ColorTree → List Int
  | ColorTree.nil => [0]
  | ColorTree.node c l r =>
    (l.pathBlackCounts ++ r.pathBlackCounts).map
      fun n => n + (if c = Color.BLACK then 1 else 0)

/-- Every path from the root to a nil link holds the same number of Black nodes. -/
def ColorTree.sameBlackCount (t : ColorTree) : Prop :=
  ∀ a ∈ t.pathBlackCounts, ∀ b ∈ t.pathBlackCounts, a = b

/-- The red-black properties of the specification: the tree is empty, or its
root is Black, no Red node has a Red child and every path from the root to a
nil link holds the same number of Black nodes. -/
def ColorTree.isRedBlack (t : ColorTree) : Prop :=
  t = ColorTree.nil ∨ (t.rootBlack = true ∧ t.noRedRed = true ∧ t.sameBlackCount)

/-- The property `sameBlackCount` is decidable. -/
instance ColorTree.decSameBlackCount (t : ColorTree) : Decidable t.sameBlackCount := by
  unfold ColorTree.sameBlackCount
  infer_instance

/-- The property `isRedBlack` is decidable. -/
instance ColorTree.decIsRedBlack (t : ColorTree) : Decidable t.isRedBlack := by
  unfold ColorTree.isRedBlack
  infer_instance

/-- The number of Black nodes on the leftmost path. -/
def ColorTree.firstCount : ColorTree → Int
  | ColorTree.nil => 0
  | ColorTree.node c l _ => l.firstCount + (if c = Color.BLACK then 1 else 0)

/-- The value `*path_black_count` holds after a successful check of `t`
entered with `black_count = b` and `*path_black_count = pbc`. -/
def checkTarget (t : ColorTree) (b pbc : Int) : Int :=
  if pbc = -1 then b + t.firstCount else pbc

/-- A table for the tie: slot 0 is the parent process; slot 1 (`A`, nice 0)
and slot 2 (`B`, nice -20) have `vruntime` 7 and stale tree members. -/
def tieTable : Mem :=
  { procs := [{ pid := 1, state := procstate.SLEEPING, weight := 1024 },
              { pid := 2, state := procstate.RUNNABLE, parent := some 0, weight := 1024,
                vruntime := 7, l := some 2, p := some 0, color := Color.RED },
              { pid := 3, state := procstate.RUNNABLE, parent := some 0, nice_value := -20,
                weight := 88817, vruntime := 7, r := some 1, color := Color.BLACK }] }

/-- Modelled from the spec: the caller of `next_process`, which is not part
of this repository, recomputes the cached minimum after the call (the cache is
invalidated, not recomputed, and "caller must recompute the new minimum
afterward"): `tree->min_vruntime = minproc(tree->root)`. -/
def extractMin (fuel : Nat) (m : Mem) : Run (Ptr × Mem) := do
  let r ← next_process fuel m
  let min ← minproc fuel r.2 r.2.tree.root
  return (r.1, { r.2 with tree := { r.2.tree with min_vruntime := min } })

/-- The round trip: `n` calls of `extractMin` in a row, with the entries they
return and the memory afterwards. -/
def drain (fuel : Nat) : Nat → Mem → Run (List Ptr × Mem)
  | 0, m => pure ([], m)
  | n + 1, m => do
    let r ← extractMin fuel m
    let rest ← drain fuel n r.2
    return (r.1 :: rest.1, rest.2)

/-- A table with a parent process (slot 0) and the record it forked (slot 1,
`parent` slot 0, `vruntime` 1); the tree is empty. -/
def forkedRecord : Mem :=
  { procs := [{ pid := 1, state := procstate.SLEEPING, weight := 1024 },
              { pid := 2, state := procstate.RUNNABLE, parent := some 0, weight := 1024,
                vruntime := 1 }] }

/-! # Properties -/

/-! ## Weights -/

/-- C7: for every nice value in [-20, 19], `compute_weight` returns
`floor(1024 / 1.25^nice)` in exact rational arithmetic, a positive integer. -/
theorem compute_weight_eq_floor (nice : Int) (h1 : -20 ≤ nice) (h2 : nice ≤ 19) :
    compute_weight nice = weightSpec nice ∧ 0 < compute_weight nice := by
  interval_cases nice <;> decide!

/-- Witness of `compute_weight_eq_floor` at nice value -5. -/
theorem compute_weight_eq_floor_witness :
    compute_weight (-5) = weightSpec (-5) ∧ 0 < compute_weight (-5) :=
  compute_weight_eq_floor (-5) (by decide) (by decide)

theorem compute_weight_step (a : Int) (h1 : -20 ≤ a) (h2 : a ≤ 18) :
    compute_weight (a + 1) < compute_weight a := by
  interval_cases a <;> decide!

/-- C8: `compute_weight` is strictly decreasing in the nice value over
[-20, 19], and `compute_weight 0` is 1024. -/
theorem compute_weight_strictly_decreasing :
    (∀ a b : Int, -20 ≤ a → a < b → b ≤ 19 → compute_weight b < compute_weight a) ∧
    compute_weight 0 = 1024 := by
  refine ⟨?_, by decide!⟩
  intro a b ha hab hb
  obtain ⟨k, rfl⟩ : ∃ k : Nat, b = a + 1 + k := ⟨(b - a - 1).toNat, by omega⟩
  induction k with
  | zero => simpa using compute_weight_step a ha (by omega)
  | succ k ih =>
    have h3 := ih (by omega) (by omega)
    have h4 := compute_weight_step (a + 1 + k) (by omega) (by omega)
    have h5 : a + 1 + ((k + 1 : Nat) : Int) = a + 1 + k + 1 := by push_cast; ring
    rw [h5]
    omega

/-! ## `setnice`, `kill`, `getprocinfo` -/

theorem clampNice_eq (v : Int) : clampNice v = clampSpec v (-20) 19 := by
  unfold clampNice clampSpec
  simp only [max_def, min_def]
  split_ifs <;> omega

theorem clampNice_idem (v : Int) : clampNice (clampNice v) = clampNice v := by
  unfold clampNice
  simp only
  split_ifs <;> omega

theorem findIdx?_some_spec {α : Type} (l : List α) (f : α → Bool) (i : Nat)
    (h : l.findIdx? f = some i) :
    ∃ x, l[i]? = some x ∧ f x = true ∧ ∀ j, j < i → ∀ y, l[j]? = some y → f y = false := by
  induction l generalizing i with
  | nil => simp at h
  | cons a l ih =>
    rw [List.findIdx?_cons] at h
    by_cases ha : f a = true
    · simp [ha] at h
      subst h
      exact ⟨a, by simp, ha, by intro j hj; omega⟩
    · simp [ha] at h
      obtain ⟨i', hi', rfl⟩ := h
      obtain ⟨x, hx, hfx, hlt⟩ := ih i' hi'
      refine ⟨x, by simpa using hx, hfx, ?_⟩
      intro j hj y hy
      cases j with
      | zero => simp at hy; subst hy; simpa using ha
      | succ j => exact hlt j (by omega) y (by simpa using hy)

theorem findIdx?_none_spec {α : Type} (l : List α) (f : α → Bool)
    (h : ∀ x ∈ l, f x = false) : l.findIdx? f = none :=
  List.findIdx?_eq_none_iff.mpr h

theorem find?_none_spec {α : Type} (l : List α) (f : α → Bool)
    (h : ∀ x ∈ l, f x = false) : l.find? f = none :=
  List.find?_eq_none.mpr (fun x hx => by simp [h x hx])

theorem modSlot_modSlot (m : Mem) (i : Nat) (f g : proc → proc) (x : proc)
    (hx : m.procs[i]? = some x) :
    modSlot (modSlot m i f) i g = { m with procs := m.procs.set i (g (f x)) } := by
  have hl : i < m.procs.length := by
    by_contra hl
    simp [List.getElem?_eq_none (not_lt.mp hl)] at hx
  simp [modSlot, hx, hl]

/-- C9: `setnice` behaves on `v` as on the clamped value; when it returns 0
the first slot in table order with that pid gets the clamped nice value and
the weight computed from it, and nothing else in the memory changes. -/
theorem setnice_clamped (m : Mem) (pid v : Int) :
    setnice m pid v = setnice m pid (clampSpec v (-20) 19) ∧
    ((setnice m pid v).1 = 0 →
      ∃ i x, m.procs[i]? = some x ∧ x.pid = pid ∧
        (∀ j, j < i → ∀ y, m.procs[j]? = some y → y.pid ≠ pid) ∧
        (setnice m pid v).2 = { m with procs := (m.procs.set i
          { x with nice_value := clampSpec v (-20) 19,
                   weight := compute_weight (clampSpec v (-20) 19) }) }) := by
  constructor
  · unfold setnice
    simp only [← clampNice_eq, clampNice_idem]
  · intro h
    unfold setnice at h ⊢
    cases hf : m.procs.findIdx? (fun x => decide (x.pid = pid)) with
    | none => simp [hf] at h
    | some i =>
      obtain ⟨x, hx, hpx, hlt⟩ := findIdx?_some_spec _ _ _ hf
      refine ⟨i, x, hx, by simpa using hpx, ?_, ?_⟩
      · intro j hj y hy
        simpa using hlt j hj y hy
      · simp only [modSlot_modSlot m i _ _ x hx, clampNice_eq]

/-- Witness of `setnice_clamped`: `setnice(1, 50)` on `tableEx`. -/
theorem setnice_clamped_witness :
    (setnice tableEx 1 50).1 = 0 ∧
    ∃ i x, tableEx.procs[i]? = some x ∧ x.pid = 1 ∧
      (∀ j, j < i → ∀ y, tableEx.procs[j]? = some y → y.pid ≠ 1) ∧
      (setnice tableEx 1 50).2 = { tableEx with procs := (tableEx.procs.set i
        { x with nice_value := clampSpec 50 (-20) 19,
                 weight := compute_weight (clampSpec 50 (-20) 19) }) } :=
  ⟨by decide!, (setnice_clamped tableEx 1 50).2 (by decide!)⟩

/-- C10 as stated fails: pid 0 is the pid of no non-Unused slot of `tableEx`,
yet `setnice` and `kill` return 0 and write to the Unused slot, and
`getprocinfo` reports pid 0. -/
theorem unused_slot_pid_is_found :
    (∀ x ∈ tableEx.procs, x.state ≠ procstate.UNUSED → x.pid ≠ 0) ∧
    (setnice tableEx 0 5).1 = 0 ∧ (setnice tableEx 0 5).2 ≠ tableEx ∧
    (kill tableEx 0).1 = 0 ∧ (kill tableEx 0).2 ≠ tableEx ∧
    (getprocinfo tableEx 0 {}).pid = 0 := by
  decide!

/-- C10, amended: for a pid that is the `pid` field of no slot at all (the
scans compare only that field, whatever the state of the slot), `setnice` and
`kill` return -1 and leave the memory unchanged, and `getprocinfo` reports
pid -1 and writes no other field. -/
theorem unknown_pid_not_found (m : Mem) (pid v : Int) (info : proc_info)
    (h : ∀ x ∈ m.procs, x.pid ≠ pid) :
    setnice m pid v = (-1, m) ∧ kill m pid = (-1, m) ∧
    getprocinfo m pid info = { info with pid := -1 } := by
  have hf : m.procs.findIdx? (fun x => decide (x.pid = pid)) = none :=
    findIdx?_none_spec _ _ (fun x hx => by simpa using h x hx)
  have hg : m.procs.find? (fun x => decide (x.pid = pid)) = none :=
    find?_none_spec _ _ (fun x hx => by simpa using h x hx)
  simp [setnice, kill, getprocinfo, hf, hg]

/-- Witness of `unknown_pid_not_found`: pid 7 on `tableEx`. -/
theorem unknown_pid_not_found_witness :
    (∀ x ∈ tableEx.procs, x.pid ≠ 7) ∧
    setnice tableEx 7 3 = (-1, tableEx) ∧ kill tableEx 7 = (-1, tableEx) ∧
    getprocinfo tableEx 7 {} = { ({} : proc_info) with pid := -1 } :=
  ⟨by decide, unknown_pid_not_found tableEx 7 3 {} (by decide)⟩

/-! ## Reasoning about runs -/

theorem Post.pure {α : Type} {a : α} {Q : α → Prop} (h : Q a) : Post (pure a : Run α) Q := by
  constructor
  intro b hb
  cases hb
  exact h

theorem Post.throw {α : Type} {e : Halt} {Q : α → Prop} : Post (throw e : Run α) Q := by
  constructor
  intro b hb
  cases hb

theorem Post.bind {α β : Type} {x : Run α} {f : α → Run β} {P : α → Prop} {Q : β → Prop}
    (hx : Post x P) (hf : ∀ a, P a → Post (f a) Q) : Post (x >>= f) Q := by
  constructor
  intro b hb
  cases x with
  | error e => cases hb
  | ok a => exact (hf a (hx.out a rfl)).out b hb

theorem Post.bind_eq {α β : Type} {x : Run α} {f : α → Run β} {Q : β → Prop}
    (hf : ∀ a, x = Except.ok a → Post (f a) Q) : Post (x >>= f) Q :=
  Post.bind (⟨fun _ h => h⟩ : Post x (fun a => x = Except.ok a)) hf

theorem Post.bind_any {α β : Type} {x : Run α} {f : α → Run β} {Q : β → Prop}
    (hf : ∀ a, Post (f a) Q) : Post (x >>= f) Q :=
  Post.bind_eq (fun a _ => hf a)

theorem Post.ite {α : Type} {c : Prop} [Decidable c] {x y : Run α} {Q : α → Prop}
    (hx : c → Post x Q) (hy : ¬ c → Post y Q) : Post (if c then x else y) Q := by
  split
  · exact hx ‹_›
  · exact hy ‹_›

/-! ## The lifecycle operations never touch the tree -/

theorem modSlot_tree (m : Mem) (i : Nat) (f : proc → proc) : (modSlot m i f).tree = m.tree := by
  unfold modSlot
  split <;> rfl

theorem wr_tree (t : rbtree) (m : Mem) (q : Ptr) (f : proc → proc) (h : m.tree = t) :
    Post (wr m q f) (fun m2 => m2.tree = t) := by
  constructor
  intro m2 h2
  unfold wr at h2
  split at h2
  · cases h2
  · split at h2
    · cases h2
    · cases h2
      exact h

theorem Post.bind_tree {β : Type} (t : rbtree) {x : Run Mem} {f : Mem → Run β} {Q : β → Prop}
    (hx : Post x (fun m2 => m2.tree = t)) (hf : ∀ m1, m1.tree = t → Post (f m1) Q) :
    Post (x >>= f) Q :=
  Post.bind hx hf

theorem exitLoop_tree (c i0 : Ptr) (is : List Nat) (m : Mem) :
    (exitLoop c i0 is m).tree = m.tree := by
  induction is generalizing m with
  | nil => rfl
  | cons i is ih =>
    unfold exitLoop
    split
    · exact ih m
    · split
      · rw [ih]
        split <;> simp [wakeup1, modSlot_tree]
      · exact ih m

theorem allocproc_tree (k : Kernel) (a : Bool) : (allocproc k a).2.mem.tree = k.mem.tree := by
  unfold allocproc
  split
  · rfl
  · split <;> simp [modSlot_tree]

theorem fork_tree (k : Kernel) (c : Ptr) (a b : Bool) :
    Post (fork k c a b) (fun r => r.2.mem.tree = k.mem.tree) := by
  have h0 := allocproc_tree k a
  unfold fork
  generalize allocproc k a = r at h0
  obtain ⟨np, k1⟩ := r
  dsimp only at h0 ⊢
  repeat' first
    | intro _
    | exact Post.pure (by assumption)
    | exact wr_tree _ _ _ _ (by assumption)
    | apply Post.ite
    | apply Post.bind_tree k.mem.tree
    | apply Post.bind_any

theorem step_tree (k k2 : Kernel) (h : Step k k2) : k2.mem.tree = k.mem.tree := by
  cases h with
  | fork _ c a b pid h => exact (fork_tree k c a b).out _ h
  | yield _ c h =>
    refine (?_ : Post (yield k c) (fun r => r.mem.tree = k.mem.tree)).out _ h
    unfold yield
    exact Post.bind_tree k.mem.tree (wr_tree _ _ _ _ rfl) (fun m1 h1 => Post.pure h1)
  | sleep _ c chan h =>
    refine (?_ : Post (sleep k c chan) (fun r => r.mem.tree = k.mem.tree)).out _ h
    unfold sleep
    have h0 : k.mem.tree = k.mem.tree := rfl
    repeat' first
      | intro _
      | exact Post.pure (by assumption)
      | exact Post.throw
      | exact wr_tree _ _ _ _ (by assumption)
      | apply Post.ite
      | apply Post.bind_tree k.mem.tree
      | apply Post.bind_any
  | sleepReturn _ c h =>
    refine (?_ : Post (sleepReturn k c) (fun r => r.mem.tree = k.mem.tree)).out _ h
    unfold sleepReturn
    exact Post.bind_tree k.mem.tree (wr_tree _ _ _ _ rfl) (fun m1 h1 => Post.pure h1)
  | wakeup chan => rfl
  | kill pid =>
    show (kill k.mem pid).2.tree = k.mem.tree
    unfold kill
    split <;> simp [modSlot_tree]
  | exit _ c h =>
    refine (?_ : Post (exit k c) (fun r => r.mem.tree = k.mem.tree)).out _ h
    unfold exit
    have h0 : ∀ ch, (exitLoop c k.initproc (List.range (wakeup1 k.mem ch).procs.length)
        (wakeup1 k.mem ch)).tree = k.mem.tree := fun ch => by
      rw [exitLoop_tree]; rfl
    repeat' first
      | intro _
      | exact Post.pure (by assumption)
      | exact Post.throw
      | exact wr_tree _ _ _ _ (h0 _)
      | exact wr_tree _ _ _ _ (by assumption)
      | apply Post.ite
      | apply Post.bind_tree k.mem.tree
      | apply Post.bind_any
  | wait _ c o h =>
    refine (?_ : Post (wait k c) (fun r => r.2.mem.tree = k.mem.tree)).out _ h
    unfold wait
    have h0 : k.mem.tree = k.mem.tree := rfl
    split
    · apply Post.bind_any
      intro _
      apply Post.pure
      simp [modSlot_tree]
    · repeat' first
        | intro _
        | exact Post.pure rfl
        | exact Post.pure (by assumption)
        | exact wr_tree _ _ _ _ (by assumption)
        | apply Post.ite
        | apply Post.bind_tree k.mem.tree
        | apply Post.bind_any
  | pick _ i h =>
    unfold schedulerPick at h
    split at h
    · split at h
      · cases h
        exact modSlot_tree _ _ _
      · cases h
    · cases h

theorem userinit_tree (k k2 : Kernel) (a : Bool) (h : userinit k a = Except.ok k2) :
    k2.mem.tree = k.mem.tree := by
  refine (?_ : Post (userinit k a) (fun r => r.mem.tree = k.mem.tree)).out _ h
  have h0 := allocproc_tree k a
  unfold userinit
  generalize allocproc k a = r at h0
  obtain ⟨np, k1⟩ := r
  dsimp only at h0 ⊢
  repeat' first
    | intro _
    | exact Post.pure (by assumption)
    | exact wr_tree _ _ _ _ (by assumption)
    | apply Post.bind_tree k.mem.tree

theorem initState_reachable : Reachable 64 initState :=
  Reachable.init initState true (by decide!)

/-- C6 as stated fails: right after initialisation slot 0 is Runnable, yet
the tree has length 0 and no slot is linked into it. -/
theorem runnable_slot_not_linked :
    Reachable 64 initState ∧ runnableCount initState.mem = 1 ∧
    initState.mem.tree.length = 0 ∧
    inorder 65 initState.mem initState.mem.tree.root = Except.ok [] :=
  ⟨Reachable.init initState true (by decide!), by decide!, by decide!, by decide!⟩

/-- C6, amended: in every state reachable from initialisation through fork,
yield, sleep, wakeup, kill, exit, wait and the selection step of the
dispatcher, the tree is as `pinit` left it: root none, length 0, total weight
0, no cached minimum, so no slot is linked into it whatever its state. -/
theorem lifecycle_leaves_tree_empty (NPROC : Nat) (k : Kernel) (h : Reachable NPROC k) :
    k.mem.tree.root = none ∧ k.mem.tree.length = 0 ∧ k.mem.tree.total_weight = 0 ∧
    k.mem.tree.min_vruntime = none ∧
    ∀ fuel, inorder (fuel + 1) k.mem k.mem.tree.root = Except.ok [] := by
  have key : k.mem.tree = { period := ((NPROC / 2 : Nat) : Int) } := by
    induction h with
    | init k a h =>
      rw [userinit_tree _ _ _ h]
      simp [pinit, treeinit, boot]
    | step k k2 _ hs ih => rw [step_tree k k2 hs, ih]
  rw [key]
  refine ⟨rfl, rfl, rfl, rfl, fun fuel => rfl⟩

/-- Witness of `lifecycle_leaves_tree_empty`: the state after initialisation. -/
theorem lifecycle_leaves_tree_empty_witness :
    Reachable 64 initState ∧ initState.mem.tree.root = none ∧
    initState.mem.tree.length = 0 :=
  ⟨initState_reachable,
    (lifecycle_leaves_tree_empty 64 initState initState_reachable).1,
    (lifecycle_leaves_tree_empty 64 initState initState_reachable).2.1⟩

/-! ## The frame of the tree operations -/

theorem Frame.refl (m : Mem) : Frame m m := ⟨rfl, rfl, rfl, rfl, rfl⟩

theorem Frame.trans {a b c : Mem} (h1 : Frame a b) (h2 : Frame b c) : Frame a c :=
  ⟨h2.procs.trans h1.procs, h2.length.trans h1.length,
    h2.total_weight.trans h1.total_weight, h2.min_vruntime.trans h1.min_vruntime,
    h2.period.trans h1.period⟩

theorem wr_frame (m : Mem) (q : Ptr) (f : proc → proc)
    (hf : ∀ x, (f x).payload = x.payload) : Post (wr m q f) (Frame m) := by
  constructor
  intro m2 h
  cases q with
  | none => cases h
  | some i =>
    unfold wr at h
    cases hx : m.procs[i]? with
    | none => simp [hx] at h
    | some x =>
      simp only [hx] at h
      cases h
      refine ⟨?_, rfl, rfl, rfl, rfl⟩
      simp only [List.map_set, hf]
      apply List.ext_getElem?
      intro n
      by_cases hn : i = n
      · subst hn
        have hl : i < m.procs.length := by
          by_contra hl
          simp [List.getElem?_eq_none (not_lt.mp hl)] at hx
        have hx2 : m.procs[i] = x := by
          rw [List.getElem?_eq_getElem hl] at hx
          exact Option.some.inj hx
        simp [List.getElem?_set, hl, hx2]
      · simp [List.getElem?_set, hn]

theorem setL_frame (m : Mem) (q v : Ptr) : Post (setL m q v) (Frame m) :=
  wr_frame m q _ (fun _ => rfl)

theorem setR_frame (m : Mem) (q v : Ptr) : Post (setR m q v) (Frame m) :=
  wr_frame m q _ (fun _ => rfl)

theorem setP_frame (m : Mem) (q v : Ptr) : Post (setP m q v) (Frame m) :=
  wr_frame m q _ (fun _ => rfl)

theorem setParent_frame (m : Mem) (q v : Ptr) : Post (setParent m q v) (Frame m) :=
  wr_frame m q _ (fun _ => rfl)

theorem setColor_frame (m : Mem) (q : Ptr) (c : Color) : Post (setColor m q c) (Frame m) :=
  wr_frame m q _ (fun _ => rfl)

theorem setRoot_frame (m : Mem) (v : Ptr) : Frame m (setRoot m v) := ⟨rfl, rfl, rfl, rfl, rfl⟩

theorem Post.frame_trans {m0 m : Mem} {r : Run Mem} (h0 : Frame m0 m) (h : Post r (Frame m)) :
    Post r (Frame m0) := ⟨fun a ha => h0.trans (h.out a ha)⟩

theorem Post.bind_mem {β : Type} (m0 : Mem) {x : Run Mem} {f : Mem → Run β} {Q : β → Prop}
    (hx : Post x (Frame m0)) (hf : ∀ m1, Frame m0 m1 → Post (f m1) Q) : Post (x >>= f) Q :=
  Post.bind hx hf

theorem Post.bind_pair {β γ : Type} (m0 : Mem) {x : Run (Mem × γ)} {f : Mem × γ → Run β}
    {Q : β → Prop} (hx : Post x (fun a => Frame m0 a.1))
    (hf : ∀ m1 c, Frame m0 m1 → Post (f (m1, c)) Q) : Post (x >>= f) Q :=
  Post.bind hx (fun a ha => hf a.1 a.2 ha)

theorem leftrotate_frame (m : Mem) (p : Ptr) : Post (leftrotate m p) (Frame m) := by
  have h0 := Frame.refl m
  unfold leftrotate
  try dsimp only
  repeat' first
    | intro _
    | exact Post.pure (by assumption)
    | exact Post.pure (Frame.trans (by assumption) (setRoot_frame _ _))
    | exact Post.frame_trans (by assumption) (setL_frame _ _ _)
    | exact Post.frame_trans (by assumption) (setR_frame _ _ _)
    | exact Post.frame_trans (by assumption) (setParent_frame _ _ _)
    | apply Post.ite
    | apply Post.bind_mem m
    | apply Post.bind_any

theorem rightrotate_frame (m : Mem) (p : Ptr) : Post (rightrotate m p) (Frame m) := by
  have h0 := Frame.refl m
  unfold rightrotate
  try dsimp only
  repeat' first
    | intro _
    | exact Post.pure (by assumption)
    | exact Post.pure (Frame.trans (by assumption) (setRoot_frame _ _))
    | exact Post.frame_trans (by assumption) (setL_frame _ _ _)
    | exact Post.frame_trans (by assumption) (setR_frame _ _ _)
    | exact Post.frame_trans (by assumption) (setParent_frame _ _ _)
    | apply Post.ite
    | apply Post.bind_mem m
    | apply Post.bind_any

theorem transplant_frame (m : Mem) (u v : Ptr) : Post (transplant m u v) (Frame m) := by
  have h0 := Frame.refl m
  unfold transplant
  try dsimp only
  repeat' first
    | intro _
    | exact Post.pure (by assumption)
    | exact Post.pure (Frame.trans (by assumption) (setRoot_frame _ _))
    | exact Post.frame_trans (by assumption) (setL_frame _ _ _)
    | exact Post.frame_trans (by assumption) (setR_frame _ _ _)
    | exact Post.frame_trans (by assumption) (setParent_frame _ _ _)
    | apply Post.ite
    | apply Post.bind_mem m
    | apply Post.bind_any

theorem fixinsert_frame (fuel : Nat) (m : Mem) (p : Ptr) :
    Post (fixinsert fuel m p) (Frame m) := by
  induction fuel generalizing m p with
  | zero => exact Post.throw
  | succ fuel ih =>
    have h0 := Frame.refl m
    unfold fixinsert
    try dsimp only
    repeat' first
      | intro _
      | exact Post.pure (by assumption)
      | exact Post.frame_trans (by assumption) (ih _ _)
      | exact Post.frame_trans (by assumption) (setColor_frame _ _ _)
      | exact Post.frame_trans (by assumption) (leftrotate_frame _ _)
      | exact Post.frame_trans (by assumption) (rightrotate_frame _ _)
      | apply Post.ite
      | apply Post.bind_mem m
      | apply Post.bind_pair m
      | apply Post.bind_any

theorem Post.bind_triple {β γ δ : Type} (m0 : Mem) {x : Run (Mem × γ × δ)}
    {f : Mem × γ × δ → Run β} {Q : β → Prop} (hx : Post x (fun a => Frame m0 a.1))
    (hf : ∀ m1 c d, Frame m0 m1 → Post (f (m1, c, d)) Q) : Post (x >>= f) Q :=
  Post.bind hx (fun a ha => hf a.1 a.2.1 a.2.2 ha)

theorem fixdelete_frame (fuel : Nat) (m : Mem) (q p : Ptr) :
    Post (fixdelete fuel m q p) (Frame m) := by
  induction fuel generalizing m q p with
  | zero => exact Post.throw
  | succ fuel ih =>
    have h0 := Frame.refl m
    unfold fixdelete
    try dsimp only
    repeat' first
      | intro _
      | exact Post.pure (by assumption)
      | exact Post.frame_trans (by assumption) (ih _ _ _)
      | exact Post.frame_trans (by assumption) (setColor_frame _ _ _)
      | exact Post.frame_trans (by assumption) (leftrotate_frame _ _)
      | exact Post.frame_trans (by assumption) (rightrotate_frame _ _)
      | apply Post.ite
      | apply Post.bind_mem m
      | apply Post.bind_pair m
      | apply Post.bind_any

theorem deleteproc_frame (fuel : Nat) (m : Mem) (p : Ptr) :
    Post (deleteproc fuel m p) (Frame m) := by
  have h0 := Frame.refl m
  unfold deleteproc
  try dsimp only
  repeat' first
    | intro _
    | exact Post.pure (by assumption)
    | exact Post.frame_trans (by assumption) (fixdelete_frame _ _ _ _)
    | exact Post.frame_trans (by assumption) (transplant_frame _ _ _)
    | exact Post.frame_trans (by assumption) (setColor_frame _ _ _)
    | exact Post.frame_trans (by assumption) (setL_frame _ _ _)
    | exact Post.frame_trans (by assumption) (setR_frame _ _ _)
    | exact Post.frame_trans (by assumption) (setParent_frame _ _ _)
    | apply Post.ite
    | apply Post.bind_mem m
    | apply Post.bind_triple m
    | apply Post.bind_any

theorem rd_some {m : Mem} {i : Nat} {x : proc} (h : rd m (some i) = Except.ok x) :
    m.procs[i]? = some x := by
  unfold rd at h
  dsimp only at h
  split at h
  · cases h
  · cases h
    assumption

theorem payload_getElem? {m m2 : Mem}
    (h : m2.procs.map proc.payload = m.procs.map proc.payload) (i : Nat) :
    Option.map proc.payload m2.procs[i]? = Option.map proc.payload m.procs[i]? := by
  have := congrArg (fun l => l[i]?) h
  simpa [List.getElem?_map] using this

theorem payload_weightOf {m m2 : Mem}
    (h : m2.procs.map proc.payload = m.procs.map proc.payload) (i : Nat) :
    weightOf m2 i = weightOf m i := by
  have h1 := payload_getElem? h i
  unfold weightOf
  cases h2 : m2.procs[i]? <;> cases h3 : m.procs[i]? <;> simp [h2, h3] at h1 ⊢
  simpa [proc.payload] using congrArg (fun y : proc => y.weight) h1

theorem payload_vruntimeOf {m m2 : Mem}
    (h : m2.procs.map proc.payload = m.procs.map proc.payload) (i : Nat) :
    vruntimeOf m2 i = vruntimeOf m i := by
  have h1 := payload_getElem? h i
  unfold vruntimeOf
  cases h2 : m2.procs[i]? <;> cases h3 : m.procs[i]? <;> simp [h2, h3] at h1 ⊢
  simpa [proc.payload] using congrArg (fun y : proc => y.vruntime) h1

theorem payload_minUpdate {m m2 : Mem}
    (h : m2.procs.map proc.payload = m.procs.map proc.payload) :
    minUpdate m2 = minUpdate m := by
  funext c i
  unfold minUpdate
  cases c with
  | none => rfl
  | some c => simp only [payload_vruntimeOf h]

theorem add_to_tree_post (fuel : Nat) (m : Mem) (i : Nat) :
    Post (add_to_tree fuel m (some i)) (fun m2 =>
      m2.procs.map proc.payload = m.procs.map proc.payload ∧
      m2.tree.period = m.tree.period ∧
      m2.tree.length = wrapInt (m.tree.length + 1) ∧
      m2.tree.total_weight = wrapInt (m.tree.total_weight + weightOf m i) ∧
      m2.tree.min_vruntime = minUpdate m m.tree.min_vruntime i) := by
  have h0 := Frame.refl m
  unfold add_to_tree
  dsimp only
  apply Post.bind_mem m (Post.frame_trans h0 (setColor_frame _ _ _))
  intro m1 h1
  apply Post.bind_any
  intro parent
  apply Post.bind_mem m (Post.frame_trans h1 (setP_frame _ _ _))
  intro m2 h2
  apply Post.bind_mem m
  · repeat' first
      | intro _
      | exact Post.pure (Frame.trans (by assumption) (setRoot_frame _ _))
      | exact Post.frame_trans (by assumption) (setL_frame _ _ _)
      | exact Post.frame_trans (by assumption) (setR_frame _ _ _)
      | apply Post.ite
      | apply Post.bind_any
  intro m3 h3
  apply Post.bind_mem m (Post.frame_trans h3 (setL_frame _ _ _))
  intro m4 h4
  apply Post.bind_mem m (Post.frame_trans h4 (setR_frame _ _ _))
  intro m5 h5
  apply Post.bind_mem m (Post.frame_trans h5 (setColor_frame _ _ _))
  intro m6 h6
  apply Post.bind_mem m (Post.frame_trans h6 (fixinsert_frame _ _ _))
  intro m7 h7
  apply Post.bind_eq
  intro x hx
  have hxi : m7.procs[i]? = some x := rd_some hx
  have hw : x.weight = weightOf m i := by
    rw [← payload_weightOf h7.procs i, weightOf, hxi]
  refine Post.bind (?_ : Post _ (fun isMin : Bool =>
    (if isMin = true then some i else m7.tree.min_vruntime)
      = minUpdate m7 m7.tree.min_vruntime i)) ?_
  · cases hc : m7.tree.min_vruntime with
    | none => exact Post.pure (by simp [minUpdate])
    | some c =>
      simp only [reduceCtorEq, if_false]
      apply Post.bind_eq
      intro a ha
      apply Post.bind_eq
      intro b hb
      apply Post.pure
      have hai : m7.procs[i]? = some a := rd_some ha
      have hbc : m7.procs[c]? = some b := rd_some hb
      simp only [minUpdate, vruntimeOf, hai, hbc, decide_eq_true_eq]
  · intro isMin hmin
    rw [payload_minUpdate h7.procs] at hmin
    apply Post.ite
    · intro ht
      apply Post.pure
      rw [if_pos ht] at hmin
      exact ⟨h7.procs, h7.period, by simp [h7.length], by simp [h7.total_weight, hw],
        by rw [← h7.min_vruntime]; exact hmin⟩
    · intro ht
      apply Post.pure
      rw [if_neg ht] at hmin
      exact ⟨h7.procs, h7.period, by simp [h7.length], by simp [h7.total_weight, hw],
        by rw [← h7.min_vruntime]; exact hmin⟩

theorem next_process_post (fuel : Nat) (m : Mem) :
    Post (next_process fuel m) (fun r =>
      r.1 = m.tree.min_vruntime ∧
      r.2.procs.map proc.payload = m.procs.map proc.payload ∧
      r.2.tree.period = m.tree.period ∧
      r.2.tree.min_vruntime = none ∧
      (m.tree.min_vruntime = none → r.2 = m) ∧
      (∀ c, m.tree.min_vruntime = some c →
        r.2.tree.length = wrapInt (m.tree.length - 1) ∧
        r.2.tree.total_weight = wrapInt (m.tree.total_weight - weightOf m c))) := by
  unfold next_process
  dsimp only
  apply Post.ite
  · intro hnone
    apply Post.pure
    exact ⟨hnone.symm, rfl, rfl, hnone, fun _ => rfl, fun c hc => by simp [hnone] at hc⟩
  · intro hsome
    apply Post.bind_any
    intro _
    apply Post.bind_eq
    intro x hx
    apply Post.bind
    · exact deleteproc_frame _ _ _
    · intro m2 h2
      apply Post.pure
      refine ⟨rfl, h2.procs, h2.period, h2.min_vruntime, fun h => absurd h hsome, ?_⟩
      intro c hc
      have hxc : x.weight = weightOf m c := by
        rw [hc] at hx
        have := rd_some hx
        simp only [weightOf]
        rw [show m.procs[c]? = some x from this]
      refine ⟨by simp [h2.length], ?_⟩
      simp [h2.total_weight, hxc]

theorem wrapInt_add (a b : Int) : wrapInt (wrapInt a + b) = wrapInt (a + b) := by
  unfold wrapInt
  omega

theorem wrapInt_sub (a b : Int) : wrapInt (wrapInt a - b) = wrapInt (a - b) := by
  unfold wrapInt
  omega

theorem foldl_minUpdate_none (m : Mem) (l : List Nat) :
    (l.foldl (minUpdate m) none = none ↔ l = []) := by
  have key : ∀ (l : List Nat) (c : Nat), l.foldl (minUpdate m) (some c) ≠ none := by
    intro l
    induction l with
    | nil => intro c; simp
    | cons a l ih =>
      intro c
      simp only [List.foldl_cons, minUpdate]
      split <;> exact ih _
  cases l with
  | nil => simp
  | cons a l => simpa [minUpdate] using key l a

theorem foldl_minUpdate_some (m : Mem) (l : List Nat) (c0 c : Nat)
    (h : l.foldl (minUpdate m) (some c0) = some c) :
    (c = c0 ∨ c ∈ l) ∧ vruntimeOf m c ≤ vruntimeOf m c0 ∧
      ∀ j ∈ l, vruntimeOf m c ≤ vruntimeOf m j := by
  induction l generalizing c0 with
  | nil =>
    simp only [List.foldl_nil, Option.some.injEq] at h
    subst h
    simp
  | cons a l ih =>
    simp only [List.foldl_cons, minUpdate] at h
    split at h
    · obtain ⟨h1, h2, h3⟩ := ih a h
      refine ⟨Or.inr ?_, by omega, ?_⟩
      · rcases h1 with h1 | h1
        · simp [h1]
        · simp [h1]
      · intro j hj
        rcases List.mem_cons.mp hj with rfl | hj
        · exact h2
        · exact h3 j hj
    · obtain ⟨h1, h2, h3⟩ := ih c0 h
      refine ⟨?_, h2, ?_⟩
      · rcases h1 with h1 | h1
        · exact Or.inl h1
        · exact Or.inr (List.mem_cons_of_mem _ h1)
      · intro j hj
        rcases List.mem_cons.mp hj with rfl | hj
        · omega
        · exact h3 j hj

theorem foldl_minUpdate_min (m : Mem) (l : List Nat) (c : Nat)
    (h : l.foldl (minUpdate m) none = some c) :
    c ∈ l ∧ ∀ j ∈ l, vruntimeOf m c ≤ vruntimeOf m j := by
  cases l with
  | nil => simp at h
  | cons a l =>
    simp only [List.foldl_cons, minUpdate] at h
    obtain ⟨h1, h2, h3⟩ := foldl_minUpdate_some m l a c h
    refine ⟨?_, ?_⟩
    · rcases h1 with h1 | h1
      · simp [h1]
      · exact List.mem_cons_of_mem _ h1
    · intro j hj
      rcases List.mem_cons.mp hj with rfl | hj
      · exact h2
      · exact h3 j hj

theorem bind_eq_ok {α β : Type} {x : Run α} {f : α → Run β} {b : β}
    (h : (x >>= f) = Except.ok b) : ∃ a, x = Except.ok a ∧ f a = Except.ok b := by
  cases x with
  | error e => cases h
  | ok a => exact ⟨a, rfl, h⟩

theorem runOps_cache (fuel : Nat) (m0 : Mem) (ops : List TreeOp) :
    ∀ (m : Mem) (acc : List Nat) (m2 : Mem),
      m.procs.map proc.payload = m0.procs.map proc.payload →
      m.tree.min_vruntime = acc.foldl (minUpdate m0) none →
      runOps fuel m ops = Except.ok m2 →
      m2.procs.map proc.payload = m0.procs.map proc.payload ∧
      m2.tree.min_vruntime = (pendingAfter acc ops).foldl (minUpdate m0) none := by
  induction ops with
  | nil =>
    intro m acc m2 hp hc h
    cases h
    exact ⟨hp, hc⟩
  | cons op ops ih =>
    intro m acc m2 hp hc h
    cases op with
    | add i =>
      obtain ⟨m1, h1, h2⟩ := bind_eq_ok h
      obtain ⟨q1, _, _, _, q5⟩ := (add_to_tree_post fuel m i).out m1 h1
      refine ih m1 (acc ++ [i]) m2 (q1.trans hp) ?_ h2
      rw [q5, hc, payload_minUpdate hp, List.foldl_append]
      rfl
    | next =>
      obtain ⟨r, h1, h2⟩ := bind_eq_ok h
      obtain ⟨_, q2, _, q4, _, _⟩ := (next_process_post fuel m).out r h1
      exact ih r.2 [] m2 (q2.trans hp) q4 h2

theorem addAll_post (fuel : Nat) (m0 : Mem) (ps : List Nat) :
    ∀ (m m1 : Mem) (n w : Int), m.procs.map proc.payload = m0.procs.map proc.payload →
      m.tree.length = wrapInt n → m.tree.total_weight = wrapInt w →
      addAll fuel m ps = Except.ok m1 →
      m1.procs.map proc.payload = m0.procs.map proc.payload ∧
      m1.tree.length = wrapInt (n + ps.length) ∧
      m1.tree.total_weight = wrapInt (w + (ps.map (weightOf m0)).sum) ∧
      m1.tree.min_vruntime = ps.foldl (minUpdate m0) m.tree.min_vruntime := by
  induction ps with
  | nil =>
    intro m m1 n w hp hn hw h
    cases h
    exact ⟨hp, by simpa using hn, by simpa using hw, rfl⟩
  | cons i ps ih =>
    intro m m1 n w hp hn hw h
    obtain ⟨m2, h1, h2⟩ := bind_eq_ok h
    obtain ⟨q1, _, q3, q4, q5⟩ := (add_to_tree_post fuel m i).out m2 h1
    rw [hn, wrapInt_add] at q3
    rw [hw, wrapInt_add, payload_weightOf hp] at q4
    obtain ⟨r1, r2, r3, r4⟩ := ih m2 m1 _ _ (q1.trans hp) q3 q4 h2
    refine ⟨r1, ?_, ?_, ?_⟩
    · rw [r2]
      congr 1
      simp only [List.length_cons]
      push_cast
      ring
    · rw [r3]
      congr 1
      simp only [List.map_cons, List.sum_cons]
      ring
    · rw [r4, q5, payload_minUpdate hp]
      rfl

/-- The first `next_process` after the records `ps` have been inserted into an
empty tree (when the insertions return): it returns null when `ps` is empty;
otherwise, when it returns, it returns one of the inserted records, of least
`vruntime` among them, leaves `length` at `N - 1` and `total_weight` at the
sum of the weights less the weight of the returned record (as `int`s), and
clears the cached minimum, which the caller is to recompute. -/
theorem next_process_after_adds (fuel : Nat) (m0 m1 : Mem) (ps : List Nat)
    (h0 : m0.tree.isEmpty) (hadd : addAll fuel m0 ps = Except.ok m1) :
    (ps = [] → next_process fuel m1 = Except.ok (none, m1)) ∧
    (∀ q m2, ps ≠ [] → next_process fuel m1 = Except.ok (q, m2) →
      ∃ c, q = some c ∧ c ∈ ps ∧ (∀ j ∈ ps, vruntimeOf m0 c ≤ vruntimeOf m0 j) ∧
        m2.tree.length = wrapInt (ps.length - 1) ∧
        m2.tree.total_weight = wrapInt ((ps.map (weightOf m0)).sum - weightOf m0 c) ∧
        m2.tree.min_vruntime = none ∧
        ∀ fuel2, next_process fuel2 m2 = Except.ok (none, m2)) := by
  obtain ⟨r1, r2, r3, r4⟩ := addAll_post fuel m0 ps m0 m1 0 0 rfl
    (by rw [h0.2.1]; rfl) (by rw [h0.2.2.1]; rfl) hadd
  have hmin0 : m0.tree.min_vruntime = none := h0.2.2.2
  rw [hmin0] at r4
  constructor
  · intro hps
    subst hps
    simp only [List.foldl_nil] at r4
    simp only [next_process, r4, if_true]
    rfl
  · intro q m2 hps hnext
    obtain ⟨s1, s2, _, s4, _, s6⟩ := (next_process_post fuel m1).out _ hnext
    dsimp only at s1 s2 s4 s6
    cases hc : m1.tree.min_vruntime with
    | none =>
      rw [hc] at r4
      exact absurd ((foldl_minUpdate_none m0 ps).mp r4.symm) hps
    | some c =>
      rw [hc] at r4
      obtain ⟨t1, t2⟩ := foldl_minUpdate_min m0 ps c r4.symm
      obtain ⟨u1, u2⟩ := s6 c hc
      refine ⟨c, by rw [s1, hc], t1, t2, ?_, ?_, s4, ?_⟩
      · rw [u1, r2, wrapInt_sub]
        congr 1
        ring
      · rw [u2, r3, wrapInt_sub, payload_weightOf r1]
        congr 1
        ring
      · intro fuel2
        simp only [next_process, s4, if_true]
        rfl

/-- C5, amended: after every sequence of `add_to_tree` and `next_process`
calls that return, starting from the empty tree, the cached minimum is none
exactly when no record was added since the last `next_process` call (or since
the start), and when set it is one of the records added since then, of least
`vruntime` among them. -/
theorem min_cache_after_ops (fuel : Nat) (m0 m : Mem) (ops : List TreeOp)
    (h0 : m0.tree.isEmpty) (h : runOps fuel m0 ops = Except.ok m) :
    (m.tree.min_vruntime = none ↔ sinceLastNext ops = []) ∧
    ∀ c, m.tree.min_vruntime = some c →
      c ∈ sinceLastNext ops ∧
      ∀ j ∈ sinceLastNext ops, vruntimeOf m c ≤ vruntimeOf m j := by
  obtain ⟨h1, h2⟩ := runOps_cache fuel m0 ops m0 [] m rfl (by rw [h0.2.2.2]; rfl) h
  constructor
  · rw [h2]
    exact foldl_minUpdate_none m0 _
  · intro c hc
    rw [h2] at hc
    obtain ⟨t1, t2⟩ := foldl_minUpdate_min m0 _ c hc
    refine ⟨t1, fun j hj => ?_⟩
    rw [payload_vruntimeOf h1, payload_vruntimeOf h1]
    exact t2 j hj

/-- C1 on failing inputs: when six fresh records with `vruntime` 1, 2, 3, 5,
6, 4 are added in this order every call returns, and after the sixth
`treebalanced` returns 0 and only four records are reachable from the root;
with `vruntime` 2, 3, 4, 1 the tree passes `treebalanced` after three calls
and the fourth call dereferences a null grandparent. -/
theorem add_to_tree_unbalances :
    (addAll 16 (fresh [1, 2, 3, 5, 6, 4]) [0, 1, 2, 3, 4, 5] >>= treebalanced 16)
      = Except.ok 0 ∧
    (addAll 16 (fresh [1, 2, 3, 5, 6, 4]) [0, 1, 2, 3, 4, 5] >>= fun m =>
      inorder 16 m m.tree.root) = Except.ok [0, 1, 2, 5] ∧
    (addAll 16 (fresh [2, 3, 4, 1]) [0, 1, 2] >>= treebalanced 16) = Except.ok 1 ∧
    addAll 16 (fresh [2, 3, 4, 1]) [0, 1, 2, 3] = Except.error Halt.nullDeref := by
  decide!

/-- C2 on failing inputs: `twoNodeTree` and `threeNodeTree` pass
`treebalanced` and are in `vruntime` order; deleting the root of the first
leaves a Red root, so `treebalanced` returns 0, and deleting the root of the
second dereferences the null right child of the successor. -/
theorem deleteproc_breaks_tree :
    treebalanced 16 twoNodeTree = Except.ok 1 ∧
    inorder 16 twoNodeTree twoNodeTree.tree.root = Except.ok [0, 1] ∧
    (deleteproc 16 twoNodeTree (some 0) >>= fun m => rd m m.tree.root).map
      (fun x => x.color) = Except.ok Color.RED ∧
    (deleteproc 16 twoNodeTree (some 0) >>= treebalanced 16) = Except.ok 0 ∧
    treebalanced 16 threeNodeTree = Except.ok 1 ∧
    inorder 16 threeNodeTree threeNodeTree.tree.root = Except.ok [1, 0, 2] ∧
    deleteproc 16 threeNodeTree (some 0) = Except.error Halt.nullDeref := by
  decide!

/-- C3 on failing inputs.  After each `next_process` the caller recomputes
the cached minimum (`extractMin`).  With fresh records of `vruntime` 1, 2 the
round trip returns both records in order and leaves the tree empty.  With
`vruntime` 2, 1 the adds leave slot 1 the Red left child of the root slot 0
(`p` slot 0, `parent` null); the first `next_process` returns slot 1, and
`transplant`, reading the null `parent`, sets the root to null: the second
call returns null, slot 0 is lost and `length` and `total_weight` stay 1 and
1024.  With a single forked record (`parent` slot 0) the first `next_process`
dereferences a null sibling in `fixdelete`. -/
theorem round_trip_loses_records :
    (addAll 16 (fresh [1, 2]) [0, 1] >>= drain 16 2).map
        (fun r => (r.1, r.2.tree.root, r.2.tree.length, r.2.tree.total_weight))
      = Except.ok ([some 0, some 1], none, 0, 0) ∧
    (addAll 16 (fresh [2, 1]) [0, 1]).map linkState
      = Except.ok ⟨some 0, some 1,
          [⟨Color.BLACK, some 1, none, none, none⟩,
           ⟨Color.RED, none, none, some 0, none⟩]⟩ ∧
    (addAll 16 (fresh [2, 1]) [0, 1] >>= drain 16 2).map
        (fun r => (r.1, r.2.tree.root, r.2.tree.length, r.2.tree.total_weight))
      = Except.ok ([some 1, none], none, 1, 1024) ∧
    (add_to_tree 16 forkedRecord (some 1)).map linkState
      = Except.ok ⟨some 1, some 1,
          [⟨Color.RED, none, none, none, none⟩,
           ⟨Color.BLACK, none, none, none, some 0⟩]⟩ ∧
    (add_to_tree 16 forkedRecord (some 1) >>= next_process 16)
      = Except.error Halt.nullDeref := by
  decide!

/-- C4 on a failing input: after three fresh records with `vruntime` 1, 3, 2
are added in this order, `length` is 3 and `total_weight` is 3072, but only
two records (total weight 2048) are reachable from the root. -/
theorem counters_exceed_reachable :
    (addAll 16 (fresh [1, 3, 2]) [0, 1, 2] >>= fun m =>
      (inorder 16 m m.tree.root).map fun l =>
        (m.tree.length, m.tree.total_weight, l, (l.map (weightOf m)).sum))
      = Except.ok (3, 3072, [0, 1], 2048) := by
  decide!

/-- C5 as stated fails: after two adds and one `next_process` call the cached
minimum is none although slot 1 is still in the tree. -/
theorem cache_none_tree_not_empty :
    (runOps 16 (fresh [1, 2]) [TreeOp.add 0, TreeOp.add 1, TreeOp.next] >>= fun m =>
      (inorder 16 m m.tree.root).map fun l => (m.tree.min_vruntime, m.tree.root, l))
      = Except.ok (none, some 1, [1]) := by
  decide!

/-- Witness of `min_cache_after_ops`: two adds after a `next_process` call. -/
theorem min_cache_after_ops_witness :
    ((Run.get (runOps 16 (fresh [1, 2]) [TreeOp.next, TreeOp.add 1, TreeOp.add 0])).tree.min_vruntime
        = none ↔
      sinceLastNext [TreeOp.next, TreeOp.add 1, TreeOp.add 0] = []) ∧
    ∀ c, (Run.get (runOps 16 (fresh [1, 2])
        [TreeOp.next, TreeOp.add 1, TreeOp.add 0])).tree.min_vruntime = some c →
      c ∈ sinceLastNext [TreeOp.next, TreeOp.add 1, TreeOp.add 0] ∧
      ∀ j ∈ sinceLastNext [TreeOp.next, TreeOp.add 1, TreeOp.add 0],
        vruntimeOf (Run.get (runOps 16 (fresh [1, 2])
          [TreeOp.next, TreeOp.add 1, TreeOp.add 0])) c
        ≤ vruntimeOf (Run.get (runOps 16 (fresh [1, 2])
          [TreeOp.next, TreeOp.add 1, TreeOp.add 0])) j :=
  min_cache_after_ops 16 (fresh [1, 2]) _ [TreeOp.next, TreeOp.add 1, TreeOp.add 0]
    ⟨rfl, rfl, rfl, rfl⟩ (by decide!)

/-! ## `should_preempt` -/

/-- C11 as stated fails: the current process has reached its time slice, but
with no tree minimum `should_preempt` returns 0. -/
theorem should_preempt_null_min :
    (rd sliceUsedUp (some 0)).map (fun x => decide (x.curr_runtime ≥ x.time_slice))
      = Except.ok true ∧
    should_preempt sliceUsedUp (some 0) none = Except.ok 0 := by
  decide!

/-- C11, amended: `should_preempt` returns 1 exactly when the tree minimum
exists and either the current process has reached its time slice or the
minimum has a strictly smaller `vruntime`; with a null minimum it returns 0
whatever the runtime of the current process. -/
theorem should_preempt_spec (m : Mem) (current : Ptr) (x : proc)
    (hx : rd m current = Except.ok x) :
    should_preempt m current none = Except.ok 0 ∧
    ∀ j y, rd m (some j) = Except.ok y →
      should_preempt m current (some j)
        = Except.ok (if x.curr_runtime ≥ x.time_slice ∨ y.vruntime < x.vruntime then 1 else 0) := by
  constructor
  · rfl
  · intro j y hy
    simp only [should_preempt, hx, hy, reduceCtorEq, if_false, bind, Except.bind, pure,
      Except.pure]
    by_cases h1 : x.curr_runtime ≥ x.time_slice
    · simp [h1]
    · by_cases h2 : y.vruntime < x.vruntime
      · simp [h1, h2]
      · simp [h1, h2]

/-- Witness of `should_preempt_spec`: the process of `sliceUsedUp` against itself. -/
theorem should_preempt_spec_witness :
    should_preempt sliceUsedUp (some 0) none = Except.ok 0 ∧
    should_preempt sliceUsedUp (some 0) (some 0) = Except.ok 1 :=
  ⟨(should_preempt_spec sliceUsedUp (some 0) _ rfl).1,
    (should_preempt_spec sliceUsedUp (some 0) _ rfl).2 0 _ rfl⟩

/-! ## Table scans: `kill`, `wakeup`, `wait`, `allocproc` -/

theorem findIdx?_of_exists {α : Type} (l : List α) (f : α → Bool)
    (h : ∃ x ∈ l, f x = true) : ∃ i, l.findIdx? f = some i := by
  cases hf : l.findIdx? f with
  | some i => exact ⟨i, rfl⟩
  | none =>
    obtain ⟨x, hx, hfx⟩ := h
    have := List.findIdx?_eq_none_iff.mp hf x hx
    rw [this] at hfx
    cases hfx

theorem modSlot_eq_set (m : Mem) (i : Nat) (f : proc → proc) (x : proc)
    (hx : m.procs[i]? = some x) :
    modSlot m i f = { m with procs := m.procs.set i (f x) } := by
  simp [modSlot, hx]

theorem set_getElem?_self (m : Mem) (i : Nat) (x y : proc) (hx : m.procs[i]? = some x) :
    (m.procs.set i y)[i]? = some y := by
  have hl : i < m.procs.length := by
    by_contra hl
    simp [List.getElem?_eq_none (not_lt.mp hl)] at hx
  simp [List.getElem?_set, hl]

/-- C17: for a pid held by some slot, `kill` returns 0, sets `killed` on the
first slot in table order with that pid, makes that slot Runnable exactly when
it was Sleeping, and changes nothing else. -/
theorem kill_first_match (m : Mem) (pid : Int) (h : ∃ x ∈ m.procs, x.pid = pid) :
    ∃ i x, m.procs[i]? = some x ∧ x.pid = pid ∧
      (∀ j, j < i → ∀ y, m.procs[j]? = some y → y.pid ≠ pid) ∧
      kill m pid = (0, { m with procs := (m.procs.set i
        { x with killed := 1,
                 state := if x.state = procstate.SLEEPING then procstate.RUNNABLE
                          else x.state }) }) := by
  obtain ⟨i, hf⟩ := findIdx?_of_exists m.procs (fun x => decide (x.pid = pid))
    (by obtain ⟨x, hx, hp⟩ := h; exact ⟨x, hx, by simpa using hp⟩)
  obtain ⟨x, hx, hpx, hlt⟩ := findIdx?_some_spec _ _ _ hf
  refine ⟨i, x, hx, by simpa using hpx, fun j hj y hy => by simpa using hlt j hj y hy, ?_⟩
  unfold kill
  simp only [hf, modSlot_modSlot m i _ _ x hx]
  by_cases hs : x.state = procstate.SLEEPING <;> simp [hs]

/-- Witness of `kill_first_match`: pid 1 on `tableEx`. -/
theorem kill_first_match_witness :
    ∃ i x, tableEx.procs[i]? = some x ∧ x.pid = 1 ∧
      (∀ j, j < i → ∀ y, tableEx.procs[j]? = some y → y.pid ≠ 1) ∧
      kill tableEx 1 = (0, { tableEx with procs := (tableEx.procs.set i
        { x with killed := 1,
                 state := if x.state = procstate.SLEEPING then procstate.RUNNABLE
                          else x.state }) }) :=
  kill_first_match tableEx 1 ⟨_, List.mem_cons_self _ _, rfl⟩

/-- C18: after `wakeup(c)` every slot that was Sleeping on `c` is Runnable,
with its other fields as before, and every other slot is unchanged; the table
keeps its length and the tree is untouched. -/
theorem wakeup_all_waiters (m : Mem) (c : Chan) :
    (wakeup m c).procs.length = m.procs.length ∧ (wakeup m c).tree = m.tree ∧
    ∀ (i : Nat) (x : proc), m.procs[i]? = some x →
      (x.state = procstate.SLEEPING ∧ x.chan = c →
        (wakeup m c).procs[i]? = some { x with state := procstate.RUNNABLE }) ∧
      (¬ (x.state = procstate.SLEEPING ∧ x.chan = c) → (wakeup m c).procs[i]? = some x) := by
  refine ⟨by simp [wakeup, wakeup1], rfl, ?_⟩
  intro i x hx
  constructor
  · intro h
    simp [wakeup, wakeup1, List.getElem?_map, hx, h]
  · intro h
    simp only [wakeup, wakeup1, List.getElem?_map, hx, Option.map_some', if_neg h]

theorem findIdx?_eq_some_of_first {α : Type} (l : List α) (f : α → Bool) (i : Nat) (x : α)
    (hx : l[i]? = some x) (hfx : f x = true)
    (hlt : ∀ j, j < i → ∀ y, l[j]? = some y → f y = false) : l.findIdx? f = some i := by
  obtain ⟨i2, h2⟩ := findIdx?_of_exists l f ⟨x, List.getElem?_mem hx, hfx⟩
  obtain ⟨x2, hx2, hfx2, hlt2⟩ := findIdx?_some_spec l f i2 h2
  rcases Nat.lt_trichotomy i2 i with h | h | h
  · rw [hlt i2 h x2 hx2] at hfx2
    cases hfx2
  · rw [h2, h]
  · rw [hlt2 i h x hx] at hfx
    cases hfx

/-- C16: when no slot has the caller as its parent, the first scan of `wait`
returns -1 with the kernel state unchanged and the caller not put to sleep. -/
theorem wait_no_children (k : Kernel) (curproc : Ptr)
    (h : ∀ x ∈ k.mem.procs, x.parent ≠ curproc) :
    wait k curproc = Except.ok (WaitOutcome.returned (-1), k) := by
  have hf : k.mem.procs.findIdx?
      (fun x => decide (x.parent = curproc ∧ x.state = procstate.ZOMBIE)) = none :=
    findIdx?_none_spec _ _ (fun x hx => by simp [h x hx])
  have ha : (k.mem.procs.any fun x => decide (x.parent = curproc)) = false := by
    rw [List.any_eq_false]
    intro x hx
    simpa using h x hx
  unfold wait
  simp only [hf, ha]
  rfl

/-- Witness of `wait_no_children`: slot 1 of `tableEx` waits and is nobody's parent. -/
theorem wait_no_children_witness :
    wait { mem := tableEx } (some 1)
      = Except.ok (WaitOutcome.returned (-1), { mem := tableEx }) :=
  wait_no_children { mem := tableEx } (some 1) (by decide)

/-- C15: when some child of the caller is Zombie, `wait` returns the pid of
the first Zombie child in table order and makes that slot Unused with pid 0,
no parent, `killed` 0, an empty name and no kernel stack; every other slot,
the tree, `nextpid` and `initproc` are unchanged. -/
theorem wait_reaps_first_zombie (k : Kernel) (curproc : Ptr)
    (h : ∃ x ∈ k.mem.procs, x.parent = curproc ∧ x.state = procstate.ZOMBIE) :
    ∃ (i : Nat) (x : proc), k.mem.procs[i]? = some x ∧
      x.parent = curproc ∧ x.state = procstate.ZOMBIE ∧
      (∀ j, j < i → ∀ y, k.mem.procs[j]? = some y →
        ¬ (y.parent = curproc ∧ y.state = procstate.ZOMBIE)) ∧
      wait k curproc = Except.ok (WaitOutcome.returned x.pid,
        { k with mem := { k.mem with procs := (k.mem.procs.set i
          { x with kstack := false, pid := 0, parent := none, name := "", killed := 0,
                   state := procstate.UNUSED }) } }) := by
  obtain ⟨i, hf⟩ := findIdx?_of_exists k.mem.procs
    (fun x => decide (x.parent = curproc ∧ x.state = procstate.ZOMBIE))
    (by obtain ⟨x, hx, hp⟩ := h; exact ⟨x, hx, by simpa using hp⟩)
  obtain ⟨x, hx, hpx, hlt⟩ := findIdx?_some_spec _ _ _ hf
  have hpx2 : x.parent = curproc ∧ x.state = procstate.ZOMBIE := by simpa using hpx
  refine ⟨i, x, hx, hpx2.1, hpx2.2, fun j hj y hy => by simpa using hlt j hj y hy, ?_⟩
  have hl : i < k.mem.procs.length := by
    by_contra hl
    simp [List.getElem?_eq_none (not_lt.mp hl)] at hx
  have hrd : rd k.mem (some i) = Except.ok x := by simp [rd, hx]
  unfold wait
  simp only [hf, hrd, modSlot, hx, List.getElem?_set, hl, if_true, List.set_set, bind,
    Except.bind, pure, Except.pure, List.length_set]

/-- Witness of `wait_reaps_first_zombie`: the parent of `zombieTable` waits. -/
theorem wait_reaps_first_zombie_witness :
    ∃ (i : Nat) (x : proc), zombieTable.procs[i]? = some x ∧
      x.parent = some 0 ∧ x.state = procstate.ZOMBIE ∧
      (∀ j, j < i → ∀ y, zombieTable.procs[j]? = some y →
        ¬ (y.parent = some 0 ∧ y.state = procstate.ZOMBIE)) ∧
      wait { mem := zombieTable } (some 0) = Except.ok (WaitOutcome.returned x.pid,
        { ({ mem := zombieTable } : Kernel) with mem := { zombieTable with procs :=
          (zombieTable.procs.set i
            { x with kstack := false, pid := 0, parent := none, name := "", killed := 0,
                     state := procstate.UNUSED }) } }) :=
  wait_reaps_first_zombie { mem := zombieTable } (some 0)
    ⟨{ pid := 3, state := procstate.ZOMBIE, parent := some 0, kstack := true, name := "b" },
      by decide, rfl, rfl⟩

theorem compute_weight_zero : compute_weight 0 = 1024 := by decide!

theorem modSlot_set (m : Mem) (i : Nat) (f : proc → proc) (x y : proc)
    (hx : m.procs[i]? = some x) :
    modSlot { m with procs := m.procs.set i y } i f
      = { m with procs := m.procs.set i (f y) } := by
  have hl : i < m.procs.length := by
    by_contra hl
    simp [List.getElem?_eq_none (not_lt.mp hl)] at hx
  simp [modSlot, hl]

theorem allocproc_found (k : Kernel) (i : Nat) (x : proc) (b : Bool)
    (hx : k.mem.procs[i]? = some x)
    (hf : k.mem.procs.findIdx? (fun x => decide (x.state = procstate.UNUSED)) = some i) :
    allocproc k b = if b then
      (some i,
        { k with
          mem := { k.mem with procs := (k.mem.procs.set i
            { x with state := procstate.EMBRYO, pid := k.nextpid, kstack := true,
                     vruntime := 0, curr_runtime := 0, time_slice := 0, nice_value := 0,
                     weight := 1024, l := none, r := none, p := none }) },
          nextpid := wrapInt (k.nextpid + 1) })
      else
      (none,
        { k with
          mem := { k.mem with procs := (k.mem.procs.set i
            { x with state := procstate.UNUSED, pid := k.nextpid, kstack := false }) },
          nextpid := wrapInt (k.nextpid + 1) }) := by
  unfold allocproc
  simp only [hf]
  rw [modSlot_eq_set k.mem i _ x hx]
  simp only [modSlot_set k.mem i _ x _ hx]
  cases b
  · simp only [Bool.not_false, if_true, Bool.false_eq_true, if_false]
  · simp only [Bool.not_true, Bool.false_eq_true, if_false, if_true]
    rw [compute_weight_zero]

/-- C12: `allocproc` claims the first Unused slot in table order.  When
`kalloc` succeeds the slot becomes Embryo with the previous `nextpid` as pid,
zeroed scheduling fields, weight 1024 and null tree links, `nextpid` is
incremented (by exactly one whenever that fits an `int`) and nothing else
changes; when no slot is Unused it fails with the state unchanged; when
`kalloc` fails it fails and the claimed slot is Unused again. -/
theorem allocproc_spec (k : Kernel) :
    (∀ (i : Nat) (x : proc), k.mem.procs[i]? = some x → x.state = procstate.UNUSED →
      (∀ j, j < i → ∀ y, k.mem.procs[j]? = some y → y.state ≠ procstate.UNUSED) →
      allocproc k true = (some i,
        { k with
          mem := { k.mem with procs := (k.mem.procs.set i
            { x with state := procstate.EMBRYO, pid := k.nextpid, kstack := true,
                     vruntime := 0, curr_runtime := 0, time_slice := 0, nice_value := 0,
                     weight := 1024, l := none, r := none, p := none }) },
          nextpid := wrapInt (k.nextpid + 1) }) ∧
      (-2 ^ 31 ≤ k.nextpid → k.nextpid < 2 ^ 31 - 1 →
        (allocproc k true).2.nextpid = k.nextpid + 1) ∧
      allocproc k false = (none,
        { k with
          mem := { k.mem with procs := (k.mem.procs.set i
            { x with state := procstate.UNUSED, pid := k.nextpid, kstack := false }) },
          nextpid := wrapInt (k.nextpid + 1) })) ∧
    ((∀ x ∈ k.mem.procs, x.state ≠ procstate.UNUSED) →
      ∀ b, allocproc k b = (none, k)) := by
  constructor
  · intro i x hx hs hlt
    have hf : k.mem.procs.findIdx? (fun x => decide (x.state = procstate.UNUSED)) = some i :=
      findIdx?_eq_some_of_first _ _ i x hx (by simpa using hs)
        (fun j hj y hy => by simpa using hlt j hj y hy)
    have h1 := allocproc_found k i x true hx hf
    have h2 := allocproc_found k i x false hx hf
    simp only [if_true] at h1
    simp only [Bool.false_eq_true, if_false] at h2
    refine ⟨h1, ?_, h2⟩
    intro hlo hhi
    rw [h1]
    show wrapInt (k.nextpid + 1) = k.nextpid + 1
    unfold wrapInt
    omega
  · intro h b
    have hf : k.mem.procs.findIdx? (fun x => decide (x.state = procstate.UNUSED)) = none :=
      findIdx?_none_spec _ _ (fun x hx => by simpa using h x hx)
    unfold allocproc
    simp only [hf]

/-- Witness of `allocproc_spec`: the first allocation on a fresh table of two slots. -/
theorem allocproc_spec_witness :
    (allocproc (boot 2) true).1 = some 0 ∧ (allocproc (boot 2) true).2.nextpid = 2 := by
  have h := (allocproc_spec (boot 2)).1 0 {} rfl rfl (fun j hj => absurd hj (Nat.not_lt_zero j))
  exact ⟨by rw [h.1], h.2.1 (by decide) (by decide)⟩

/-! ## The invariant checker -/

/-- C20 as stated fails: the in-order traversal of `unorderedTree` has
`vruntime`s 3, 2, yet `treebalanced` returns 1. -/
theorem treebalanced_accepts_unordered :
    (inorder 16 unorderedTree unorderedTree.tree.root).map
      (fun l => (l.map (vruntimeOf unorderedTree), nonDecreasing (l.map (vruntimeOf unorderedTree))))
      = Except.ok ([3, 2], false) ∧
    treebalanced 16 unorderedTree = Except.ok 1 := by
  decide!

theorem rd_shape {m m2 : Mem} (hp : m2.procs.map proc.shape = m.procs.map proc.shape)
    (q : Ptr) :
    (∃ x x2, rd m q = Except.ok x ∧ rd m2 q = Except.ok x2 ∧
      x2.l = x.l ∧ x2.r = x.r ∧ x2.color = x.color) ∨
    (rd m q = Except.error Halt.nullDeref ∧ rd m2 q = Except.error Halt.nullDeref) := by
  cases q with
  | none => exact Or.inr ⟨rfl, rfl⟩
  | some i =>
    have h := congrArg (fun l => l[i]?) hp
    simp only [List.getElem?_map] at h
    cases h1 : m.procs[i]? with
    | none =>
      cases h2 : m2.procs[i]? with
      | none => exact Or.inr ⟨by simp [rd, h1], by simp [rd, h2]⟩
      | some x2 => simp [h1, h2] at h
    | some x =>
      cases h2 : m2.procs[i]? with
      | none => simp [h1, h2] at h
      | some x2 =>
        simp only [h1, h2, Option.map_some', Option.some.injEq, proc.shape, Prod.mk.injEq] at h
        exact Or.inl ⟨x, x2, by simp [rd, h1], by simp [rd, h2], h.1, h.2.1, h.2.2⟩

theorem presentAndRed_shape {m m2 : Mem}
    (hp : m2.procs.map proc.shape = m.procs.map proc.shape) (q : Ptr) :
    presentAndRed m2 q = presentAndRed m q := by
  unfold presentAndRed
  rcases rd_shape hp q with ⟨x, x2, h1, h2, _, _, hc⟩ | ⟨h1, h2⟩
  · simp only [h1, h2, bind, Except.bind, pure, Except.pure, hc]
  · simp only [h1, h2, bind, Except.bind]

theorem check_rb_tree_properties_shape {m m2 : Mem}
    (hp : m2.procs.map proc.shape = m.procs.map proc.shape) (fuel : Nat) :
    ∀ (node : Ptr) (bc pbc : Int),
      check_rb_tree_properties fuel m2 node bc pbc
        = check_rb_tree_properties fuel m node bc pbc := by
  induction fuel with
  | zero => intro node bc pbc; rfl
  | succ fuel ih =>
    intro node bc pbc
    unfold check_rb_tree_properties
    by_cases hn : node = none
    · simp only [hn, if_true]
    · simp only [hn, if_false]
      rcases rd_shape hp node with ⟨x, x2, h1, h2, hl, hr, hc⟩ | ⟨h1, h2⟩
      · simp only [h1, h2, hl, hr, hc, presentAndRed_shape hp, ih, bind, Except.bind, pure,
          Except.pure]
      · simp only [h1, h2, bind, Except.bind]

/-- C20, amended: the invariant checker verifies the colour properties only.
The result of `treebalanced` depends on the root and on the `l`, `r` and
`color` fields alone: two memories that agree on these get the same result,
whatever their `vruntime`s. -/
theorem treebalanced_ignores_vruntime (fuel : Nat) (m m2 : Mem)
    (hp : m2.procs.map proc.shape = m.procs.map proc.shape)
    (hr : m2.tree.root = m.tree.root) :
    treebalanced fuel m2 = treebalanced fuel m := by
  unfold treebalanced
  rw [hr, check_rb_tree_properties_shape hp]
  by_cases hn : m.tree.root = none
  · simp [hn]
  · rcases rd_shape hp m.tree.root with ⟨x, x2, h1, h2, _, _, hc⟩ | ⟨h1, h2⟩
    · simp only [h1, h2, hc, bind, Except.bind, pure, Except.pure]
    · simp only [h1, h2, bind, Except.bind]

/-- Witness of `treebalanced_ignores_vruntime`: the unordered tree and its
ordered twin. -/
theorem treebalanced_ignores_vruntime_witness :
    treebalanced 16 unorderedTree = treebalanced 16 orderedTree :=
  treebalanced_ignores_vruntime 16 orderedTree unorderedTree rfl rfl

/-! ## Rotations -/

/-- C19 on failing inputs.  In `rightSpine` and `leftSpine` both `p` and
`parent` agree with the child links; after the rotation at the root the
in-order sequence is unchanged and `parent` agrees, but the tree parents `p`
do not (slot 0 still has a null `p`).  In `chainByP`, where `p` agrees and
`parent` is null, `leftrotate` at slot 1 makes slot 2 the root and drops
slot 0 from the in-order sequence. -/
theorem rotation_leaves_p_stale :
    parentLinksAgree (fun x => x.p) 16 rightSpine = Except.ok true ∧
    parentLinksAgree (fun x => x.parent) 16 rightSpine = Except.ok true ∧
    inorder 16 rightSpine rightSpine.tree.root = Except.ok [0, 2, 1] ∧
    (leftrotate rightSpine (some 0) >>= fun m => inorder 16 m m.tree.root)
      = Except.ok [0, 2, 1] ∧
    (leftrotate rightSpine (some 0)).map (fun m => m.tree.root) = Except.ok (some 1) ∧
    (leftrotate rightSpine (some 0) >>= parentLinksAgree (fun x => x.parent) 16)
      = Except.ok true ∧
    (leftrotate rightSpine (some 0) >>= parentLinksAgree (fun x => x.p) 16)
      = Except.ok false ∧
    (leftrotate rightSpine (some 0) >>= fun m => rd m (some 0)).map (fun x => (x.parent, x.p))
      = Except.ok (some 1, none) ∧
    parentLinksAgree (fun x => x.p) 16 leftSpine = Except.ok true ∧
    parentLinksAgree (fun x => x.parent) 16 leftSpine = Except.ok true ∧
    (rightrotate leftSpine (some 0) >>= parentLinksAgree (fun x => x.p) 16)
      = Except.ok false ∧
    (rightrotate leftSpine (some 0) >>= fun m => rd m (some 0)).map (fun x => (x.parent, x.p))
      = Except.ok (some 1, none) ∧
    parentLinksAgree (fun x => x.p) 16 chainByP = Except.ok true ∧
    inorder 16 chainByP chainByP.tree.root = Except.ok [0, 1, 2] ∧
    (leftrotate chainByP (some 1) >>= fun m => inorder 16 m m.tree.root)
      = Except.ok [1, 2] := by
  decide!

/-! ## The table update of `exit` -/

theorem wakeup1_getElem? (m : Mem) (c : Chan) (j : Nat) :
    (wakeup1 m c).procs[j]? = (m.procs[j]?).map (wakeSlot c) := by
  simp only [wakeup1, List.getElem?_map]
  rfl

theorem modSlot_getElem? (m : Mem) (i : Nat) (f : proc → proc) (j : Nat) :
    (modSlot m i f).procs[j]? = if j = i then (m.procs[i]?).map f else m.procs[j]? := by
  unfold modSlot
  cases h : m.procs[i]? with
  | none =>
    by_cases hj : j = i
    · simp [hj, h]
    · simp [hj]
  | some x =>
    have hl : i < m.procs.length := by
      by_contra hl
      simp [List.getElem?_eq_none (not_lt.mp hl)] at h
    by_cases hj : j = i
    · simp [hj, List.getElem?_set, hl]
    · have hj2 : ¬ i = j := fun e => hj e.symm
      simp [hj, hj2, List.getElem?_set]

theorem exitSlot_false_false (c i0 : Ptr) (y : proc) : exitSlot c i0 false false y = y := by
  simp [exitSlot]

theorem exitSlot_wakeSlot (c i0 : Ptr) (v w : Bool) (y : proc) :
    exitSlot c i0 v w (wakeSlot (Chan.ofPtr i0) y) = exitSlot c i0 v true y := by
  unfold wakeSlot
  by_cases h : y.state = procstate.SLEEPING ∧ y.chan = Chan.ofPtr i0
  · simp [exitSlot, h]
  · cases w <;> simp [exitSlot, h]

theorem exitSlot_reparented (c i0 : Ptr) (hne : c ≠ i0) (v w : Bool) (x : proc)
    (hp : x.parent = c) :
    exitSlot c i0 v w { x with parent := i0 } = exitSlot c i0 true w x := by
  have hne2 : ¬ i0 = c := fun e => hne e.symm
  simp [exitSlot, hp, hne2]

theorem zombieChildIn_modSlot (c i0 : Ptr) (hne : c ≠ i0) (m : Mem) (a : Nat) (x : proc)
    (ha : m.procs[a]? = some x) (hz : ¬ x.state = procstate.ZOMBIE) (is : List Nat) :
    zombieChildIn c (modSlot m a fun y => { y with parent := i0 }) is
      = zombieChildIn c m is := by
  have hne2 : ¬ i0 = c := fun e => hne e.symm
  unfold zombieChildIn
  congr 1
  funext i
  rw [modSlot_getElem?]
  by_cases hi : i = a
  · subst hi
    simp [ha, hz, hne2]
  · simp [hi]

theorem exitLoop_getElem? (c i0 : Ptr) (hne : c ≠ i0) (is : List Nat) :
    ∀ (m : Mem) (j : Nat),
      (exitLoop c i0 is m).procs[j]?
        = (m.procs[j]?).map (exitSlot c i0 (decide (j ∈ is)) (zombieChildIn c m is)) := by
  induction is with
  | nil =>
    intro m j
    cases h : m.procs[j]? with
    | none => simp [exitLoop, h]
    | some y => simp [exitLoop, h, zombieChildIn, exitSlot]
  | cons a is ih =>
    intro m j
    unfold exitLoop
    cases ha : m.procs[a]? with
    | none =>
      simp only [ih]
      cases hj : m.procs[j]? with
      | none => simp
      | some y =>
        have hja : j ≠ a := by
          intro e
          rw [e, ha] at hj
          cases hj
        simp [zombieChildIn, ha, hja]
    | some x =>
      simp only
      by_cases hp : x.parent = c
      · simp only [hp, if_true]
        by_cases hz : x.state = procstate.ZOMBIE
        · simp only [hz, if_true, ih, wakeup1_getElem?, modSlot_getElem?]
          have hZ : zombieChildIn c m (a :: is) = true := by
            simp [zombieChildIn, ha, hp, hz]
          rw [hZ]
          by_cases hja : j = a
          · subst hja
            simp only [if_true, ha, Option.map_some', exitSlot_wakeSlot,
              exitSlot_reparented c i0 hne _ _ x hp, List.mem_cons, true_or, decide_True]
          · cases hj : m.procs[j]? with
            | none => simp [hja, hj]
            | some y => simp [hja, hj, exitSlot_wakeSlot]
        · simp only [hz, if_false, ih, modSlot_getElem?,
            zombieChildIn_modSlot c i0 hne m a x ha hz]
          have hZ : zombieChildIn c m (a :: is) = zombieChildIn c m is := by
            simp [zombieChildIn, ha, hz]
          rw [hZ]
          by_cases hja : j = a
          · subst hja
            simp only [if_true, ha, Option.map_some',
              exitSlot_reparented c i0 hne _ _ x hp, List.mem_cons, true_or, decide_True]
          · simp [hja]
      · simp only [hp, if_false, ih]
        cases hj : m.procs[j]? with
        | none => simp
        | some y =>
          have hz : zombieChildIn c m (a :: is) = zombieChildIn c m is := by
            simp [zombieChildIn, ha, hp]
          rw [hz]
          by_cases hja : j = a
          · subst hja
            rw [ha] at hj
            cases hj
            simp [exitSlot, hp]
          · simp [hja]

theorem wr_ok (m : Mem) (i : Nat) (f : proc → proc) (x : proc) (h : m.procs[i]? = some x) :
    wr m (some i) f = Except.ok { m with procs := m.procs.set i (f x) } := by
  simp [wr, h]

theorem zombieChildIn_of_mem (c : Ptr) (m : Mem) (is : List Nat) (i : Nat) (z : proc)
    (hi : i ∈ is) (hz : m.procs[i]? = some z) (hp : z.parent = c)
    (hs : z.state = procstate.ZOMBIE) : zombieChildIn c m is = true := by
  unfold zombieChildIn
  rw [List.any_eq_true]
  exact ⟨i, hi, by simp [hz, hp, hs]⟩

theorem exitMem_getElem? (k : Kernel) (P : Nat) (x : proc) (hinit : some P ≠ k.initproc)
    (j : Nat) (y : proc) (hy : k.mem.procs[j]? = some y) :
    (exitMem k P x).procs[j]?
      = some (exitSlot (some P) k.initproc true
          (zombieChildIn (some P) (wakeup1 k.mem (Chan.ofPtr x.parent))
            (List.range k.mem.procs.length))
          (wakeSlot (Chan.ofPtr x.parent) y)) := by
  have hj : j < k.mem.procs.length := by
    by_contra hl
    simp [List.getElem?_eq_none (not_lt.mp hl)] at hy
  unfold exitMem
  rw [exitLoop_getElem? _ _ hinit, wakeup1_getElem?, hy]
  simp [hj]

theorem exit_eq (k : Kernel) (P : Nat) (x x2 : proc)
    (hx : k.mem.procs[P]? = some x) (hinit : some P ≠ k.initproc)
    (hx2 : (exitMem k P x).procs[P]? = some x2) :
    exit k (some P) = Except.ok { k with mem := { exitMem k P x with
      procs := (exitMem k P x).procs.set P { x2 with state := procstate.ZOMBIE } } } := by
  have hrd : rd k.mem (some P) = Except.ok x := by simp [rd, hx]
  have hlen : (wakeup1 k.mem (Chan.ofPtr x.parent)).procs.length = k.mem.procs.length := by
    simp [wakeup1]
  unfold exit
  simp only [hinit, if_false, hrd, hlen, bind, Except.bind, pure, Except.pure]
  rw [show exitLoop (some P) k.initproc (List.range k.mem.procs.length)
      (wakeup1 k.mem (Chan.ofPtr x.parent)) = exitMem k P x from rfl]
  rw [wr_ok _ P _ _ hx2]

/-- C14: the table update of `exit` called by a Running process `P` other
than init returns, and in its result every slot whose parent was `P` has
parent init, every other parent is unchanged, `P` is Zombie, every slot that
was Sleeping on the address of `P`'s parent is Runnable, and when some child
of `P` was Zombie every slot that was Sleeping on init's address is Runnable;
`nextpid`, `initproc` and the tree are unchanged. -/
theorem exit_table_update (k : Kernel) (P : Nat) (x : proc)
    (hx : k.mem.procs[P]? = some x) (hrun : x.state = procstate.RUNNING)
    (hinit : some P ≠ k.initproc) :
    ∃ k2, exit k (some P) = Except.ok k2 ∧ k2.nextpid = k.nextpid ∧
      k2.initproc = k.initproc ∧ k2.mem.tree = k.mem.tree ∧
      ∀ (j : Nat) (y : proc), k.mem.procs[j]? = some y →
        ∃ y2, k2.mem.procs[j]? = some y2 ∧
          y2.parent = (if y.parent = some P then k.initproc else y.parent) ∧
          (j = P → y2.state = procstate.ZOMBIE) ∧
          (y.state = procstate.SLEEPING ∧ y.chan = Chan.ofPtr x.parent →
            y2.state = procstate.RUNNABLE) ∧
          ((∃ (i : Nat) (z : proc), k.mem.procs[i]? = some z ∧ z.parent = some P ∧
              z.state = procstate.ZOMBIE) →
            y.state = procstate.SLEEPING ∧ y.chan = Chan.ofPtr k.initproc →
            y2.state = procstate.RUNNABLE) := by
  have hP := exitMem_getElem? k P x hinit P x hx
  refine ⟨_, exit_eq k P x _ hx hinit hP, rfl, rfl, ?_, ?_⟩
  · show (exitMem k P x).tree = k.mem.tree
    unfold exitMem
    rw [exitLoop_tree]
    rfl
  · intro j y hy
    have hj := exitMem_getElem? k P x hinit j y hy
    have hl : P < (exitMem k P x).procs.length := by
      by_contra hl
      simp [List.getElem?_eq_none (not_lt.mp hl)] at hP
    by_cases hjP : j = P
    · subst hjP
      rw [hx] at hy
      cases hy
      refine ⟨{ exitSlot (some j) k.initproc true
          (zombieChildIn (some j) (wakeup1 k.mem (Chan.ofPtr x.parent))
            (List.range k.mem.procs.length))
          (wakeSlot (Chan.ofPtr x.parent) x) with state := procstate.ZOMBIE },
        by simp [List.getElem?_set, hl], ?_, fun _ => rfl, ?_, ?_⟩
      · simp [exitSlot, wakeSlot, hrun]
      · intro h
        rw [hrun] at h
        exact absurd h.1 (by decide)
      · intro _ h
        rw [hrun] at h
        exact absurd h.1 (by decide)
    · have hPj : ¬ P = j := fun e => hjP e.symm
      refine ⟨exitSlot (some P) k.initproc true
          (zombieChildIn (some P) (wakeup1 k.mem (Chan.ofPtr x.parent))
            (List.range k.mem.procs.length))
          (wakeSlot (Chan.ofPtr x.parent) y),
        by simpa [List.getElem?_set, hPj] using hj, ?_, fun e => absurd e hjP, ?_, ?_⟩
      · unfold wakeSlot
        split <;> simp [exitSlot]
      · intro h
        simp [exitSlot, wakeSlot, h]
      · rintro ⟨i, z, hz, hzp, hzs⟩ h
        have hi : i < k.mem.procs.length := by
          by_contra hl
          simp [List.getElem?_eq_none (not_lt.mp hl)] at hz
        have hZ : zombieChildIn (some P) (wakeup1 k.mem (Chan.ofPtr x.parent))
            (List.range k.mem.procs.length) = true := by
          apply zombieChildIn_of_mem _ _ _ i (wakeSlot (Chan.ofPtr x.parent) z)
            (List.mem_range.mpr hi)
          · rw [wakeup1_getElem?, hz]
            rfl
          · simp [wakeSlot, hzs, hzp]
          · simp [wakeSlot, hzs]
        rw [hZ]
        unfold wakeSlot
        split <;> simp [exitSlot, h]

/-- Witness of `exit_table_update`: slot 1 of `exitEx` exits; init is woken
and inherits the Zombie child. -/
theorem exit_table_update_witness :
    ∃ k2, exit exitEx (some 1) = Except.ok k2 ∧
      ∃ y0 y2, k2.mem.procs[0]? = some y0 ∧ y0.state = procstate.RUNNABLE ∧
        k2.mem.procs[2]? = some y2 ∧ y2.parent = some 0 := by
  obtain ⟨k2, h1, _, _, _, h5⟩ := exit_table_update exitEx 1 _ rfl rfl (by decide)
  obtain ⟨y0, a1, _, _, a4, _⟩ := h5 0 _ rfl
  obtain ⟨y2, b1, b2, _⟩ := h5 2 _ rfl
  exact ⟨k2, h1, y0, y2, a1, a4 ⟨rfl, rfl⟩, b1, b2⟩

/-! ## Pids -/

theorem slotsKept_refl (m : Mem) : SlotsKept m m := fun _ x2 h hs => ⟨x2, h, hs, rfl⟩

theorem slotsKept_trans {a b c : Mem} (h1 : SlotsKept a b) (h2 : SlotsKept b c) :
    SlotsKept a c := by
  intro j x2 hx hs
  obtain ⟨x1, a1, a2, a3⟩ := h2 j x2 hx hs
  obtain ⟨x0, b1, b2, b3⟩ := h1 j x1 a1 a2
  exact ⟨x0, b1, b2, b3.trans a3⟩

theorem pidInv_kept {k k2 : Kernel} (hinv : PidInv k) (hk : SlotsKept k.mem k2.mem)
    (hn : k2.nextpid = k.nextpid) : PidInv k2 := by
  constructor
  · intro i x hx hs
    obtain ⟨x0, a1, a2, a3⟩ := hk i x hx hs
    have := hinv.1 i x0 a1 a2
    rw [hn, ← a3]
    exact this
  · intro i j x y hx hy hsx hsy hp
    obtain ⟨x0, a1, a2, a3⟩ := hk i x hx hsx
    obtain ⟨y0, b1, b2, b3⟩ := hk j y hy hsy
    exact hinv.2 i j x0 y0 a1 b1 a2 b2 (by rw [a3, b3, hp])

theorem pidInv_set {k k2 : Kernel} (hinv : PidInv k) (h1 : 1 ≤ k.nextpid) (i : Nat) (z : proc)
    (hz : z.state = procstate.UNUSED ∨ z.pid = k.nextpid)
    (hprocs : k2.mem.procs = k.mem.procs.set i z) (hn : k2.nextpid = k.nextpid + 1) :
    PidInv k2 := by
  have hget : ∀ (j : Nat) (x : proc), k2.mem.procs[j]? = some x → x.state ≠ procstate.UNUSED →
      (j ≠ i ∧ k.mem.procs[j]? = some x) ∨ (j = i ∧ x.pid = k.nextpid) := by
    intro j x hx hs
    rw [hprocs, List.getElem?_set] at hx
    by_cases hj : i = j
    · right
      rw [if_pos hj] at hx
      split at hx
      · cases hx
        rcases hz with hz | hz
        · exact absurd hz hs
        · exact ⟨hj.symm, hz⟩
      · cases hx
    · left
      rw [if_neg hj] at hx
      exact ⟨fun e => hj e.symm, hx⟩
  constructor
  · intro j x hx hs
    rcases hget j x hx hs with ⟨_, h⟩ | ⟨_, h⟩
    · have := hinv.1 j x h hs
      rw [hn]
      omega
    · rw [hn, h]
      omega
  · intro a b x y hx hy hsx hsy hp
    rcases hget a x hx hsx with ⟨_, ha⟩ | ⟨ha, hpa⟩ <;>
      rcases hget b y hy hsy with ⟨_, hb⟩ | ⟨hb, hpb⟩
    · exact hinv.2 a b x y ha hb hsx hsy hp
    · have := hinv.1 a x ha hsx
      omega
    · have := hinv.1 b y hb hsy
      omega
    · rw [ha, hb]

theorem modSlot_kept (m : Mem) (i : Nat) (f : proc → proc)
    (hf : ∀ x, (f x).state ≠ procstate.UNUSED →
      x.state ≠ procstate.UNUSED ∧ (f x).pid = x.pid) :
    SlotsKept m (modSlot m i f) := by
  intro j x2 hx hs
  rw [modSlot_getElem?] at hx
  by_cases hj : j = i
  · rw [if_pos hj] at hx
    cases h : m.procs[i]? with
    | none => simp [h] at hx
    | some x =>
      simp only [h, Option.map_some', Option.some.injEq] at hx
      subst hx
      obtain ⟨a, b⟩ := hf x hs
      exact ⟨x, by rw [hj, h], a, b.symm⟩
  · rw [if_neg hj] at hx
    exact ⟨x2, hx, hs, rfl⟩

theorem set_unused_kept (m : Mem) (i : Nat) (z : proc) (hz : z.state = procstate.UNUSED) :
    SlotsKept m { m with procs := m.procs.set i z } := by
  intro j x2 hx hs
  simp only [List.getElem?_set] at hx
  by_cases hj : i = j
  · rw [if_pos hj] at hx
    split at hx
    · cases hx
      exact absurd hz hs
    · cases hx
  · rw [if_neg hj] at hx
    exact ⟨x2, hx, hs, rfl⟩

theorem wakeup1_kept (m : Mem) (c : Chan) : SlotsKept m (wakeup1 m c) := by
  intro j x2 hx hs
  rw [wakeup1_getElem?] at hx
  cases h : m.procs[j]? with
  | none => simp [h] at hx
  | some x =>
    simp only [h, Option.map_some', Option.some.injEq] at hx
    subst hx
    refine ⟨x, rfl, ?_, ?_⟩
    · intro hu
      apply hs
      simp [wakeSlot, hu]
    · unfold wakeSlot
      split <;> rfl

theorem kill_kept (m : Mem) (pid : Int) : SlotsKept m (kill m pid).2 := by
  cases hf : m.procs.findIdx? (fun x => decide (x.pid = pid)) with
  | none =>
    simp only [kill, hf]
    exact slotsKept_refl m
  | some i =>
    simp only [kill, hf]
    have h1 : SlotsKept m (modSlot m i fun x => { x with killed := 1 }) :=
      modSlot_kept m i _ (fun x hs => ⟨hs, rfl⟩)
    refine slotsKept_trans h1 (modSlot_kept _ i _ ?_)
    intro x hs
    by_cases h : x.state = procstate.SLEEPING
    · simp only [h, if_true]
      exact ⟨by decide, trivial⟩
    · simp only [h, if_false] at hs ⊢
      exact ⟨hs, trivial⟩

theorem setnice_kept (m : Mem) (pid v : Int) : SlotsKept m (setnice m pid v).2 := by
  cases hf : m.procs.findIdx? (fun x => decide (x.pid = pid)) with
  | none =>
    simp only [setnice, hf]
    exact slotsKept_refl m
  | some i =>
    simp only [setnice, hf]
    have h1 : SlotsKept m (modSlot m i fun x => { x with nice_value := clampNice v }) :=
      modSlot_kept m i _ (fun x hs => ⟨hs, rfl⟩)
    exact slotsKept_trans h1 (modSlot_kept _ i _ (fun x hs => ⟨hs, rfl⟩))

theorem exit_kept (k k2 : Kernel) (P : Nat) (x : proc) (hx : k.mem.procs[P]? = some x)
    (hrun : x.state ≠ procstate.UNUSED) (h : exit k (some P) = Except.ok k2) :
    SlotsKept k.mem k2.mem ∧ k2.nextpid = k.nextpid := by
  have hinit : some P ≠ k.initproc := by
    intro e
    simp [exit, e] at h
    cases h
  have hP := exitMem_getElem? k P x hinit P x hx
  rw [exit_eq k P x _ hx hinit hP] at h
  cases h
  refine ⟨?_, rfl⟩
  intro j x2 hx2 hs
  simp only [List.getElem?_set] at hx2
  by_cases hj : P = j
  · subst hj
    rw [if_pos rfl] at hx2
    split at hx2
    · cases hx2
      refine ⟨x, hx, hrun, ?_⟩
      show x.pid = (wakeSlot (Chan.ofPtr x.parent) x).pid
      unfold wakeSlot
      split <;> rfl
    · cases hx2
  · rw [if_neg hj] at hx2
    cases hy : k.mem.procs[j]? with
    | none =>
      have hl : k.mem.procs.length ≤ j := by
        by_contra hl
        simp [List.getElem?_eq_getElem (not_le.mp hl)] at hy
      have : (exitMem k P x).procs[j]? = none := by
        unfold exitMem
        rw [exitLoop_getElem? _ _ hinit, wakeup1_getElem?, hy]
        rfl
      rw [this] at hx2
      cases hx2
    | some y =>
      rw [exitMem_getElem? k P x hinit j y hy] at hx2
      cases hx2
      refine ⟨y, rfl, ?_, ?_⟩
      · intro hu
        apply hs
        simp [exitSlot, wakeSlot, hu]
      · unfold wakeSlot
        split <;> rfl

theorem wrapInt_succ (n : Int) (h1 : 1 ≤ n) (h2 : n < 2 ^ 31 - 1) : wrapInt (n + 1) = n + 1 := by
  unfold wrapInt
  omega

theorem allocproc_pidInv (k : Kernel) (hinv : PidInv k) (h1 : 1 ≤ k.nextpid)
    (hlt : k.nextpid < 2 ^ 31 - 1) (b : Bool) :
    PidInv (allocproc k b).2 ∧ 1 ≤ (allocproc k b).2.nextpid := by
  cases hf : k.mem.procs.findIdx? (fun x => decide (x.state = procstate.UNUSED)) with
  | none =>
    have : allocproc k b = (none, k) := by simp only [allocproc, hf]
    rw [this]
    exact ⟨hinv, h1⟩
  | some i =>
    obtain ⟨x, hx, _, _⟩ := findIdx?_some_spec _ _ _ hf
    rw [allocproc_found k i x b hx hf]
    cases b
    · simp only [Bool.false_eq_true, if_false]
      refine ⟨pidInv_set hinv h1 i _ (Or.inl rfl) rfl (wrapInt_succ _ h1 hlt), ?_⟩
      show 1 ≤ wrapInt (k.nextpid + 1)
      rw [wrapInt_succ _ h1 hlt]
      omega
    · simp only [if_true]
      refine ⟨pidInv_set hinv h1 i _ (Or.inr rfl) rfl (wrapInt_succ _ h1 hlt), ?_⟩
      show 1 ≤ wrapInt (k.nextpid + 1)
      rw [wrapInt_succ _ h1 hlt]
      omega

theorem Post.bind_inv {β : Type} (Q : Mem → Prop) {x : Run Mem} {f : Mem → Run β}
    {R : β → Prop} (hx : Post x Q) (hf : ∀ m1, Q m1 → Post (f m1) R) : Post (x >>= f) R :=
  Post.bind hx hf

theorem wr_slot_pid (procs : List proc) (pid : Int) (i : Nat) (m : Mem) (f : proc → proc)
    (hf : ∀ x, (f x).pid = x.pid)
    (hm : ∃ z, m.procs = procs.set i z ∧ z.pid = pid) :
    Post (wr m (some i) f) (fun m2 => ∃ z, m2.procs = procs.set i z ∧ z.pid = pid) := by
  constructor
  intro m2 h
  obtain ⟨z, hz1, hz2⟩ := hm
  cases hx : m.procs[i]? with
  | none => simp [wr, hx] at h
  | some x =>
    simp only [wr, hx] at h
    cases h
    refine ⟨f x, by simp [hz1, List.set_set], ?_⟩
    rw [hz1, List.getElem?_set] at hx
    simp only [if_true] at hx
    split at hx
    · cases hx
      rw [hf, hz2]
    · cases hx

theorem fork_pidInv (k : Kernel) (hinv : PidInv k) (h1 : 1 ≤ k.nextpid)
    (hlt : k.nextpid < 2 ^ 31 - 1) (c : Ptr) (a b : Bool) :
    Post (fork k c a b) (fun r => PidInv r.2 ∧ 1 ≤ r.2.nextpid) := by
  have h2 : 1 ≤ wrapInt (k.nextpid + 1) := by
    rw [wrapInt_succ _ h1 hlt]
    omega
  unfold fork
  cases hf : k.mem.procs.findIdx? (fun x => decide (x.state = procstate.UNUSED)) with
  | none =>
    have : allocproc k a = (none, k) := by simp only [allocproc, hf]
    rw [this]
    exact Post.pure ⟨hinv, h1⟩
  | some i =>
    obtain ⟨x, hx, _, _⟩ := findIdx?_some_spec _ _ _ hf
    rw [allocproc_found k i x a hx hf]
    cases a
    · simp only [Bool.false_eq_true, if_false]
      exact Post.pure ⟨pidInv_set hinv h1 i _ (Or.inl rfl) rfl (wrapInt_succ _ h1 hlt), h2⟩
    · simp only [if_true]
      have hq : ∃ z, (k.mem.procs.set i
          { x with state := procstate.EMBRYO, pid := k.nextpid, kstack := true,
                   vruntime := 0, curr_runtime := 0, time_slice := 0, nice_value := 0,
                   weight := 1024, l := none, r := none, p := none })
          = k.mem.procs.set i z ∧ z.pid = k.nextpid := ⟨_, rfl, rfl⟩
      have fin : ∀ (m : Mem) (pid : Int),
          (∃ z, m.procs = k.mem.procs.set i z ∧ z.pid = k.nextpid) →
          PidInv (pid, ({ mem := m, nextpid := wrapInt (k.nextpid + 1),
                          initproc := k.initproc } : Kernel)).2 ∧
          1 ≤ (pid, ({ mem := m, nextpid := wrapInt (k.nextpid + 1),
                       initproc := k.initproc } : Kernel)).2.nextpid := by
        rintro m pid ⟨z, hz1, hz2⟩
        exact ⟨pidInv_set hinv h1 i z (Or.inr hz2) hz1 (wrapInt_succ _ h1 hlt), h2⟩
      repeat' first
        | intro _
        | exact Post.pure (fin _ _ (by assumption))
        | exact wr_slot_pid _ _ _ _ _ (fun _ => rfl) (by assumption)
        | apply Post.ite
        | apply Post.bind_inv (fun m => ∃ z, m.procs = k.mem.procs.set i z ∧ z.pid = k.nextpid)
        | apply Post.bind_any

theorem wait_kept (k k2 : Kernel) (c : Ptr) (pid : Int)
    (h : wait k c = Except.ok (WaitOutcome.returned pid, k2)) :
    SlotsKept k.mem k2.mem ∧ k2.nextpid = k.nextpid := by
  cases hf : k.mem.procs.findIdx?
      (fun x => decide (x.parent = c ∧ x.state = procstate.ZOMBIE)) with
  | some i =>
    obtain ⟨x, hx, _, _⟩ := findIdx?_some_spec _ _ _ hf
    have hl : i < k.mem.procs.length := by
      by_contra hl
      simp [List.getElem?_eq_none (not_lt.mp hl)] at hx
    have hrd : rd k.mem (some i) = Except.ok x := by simp [rd, hx]
    unfold wait at h
    simp only [hf, hrd, modSlot, hx, List.getElem?_set, hl, if_true, List.set_set, bind,
      Except.bind, pure, Except.pure, List.length_set] at h
    cases h
    exact ⟨set_unused_kept k.mem i _ rfl, rfl⟩
  | none =>
    unfold wait at h
    simp only [hf] at h
    by_cases hk : (k.mem.procs.any fun x => decide (x.parent = c)) = true
    · simp only [hk, Bool.not_true, Bool.false_eq_true, if_false, bind, Except.bind, pure,
        Except.pure] at h
      cases hr : rd k.mem c with
      | error e => simp [hr] at h
      | ok y =>
        simp only [hr] at h
        by_cases hkl : decide (y.killed ≠ 0) = true
        · rw [if_pos hkl] at h
          cases h
          exact ⟨slotsKept_refl _, rfl⟩
        · rw [if_neg hkl] at h
          split at h
          · cases h
          · split at h
            · cases h
            · cases h
    · simp only [hk, Bool.not_false, if_true, bind, Except.bind, pure, Except.pure] at h
      cases h
      exact ⟨slotsKept_refl _, rfl⟩

theorem getElem?_lt {α : Type} {l : List α} {i : Nat} {x : α} (h : l[i]? = some x) :
    i < l.length := by
  by_contra hl
  simp [List.getElem?_eq_none (not_lt.mp hl)] at h

theorem set_kept (m : Mem) (i : Nat) (x z : proc) (hx : m.procs[i]? = some x)
    (hs : x.state ≠ procstate.UNUSED) (hp : z.pid = x.pid) :
    SlotsKept m { m with procs := m.procs.set i z } := by
  intro j x2 hx2 _
  simp only [List.getElem?_set] at hx2
  by_cases hj : i = j
  · rw [if_pos hj] at hx2
    split at hx2
    · cases hx2
      exact ⟨x, by rw [← hj]; exact hx, hs, hp.symm⟩
    · cases hx2
  · rw [if_neg hj] at hx2
    exact ⟨x2, hx2, by assumption, rfl⟩

theorem schedulerPick_kept (k k2 : Kernel) (i : Nat) (h : schedulerPick k i = some k2) :
    SlotsKept k.mem k2.mem ∧ k2.nextpid = k.nextpid := by
  unfold schedulerPick at h
  cases hx : k.mem.procs[i]? with
  | none => simp [hx] at h
  | some x =>
    simp only [hx] at h
    by_cases hr : x.state = procstate.RUNNABLE
    · rw [if_pos hr, modSlot_eq_set _ _ _ _ hx] at h
      cases h
      exact ⟨set_kept k.mem i x _ hx (by rw [hr]; decide) rfl, rfl⟩
    · rw [if_neg hr] at h
      cases h

theorem yield_kept (k k2 : Kernel) (P : Nat) (x : proc) (hx : k.mem.procs[P]? = some x)
    (hne : x.state ≠ procstate.UNUSED) (h : yield k (some P) = Except.ok k2) :
    SlotsKept k.mem k2.mem ∧ k2.nextpid = k.nextpid := by
  simp only [yield, wr_ok _ _ _ _ hx, bind, Except.bind, pure, Except.pure,
    Except.ok.injEq] at h
  subst h
  exact ⟨set_kept k.mem P x _ hx hne rfl, rfl⟩

theorem wr_wr_ok (m : Mem) (i : Nat) (f g : proc → proc) (x : proc)
    (hx : m.procs[i]? = some x) :
    (wr m (some i) f >>= fun m2 => wr m2 (some i) g)
      = Except.ok { m with procs := m.procs.set i (g (f x)) } := by
  have hl := getElem?_lt hx
  simp [wr, hx, hl, bind, Except.bind, List.getElem?_set]

theorem sleep_kept (k k2 : Kernel) (P : Nat) (x : proc) (chan : Chan)
    (hx : k.mem.procs[P]? = some x) (hne : x.state ≠ procstate.UNUSED)
    (h : sleep k (some P) chan = Except.ok k2) :
    SlotsKept k.mem k2.mem ∧ k2.nextpid = k.nextpid := by
  have h2 := wr_wr_ok k.mem P (fun y => { y with chan := chan })
    (fun y => { y with state := procstate.SLEEPING }) x hx
  simp only [bind, Except.bind] at h2
  simp only [sleep, reduceCtorEq, if_false, bind, Except.bind, pure, Except.pure] at h
  cases h3 : wr k.mem (some P) fun y => { y with chan := chan } with
  | error e => simp [h3] at h
  | ok m1 =>
    simp only [h3] at h h2
    rw [h2] at h
    simp only [Except.ok.injEq] at h
    subst h
    exact ⟨set_kept k.mem P x _ hx hne rfl, rfl⟩

theorem waitSleep_kept (k k2 : Kernel) (P : Nat) (x : proc)
    (hx : k.mem.procs[P]? = some x) (hne : x.state ≠ procstate.UNUSED)
    (h : wait k (some P) = Except.ok (WaitOutcome.sleeping, k2)) :
    SlotsKept k.mem k2.mem ∧ k2.nextpid = k.nextpid := by
  have h2 := wr_wr_ok k.mem P (fun y => { y with chan := Chan.ofPtr (some P) })
    (fun y => { y with state := procstate.SLEEPING }) x hx
  simp only [bind, Except.bind] at h2
  unfold wait at h
  cases hf : k.mem.procs.findIdx?
      (fun y => decide (y.parent = some P ∧ y.state = procstate.ZOMBIE)) with
  | some i =>
    simp only [hf, bind, Except.bind, pure, Except.pure] at h
    cases hr : rd k.mem (some i) with
    | error e => simp [hr] at h
    | ok y => simp [hr] at h
  | none =>
    simp only [hf, bind, Except.bind, pure, Except.pure] at h
    have hrd : rd k.mem (some P) = Except.ok x := by simp [rd, hx]
    by_cases hk : (k.mem.procs.any fun y => decide (y.parent = some P)) = true
    · simp only [hk, Bool.not_true, Bool.false_eq_true, if_false, hrd] at h
      by_cases hkl : decide (x.killed ≠ 0) = true
      · rw [if_pos hkl] at h
        cases h
      · rw [if_neg hkl] at h
        cases h3 : wr k.mem (some P) fun y => { y with chan := Chan.ofPtr (some P) } with
        | error e => simp [h3] at h
        | ok m1 =>
          simp only [h3] at h h2
          rw [h2] at h
          simp only [Except.ok.injEq, Prod.mk.injEq, true_and] at h
          subst h
          exact ⟨set_kept k.mem P x _ hx hne rfl, rfl⟩
    · simp only [hk, Bool.not_false, if_true] at h
      cases h

theorem pidStep_inv (k k2 : Kernel) (hinv : PidInv k) (h1 : 1 ≤ k.nextpid)
    (hlt : k.nextpid < 2 ^ 31 - 1) (hs : PidStep k k2) : PidInv k2 ∧ 1 ≤ k2.nextpid := by
  cases hs with
  | alloc b => exact allocproc_pidInv k hinv h1 hlt b
  | fork _ c a b pid h => exact (fork_pidInv k hinv h1 hlt c a b).out _ h
  | exit _ P x hx hrun h =>
    obtain ⟨a1, a2⟩ := exit_kept k k2 P x hx hrun h
    exact ⟨pidInv_kept hinv a1 a2, by rw [a2]; exact h1⟩
  | reap _ c pid h =>
    obtain ⟨a1, a2⟩ := wait_kept k k2 c pid h
    exact ⟨pidInv_kept hinv a1 a2, by rw [a2]; exact h1⟩
  | kill pid => exact ⟨pidInv_kept hinv (kill_kept k.mem pid) rfl, h1⟩
  | wakeup chan => exact ⟨pidInv_kept hinv (wakeup1_kept k.mem chan) rfl, h1⟩
  | setnice pid v => exact ⟨pidInv_kept hinv (setnice_kept k.mem pid v) rfl, h1⟩
  | pick _ i h =>
    obtain ⟨a1, a2⟩ := schedulerPick_kept k k2 i h
    exact ⟨pidInv_kept hinv a1 a2, by rw [a2]; exact h1⟩
  | yield _ P x hx hne h =>
    obtain ⟨a1, a2⟩ := yield_kept k k2 P x hx hne h
    exact ⟨pidInv_kept hinv a1 a2, by rw [a2]; exact h1⟩
  | sleep _ P x chan hx hne h =>
    obtain ⟨a1, a2⟩ := sleep_kept k k2 P x chan hx hne h
    exact ⟨pidInv_kept hinv a1 a2, by rw [a2]; exact h1⟩
  | waitSleep _ P x hx hne h =>
    obtain ⟨a1, a2⟩ := waitSleep_kept k k2 P x hx hne h
    exact ⟨pidInv_kept hinv a1 a2, by rw [a2]; exact h1⟩

theorem boot_pidInv (NPROC : Nat) : PidInv (boot NPROC) := by
  have hu : ∀ (i : Nat) (x : proc), (boot NPROC).mem.procs[i]? = some x →
      x.state = procstate.UNUSED := by
    intro i x hx
    have hm := List.getElem?_mem hx
    simp only [boot] at hm
    rw [List.eq_of_mem_replicate hm]
  exact ⟨fun i x hx hs => absurd (hu i x hx) hs,
    fun i j x y hx hy hs _ _ => absurd (hu i x hx) hs⟩

/-- C13, amended: in every state reachable from the initial table by
allocproc, fork, exit, the reap in wait, kill, wakeup and setnice (also when
interleaved with the dispatcher's selection, yield and sleep) along a run in
which `nextpid` stays below `INT_MAX` (so that `nextpid++` has never
overflowed), any two distinct non-Unused slots have different pids and every
non-Unused slot's pid is positive and strictly less than `nextpid`. -/
theorem pids_unique_below_overflow (NPROC : Nat) (k : Kernel)
    (h : PidReachableBelow NPROC k) : PidInv k := by
  have key : PidInv k ∧ 1 ≤ k.nextpid := by
    induction h with
    | init => exact ⟨boot_pidInv NPROC, le_refl _⟩
    | step k k2 _ hlt hs ih => exact pidStep_inv k k2 ih.1 ih.2 hlt hs
  exact key.1

theorem afterFailedAllocs_findIdx (n : Nat) :
    (afterFailedAllocs n).mem.procs.findIdx? (fun x => decide (x.state = procstate.UNUSED))
      = some 0 := by
  simp [afterFailedAllocs, List.findIdx?_cons]

theorem afterFailedAllocs_succ (n : Nat) (h : (n : Int) + 1 < 2 ^ 31 - 1) :
    (allocproc (afterFailedAllocs n) false).2 = afterFailedAllocs (n + 1) := by
  rw [allocproc_found (afterFailedAllocs n) 0 { pid := (n : Int) } false rfl
    (afterFailedAllocs_findIdx n)]
  simp only [Bool.false_eq_true, if_false]
  have hw : wrapInt ((afterFailedAllocs n).nextpid + 1) = ((n + 1 : Nat) : Int) + 1 := by
    show wrapInt ((n : Int) + 1 + 1) = _
    rw [wrapInt_succ _ (by omega) h]
    push_cast
    ring
  rw [hw]
  simp only [afterFailedAllocs, List.set_cons_zero]
  push_cast
  rfl

theorem afterFailedAllocs_reachable (n : Nat) (h : (n : Int) + 1 ≤ 2 ^ 31 - 1) :
    PidReachable 64 (afterFailedAllocs n) := by
  induction n with
  | zero => exact PidReachable.init
  | succ n ih =>
    have h2 : (n : Int) + 1 < 2 ^ 31 - 1 := by
      push_cast at h
      omega
    rw [← afterFailedAllocs_succ n h2]
    exact PidReachable.step _ _ (ih (by omega)) (PidStep.alloc _ false)

/-- C13 as stated fails: after 2147483646 allocations that failed in `kalloc`
`nextpid` is `INT_MAX`; the next allocation hands out pid 2147483647 and
`nextpid` wraps to -2147483648, so a reachable state has an Embryo slot whose
pid is not below `nextpid`. -/
theorem pid_counter_wraps :
    PidReachable 64 pidWrapped ∧
    pidWrapped.mem.procs[0]?
      = some { pid := 2147483647, state := procstate.EMBRYO, kstack := true, weight := 1024 } ∧
    ¬ ((2147483647 : Int) < pidWrapped.nextpid) ∧ ¬ PidInv pidWrapped := by
  have hr : PidReachable 64 pidWrapped := by
    have h := PidReachable.step _ _ (afterFailedAllocs_reachable 2147483646 (by norm_num))
      (PidStep.alloc _ true)
    rw [allocproc_found (afterFailedAllocs 2147483646) 0 { pid := 2147483646 } true rfl
      (afterFailedAllocs_findIdx _)] at h
    simp only [if_true] at h
    have hw : wrapInt ((afterFailedAllocs 2147483646).nextpid + 1) = -2147483648 := by
      decide
    rw [hw] at h
    exact h
  refine ⟨hr, rfl, by decide, ?_⟩
  intro hinv
  have := (hinv.1 0 _ rfl (by decide)).2
  exact absurd this (by decide)

/-- Witness of `pids_unique_below_overflow` on a run that exits and reaps: on
a table of 64 slots slot 0 is allocated (pid 1) and forks slot 1 (pid 2), the
dispatcher selects slot 1, slot 1 exits and becomes a Zombie (`exitedTable`),
and slot 0 reaps it in `wait` (`reapedTable`). -/
theorem pids_unique_below_overflow_witness :
    (exitedTable.mem.procs.map fun x => (x.pid, x.state)).take 3
      = [(1, procstate.EMBRYO), (2, procstate.ZOMBIE), (0, procstate.UNUSED)] ∧
    (reapedTable.mem.procs.map fun x => (x.pid, x.state)).take 3
      = [(1, procstate.EMBRYO), (0, procstate.UNUSED), (0, procstate.UNUSED)] ∧
    reapedTable.nextpid = 3 ∧
    PidReachableBelow 64 exitedTable ∧ PidReachableBelow 64 reapedTable ∧
    PidInv exitedTable ∧ PidInv reapedTable := by
  have h0 : PidReachableBelow 64 (boot 64) := PidReachableBelow.init
  have h1 : PidReachableBelow 64 (allocproc (boot 64) true).2 :=
    PidReachableBelow.step _ _ h0 (by decide) (PidStep.alloc _ true)
  have h2 : PidReachableBelow 64 forkedTable :=
    PidReachableBelow.step _ _ h1 (by decide!)
      (PidStep.fork _ _ (some 0) true true 2 (by decide!))
  have h3 : PidReachableBelow 64 pickedTable :=
    PidReachableBelow.step _ _ h2 (by decide!) (PidStep.pick _ _ 1 (by decide!))
  have h4 : PidReachableBelow 64 exitedTable :=
    PidReachableBelow.step _ _ h3 (by decide!)
      (PidStep.exit _ _ 1
        { pid := 2, state := procstate.RUNNING, parent := some 0, kstack := true, weight := 1024 }
        (by decide!) (by decide) (by decide!))
  have h5 : PidReachableBelow 64 reapedTable :=
    PidReachableBelow.step _ _ h4 (by decide!) (PidStep.reap _ _ (some 0) 2 (by decide!))
  exact ⟨by decide!, by decide!, by decide!, h4, h5,
    pids_unique_below_overflow 64 _ h4, pids_unique_below_overflow 64 _ h5⟩

/-! ## Weights outside the nice range -/

/-- C21 on a failing input: `compute_weight` does not clamp.  At nice value
20 it returns 11, while the clamped value 19 gives 14; at -21 it returns
111022, while the clamped value -20 gives 88817. -/
theorem compute_weight_does_not_clamp :
    compute_weight 20 = 11 ∧ clampNice 20 = 19 ∧ compute_weight (clampNice 20) = 14 ∧
    compute_weight (-21) = 111022 ∧ clampNice (-21) = -20 ∧
    compute_weight (clampNice (-21)) = 88817 := by
  decide!

/-- C24 as stated fails: `compute_weight (-20)` is not 96636764. -/
theorem compute_weight_minus_20_ne : compute_weight (-20) ≠ 96636764 := by
  decide!

/-- C24, amended: the weight of a process with nice value -20 is
`1024 * 1.25^20` rounded down, which is 88817. -/
theorem compute_weight_minus_20 :
    compute_weight (-20) = 88817 ∧ weightSpec (-20) = 88817 ∧
    Int.floor ((1024 : ℚ) * ((5 : ℚ) / 4) ^ 20) = 88817 := by
  refine ⟨by decide!, ?_, ?_⟩
  · rw [weightSpec, Int.floor_eq_iff]
    norm_num
  · rw [Int.floor_eq_iff]
    norm_num

/-! ## Null links met by the tree operations -/

/-- C25 on failing inputs, all on fresh records.  With `vruntime` 2, 3, 4, 1
three `add_to_tree` calls leave slot 0 a Red child of the root with a null
`p`, and the fourth call, which inserts below slot 0, dereferences that null
grandparent in `fixinsert`.  With `vruntime` 1, 2, 5, 4, 6, 3, five adds, a
`next_process`, an add and a second `next_process`: the cached minimum
(slot 5) has two children and its successor (slot 3) has `parent` slot 5 and
no right child, so `deleteproc` writes `x->parent` with `x` null.  With
`vruntime` 1 to 6, six adds and a `next_process`: `fixdelete` reaches slot 1
with `parentProc` slot 0, whose `l` is null, and reads the colour of that null
sibling. -/
theorem tree_ops_dereference_null :
    (runOps 16 (fresh [2, 3, 4, 1]) [TreeOp.add 0, TreeOp.add 1, TreeOp.add 2]).map linkState
      = Except.ok ⟨some 1, some 0,
          [⟨Color.RED, none, none, none, some 1⟩,
           ⟨Color.BLACK, some 0, some 2, some 0, none⟩,
           ⟨Color.RED, none, none, some 1, none⟩,
           ⟨Color.RED, none, none, none, none⟩]⟩ ∧
    runOps 16 (fresh [2, 3, 4, 1]) [TreeOp.add 0, TreeOp.add 1, TreeOp.add 2, TreeOp.add 3]
      = Except.error Halt.nullDeref ∧
    (runOps 16 (fresh [1, 2, 5, 4, 6, 3])
        [TreeOp.add 0, TreeOp.add 1, TreeOp.add 2, TreeOp.add 3, TreeOp.add 4, TreeOp.next,
         TreeOp.add 5]).map linkState
      = Except.ok ⟨some 4, some 5,
          [⟨Color.BLACK, none, none, none, some 1⟩,
           ⟨Color.RED, none, none, some 0, some 5⟩,
           ⟨Color.BLACK, some 5, none, some 1, some 4⟩,
           ⟨Color.BLACK, none, none, some 2, some 5⟩,
           ⟨Color.BLACK, some 2, none, some 2, none⟩,
           ⟨Color.RED, some 1, some 3, some 3, some 2⟩]⟩ ∧
    runOps 16 (fresh [1, 2, 5, 4, 6, 3])
        [TreeOp.add 0, TreeOp.add 1, TreeOp.add 2, TreeOp.add 3, TreeOp.add 4, TreeOp.next,
         TreeOp.add 5, TreeOp.next]
      = Except.error Halt.nullDeref ∧
    (runOps 16 (fresh [1, 2, 3, 4, 5, 6])
        [TreeOp.add 0, TreeOp.add 1, TreeOp.add 2, TreeOp.add 3, TreeOp.add 4,
         TreeOp.add 5]).map linkState
      = Except.ok ⟨some 3, some 0,
          [⟨Color.BLACK, none, none, none, some 1⟩,
           ⟨Color.BLACK, some 0, some 2, some 0, none⟩,
           ⟨Color.BLACK, none, none, some 1, some 3⟩,
           ⟨Color.BLACK, some 2, some 4, some 2, none⟩,
           ⟨Color.BLACK, none, some 5, some 3, none⟩,
           ⟨Color.RED, none, none, some 4, none⟩]⟩ ∧
    runOps 16 (fresh [1, 2, 3, 4, 5, 6])
        [TreeOp.add 0, TreeOp.add 1, TreeOp.add 2, TreeOp.add 3, TreeOp.add 4,
         TreeOp.add 5, TreeOp.next]
      = Except.error Halt.nullDeref := by
  decide!

/-! ## What the invariant checker decides -/

theorem firstCount_mem (t : ColorTree) : t.firstCount ∈ t.pathBlackCounts := by
  induction t with
  | nil => simp [ColorTree.firstCount, ColorTree.pathBlackCounts]
  | node c l r ihl _ =>
    simp only [ColorTree.firstCount, ColorTree.pathBlackCounts, List.mem_map, List.mem_append]
    exact ⟨_, Or.inl ihl, rfl⟩

theorem pathBlackCounts_nonneg (t : ColorTree) : ∀ a ∈ t.pathBlackCounts, 0 ≤ a := by
  induction t with
  | nil => simp [ColorTree.pathBlackCounts]
  | node c l r ihl ihr =>
    intro a ha
    simp only [ColorTree.pathBlackCounts, List.mem_map, List.mem_append] at ha
    obtain ⟨n, hn, rfl⟩ := ha
    have h0 : 0 ≤ n := hn.elim (ihl n) (ihr n)
    split <;> omega

theorem presentAndRed_treeShape (fuel : Nat) (m : Mem) (q : Ptr) (t : ColorTree)
    (h : treeShape fuel m q = Except.ok t) : presentAndRed m q = Except.ok t.isRed := by
  cases fuel with
  | zero => simp [treeShape] at h
  | succ fuel =>
    cases q with
    | none =>
      simp only [treeShape, pure, Except.pure, Except.ok.injEq] at h
      subst h
      rfl
    | some i =>
      simp only [treeShape] at h
      cases hx : rd m (some i) with
      | error e => simp [hx, bind, Except.bind] at h
      | ok x =>
        simp only [hx, bind, Except.bind] at h
        cases hl : treeShape fuel m x.l with
        | error e => simp [hl] at h
        | ok tl =>
          simp only [hl] at h
          cases hr : treeShape fuel m x.r with
          | error e => simp [hr] at h
          | ok tr =>
            simp only [hr, pure, Except.pure, Except.ok.injEq] at h
            subst h
            simp only [presentAndRed, hx, bind, Except.bind, pure, Except.pure]
            cases hc : x.color <;> simp [ColorTree.isRed]

theorem treeShape_some (fuel : Nat) (m : Mem) (i : Nat) (t : ColorTree)
    (h : treeShape (fuel + 1) m (some i) = Except.ok t) :
    ∃ x tl tr, rd m (some i) = Except.ok x ∧ treeShape fuel m x.l = Except.ok tl ∧
      treeShape fuel m x.r = Except.ok tr ∧ t = ColorTree.node x.color tl tr := by
  simp only [treeShape] at h
  cases hx : rd m (some i) with
  | error e => simp [hx, bind, Except.bind] at h
  | ok x =>
    simp only [hx, bind, Except.bind] at h
    cases hl : treeShape fuel m x.l with
    | error e => simp [hl] at h
    | ok tl =>
      simp only [hl] at h
      cases hr : treeShape fuel m x.r with
      | error e => simp [hr] at h
      | ok tr =>
        simp only [hr, pure, Except.pure, Except.ok.injEq] at h
        exact ⟨x, tl, tr, rfl, hl, hr, h.symm⟩

theorem wrapInt_id (n : Int) (h1 : -2 ^ 31 ≤ n) (h2 : n < 2 ^ 31) : wrapInt n = n := by
  unfold wrapInt
  omega

theorem redRed_eval (c : Color) (a b : Bool) :
    (if c = Color.RED then (if a = true then (Except.ok true : Run Bool) else Except.ok b)
      else Except.ok false) = Except.ok (decide (c = Color.RED) && (a || b)) := by
  cases c <;> cases a <;> cases b <;> rfl

theorem checkTarget_nonneg (t : ColorTree) (b pbc : Int) (hb : 0 ≤ b)
    (hp : pbc = -1 ∨ 0 ≤ pbc) : 0 ≤ checkTarget t b pbc := by
  unfold checkTarget
  have := pathBlackCounts_nonneg t _ (firstCount_mem t)
  split <;> omega

theorem checkTarget_of_nonneg (t : ColorTree) (b pbc : Int) (hp : 0 ≤ pbc) :
    checkTarget t b pbc = pbc := by
  unfold checkTarget
  rw [if_neg (by omega)]

theorem check_rb_tree_properties_spec (fuel : Nat) :
    ∀ (m : Mem) (q : Ptr) (t : ColorTree) (b pbc : Int),
      treeShape fuel m q = Except.ok t → 0 ≤ b → b + t.height < 2 ^ 31 →
      (pbc = -1 ∨ 0 ≤ pbc) →
      ∃ r, check_rb_tree_properties fuel m q b pbc = Except.ok r ∧
        ((t.noRedRed = true ∧ (∀ c ∈ t.pathBlackCounts, b + c = checkTarget t b pbc) ∧
            r = (1, checkTarget t b pbc)) ∨
         (¬ (t.noRedRed = true ∧ ∀ c ∈ t.pathBlackCounts, b + c = checkTarget t b pbc) ∧
            r.1 = 0)) := by
  induction fuel with
  | zero =>
    intro m q t b pbc h
    simp [treeShape] at h
  | succ fuel ih =>
    intro m q t b pbc h hb hh hp
    cases q with
    | none =>
      simp only [treeShape, pure, Except.pure, Except.ok.injEq] at h
      subst h
      simp only [check_rb_tree_properties, if_true, ColorTree.noRedRed,
        ColorTree.pathBlackCounts, List.mem_singleton, forall_eq, add_zero, checkTarget,
        ColorTree.firstCount, pure, Except.pure]
      by_cases h1 : pbc = -1
      · simp [h1]
      · by_cases h2 : b = pbc
        · simp [h1, h2]
        · simp [h1, h2]
    | some i =>
      obtain ⟨x, tl, tr, hx, hl, hr, rfl⟩ := treeShape_some fuel m i t h
      have hpl := presentAndRed_treeShape fuel m x.l tl hl
      have hpr := presentAndRed_treeShape fuel m x.r tr hr
      simp only [ColorTree.height] at hh
      have hhl : tl.height ≤ max tl.height tr.height := le_max_left _ _
      have hhr : tr.height ≤ max tl.height tr.height := le_max_right _ _
      have hb2 : (if x.color = Color.BLACK then wrapInt (b + 1) else b)
          = b + (if x.color = Color.BLACK then 1 else 0) := by
        split
        · rw [wrapInt_id _ (by omega) (by push_cast at hh; omega)]
        · simp
      have hk0 : (0 : Int) ≤ (if x.color = Color.BLACK then 1 else 0) := by split <;> omega
      have hk1 : (if x.color = Color.BLACK then 1 else 0) ≤ (1 : Int) := by split <;> omega
      have hT : checkTarget (ColorTree.node x.color tl tr) b pbc
          = checkTarget tl (b + (if x.color = Color.BLACK then 1 else 0)) pbc := by
        simp only [checkTarget, ColorTree.firstCount]
        split
        · ring
        · rfl
      obtain ⟨rL, hL, hLs⟩ := ih m x.l tl (b + (if x.color = Color.BLACK then 1 else 0)) pbc hl
        (by omega) (by push_cast at hh ⊢; omega) hp
      have hcounts : ∀ P : Int → Prop,
          (∀ c ∈ (ColorTree.node x.color tl tr).pathBlackCounts, P (b + c)) ↔
          ((∀ c ∈ tl.pathBlackCounts, P (b + (if x.color = Color.BLACK then 1 else 0) + c)) ∧
           (∀ c ∈ tr.pathBlackCounts, P (b + (if x.color = Color.BLACK then 1 else 0) + c))) := by
        intro P
        simp only [ColorTree.pathBlackCounts, List.mem_map, List.mem_append]
        constructor
        · intro hall
          refine ⟨fun c hc => ?_, fun c hc => ?_⟩
          · have := hall _ ⟨c, Or.inl hc, rfl⟩
            rwa [show b + (c + (if x.color = Color.BLACK then 1 else 0))
              = b + (if x.color = Color.BLACK then 1 else 0) + c by ring] at this
          · have := hall _ ⟨c, Or.inr hc, rfl⟩
            rwa [show b + (c + (if x.color = Color.BLACK then 1 else 0))
              = b + (if x.color = Color.BLACK then 1 else 0) + c by ring] at this
        · rintro ⟨h1, h2⟩ c ⟨n, hn, rfl⟩
          rw [show b + (n + (if x.color = Color.BLACK then 1 else 0))
              = b + (if x.color = Color.BLACK then 1 else 0) + n by ring]
          exact hn.elim (h1 n) (h2 n)
      rw [hT, hcounts (fun v => v = checkTarget tl
        (b + (if x.color = Color.BLACK then 1 else 0)) pbc)]
      simp only [check_rb_tree_properties, if_neg (Option.some_ne_none i), hx, hpl, hpr, hb2,
        bind, Except.bind, pure, Except.pure]
      rw [redRed_eval]
      have hb0 : 0 ≤ b + (if x.color = Color.BLACK then 1 else 0) := by omega
      have hbl : b + (if x.color = Color.BLACK then 1 else 0) + (tl.height : Int) < 2 ^ 31 := by
        push_cast at hh
        omega
      have hbr : b + (if x.color = Color.BLACK then 1 else 0) + (tr.height : Int) < 2 ^ 31 := by
        push_cast at hh
        omega
      generalize b + (if x.color = Color.BLACK then 1 else 0) = b2 at hb0 hbl hbr ⊢
      obtain ⟨rL, hL, hLs⟩ := ih m x.l tl b2 pbc hl hb0 hbl hp
      have hT0 := checkTarget_nonneg tl b2 pbc hb0 hp
      obtain ⟨rR, hR, hRs⟩ := ih m x.r tr b2 (checkTarget tl b2 pbc) hr hb0 hbr (Or.inr hT0)
      rw [checkTarget_of_nonneg tr b2 _ hT0] at hRs
      generalize checkTarget tl b2 pbc = T at hLs hR hRs ⊢
      simp only [ColorTree.noRedRed, hL]
      cases hrr : (decide (x.color = Color.RED) && (tl.isRed || tr.isRed))
      · rcases hLs with ⟨g1, g2, rfl⟩ | ⟨ng, hr0⟩
        · simp only [hR]
          rcases hRs with ⟨g3, g4, rfl⟩ | ⟨ng2, hr1⟩
          · refine ⟨(1, T), by simp, Or.inl ⟨by simp [g1, g3], ⟨g2, g4⟩, rfl⟩⟩
          · refine ⟨(0, rR.2), by simp [hr1], Or.inr ⟨?_, rfl⟩⟩
            rintro ⟨a1, a2, a3⟩
            simp only [Bool.not_false, Bool.true_and, Bool.and_eq_true] at a1
            exact ng2 ⟨a1.2, a3⟩
        · refine ⟨(0, rL.2), by simp [hr0], Or.inr ⟨?_, rfl⟩⟩
          rintro ⟨a1, a2, a3⟩
          simp only [Bool.not_false, Bool.true_and, Bool.and_eq_true] at a1
          exact ng ⟨a1.1, a2⟩
      · refine ⟨(0, pbc), by simp, Or.inr ⟨?_, rfl⟩⟩
        rintro ⟨a1, _⟩
        simp at a1

/-- C22: for every finite tree over the `l`/`r` links (of height below 2^31,
so that the `int` path counter cannot overflow), `treebalanced` returns, and
it returns 1 if the tree is empty or its root is Black, no Red node has a Red
child and every path from the root to a nil link holds the same number of
Black nodes, and 0 otherwise. -/
theorem treebalanced_iff_red_black (fuel : Nat) (m : Mem) (t : ColorTree)
    (h : treeShape fuel m m.tree.root = Except.ok t) (hh : t.height < 2 ^ 31) :
    treebalanced fuel m = Except.ok (if t.isRedBlack then 1 else 0) := by
  cases fuel with
  | zero => simp [treeShape] at h
  | succ fuel =>
    unfold treebalanced
    cases hroot : m.tree.root with
    | none =>
      rw [hroot] at h
      simp only [treeShape, pure, Except.pure, Except.ok.injEq] at h
      subst h
      simp [check_rb_tree_properties, ColorTree.isRedBlack, bind, Except.bind, pure, Except.pure]
    | some i =>
      rw [hroot] at h
      obtain ⟨x, tl, tr, hx, hl, hr, rfl⟩ := treeShape_some fuel m i t h
      obtain ⟨r, hc, hs⟩ := check_rb_tree_properties_spec (fuel + 1) m (some i) _ 0 (-1) h
        (le_refl _) (by push_cast; omega) (Or.inl rfl)
      simp only [hx, hc, bind, Except.bind, pure, Except.pure, ne_eq, not_false_eq_true,
        if_true, reduceCtorEq]
      cases hcol : x.color with
      | RED =>
        have hnot : ¬ (ColorTree.node Color.RED tl tr).isRedBlack := by
          rintro (h1 | ⟨h1, _⟩)
          · cases h1
          · simp [ColorTree.rootBlack] at h1
        simp [hnot]
      | BLACK =>
        rw [hcol] at hs
        rcases hs with ⟨g1, g2, rfl⟩ | ⟨ng, hr0⟩
        · have hyes : (ColorTree.node Color.BLACK tl tr).isRedBlack := by
            refine Or.inr ⟨rfl, g1, fun a ha c hc => ?_⟩
            have h1 := g2 a ha
            have h2 := g2 c hc
            omega
          simp [hyes]
        · have hnot : ¬ (ColorTree.node Color.BLACK tl tr).isRedBlack := by
            rintro (h1 | ⟨_, h1, h2⟩)
            · cases h1
            · refine ng ⟨h1, fun c hc => ?_⟩
              have := h2 c hc _ (firstCount_mem _)
              simp only [checkTarget, if_true]
              omega
          simp [hnot, hr0]

/-- Witness of `treebalanced_iff_red_black`: the two-node tree, a Black root
with a Red right child. -/
theorem treebalanced_iff_red_black_witness :
    treeShape 16 twoNodeTree twoNodeTree.tree.root
      = Except.ok (ColorTree.node Color.BLACK ColorTree.nil
          (ColorTree.node Color.RED ColorTree.nil ColorTree.nil)) ∧
    treebalanced 16 twoNodeTree
      = Except.ok (if (ColorTree.node Color.BLACK ColorTree.nil
          (ColorTree.node Color.RED ColorTree.nil ColorTree.nil)).isRedBlack then 1 else 0) :=
  ⟨by decide!, treebalanced_iff_red_black 16 twoNodeTree _ (by decide!) (by decide!)⟩

/-! ## Ties go right -/

theorem add_to_tree_first (f : Nat) (m : Mem) (a : Nat) (A : proc)
    (hA : m.procs[a]? = some A) (hroot : m.tree.root = none)
    (hmin : m.tree.min_vruntime = none) :
    add_to_tree (f + 1) m (some a) = Except.ok
      { procs := m.procs.set a { A with color := Color.BLACK, p := none, l := none, r := none },
        tree := { m.tree with
          root := some a, length := wrapInt (m.tree.length + 1),
          total_weight := wrapInt (m.tree.total_weight + A.weight),
          min_vruntime := some a } } := by
  have hl : a < m.procs.length := by
    by_contra hl
    simp [List.getElem?_eq_none (not_lt.mp hl)] at hA
  simp [add_to_tree, descend, fixinsert, setColor, setP, setL, setR, setRoot, wr, rd, hA, hroot,
    hmin, List.getElem?_set, hl, bind, Except.bind, pure, Except.pure]

theorem add_to_tree_second (f : Nat) (m : Mem) (a b : Nat) (A B : proc) (hab : a ≠ b)
    (hA : m.procs[a]? = some A) (hB : m.procs[b]? = some B) (hroot : m.tree.root = some a)
    (hAl : A.l = none) (hAr : A.r = none) (hAc : A.color = Color.BLACK)
    (hv : ¬ B.vruntime < A.vruntime) (hmin : m.tree.min_vruntime = some a) :
    add_to_tree (f + 2) m (some b) = Except.ok
      { procs := (m.procs.set b { B with color := Color.RED, p := some a, l := none, r := none }).set
          a { A with r := some b },
        tree := { m.tree with
          length := wrapInt (m.tree.length + 1),
          total_weight := wrapInt (m.tree.total_weight + B.weight) } } := by
  have hl : a < m.procs.length := by
    by_contra hl
    simp [List.getElem?_eq_none (not_lt.mp hl)] at hA
  have hl2 : b < m.procs.length := by
    by_contra hl
    simp [List.getElem?_eq_none (not_lt.mp hl)] at hB
  have hba : b ≠ a := fun e => hab e.symm
  have hA2 : m.procs[a] = A := by
    rw [List.getElem?_eq_getElem hl] at hA
    exact Option.some.inj hA
  have hB2 : m.procs[b] = B := by
    rw [List.getElem?_eq_getElem hl2] at hB
    exact Option.some.inj hB
  simp [add_to_tree, descend, fixinsert, setColor, setP, setL, setR, setRoot, wr, rd, hA, hB, hroot,
    hmin, List.getElem?_set, hl, hl2, hab, hba, hAl, hAr, hAc, hv, hA2, hB2, bind, Except.bind,
    pure, Except.pure]
  apply List.ext_getElem?
  intro n
  by_cases h1 : a = n <;> by_cases h2 : b = n <;>
    simp [List.getElem?_set, h1, h2, hl, hl2, hab, hba]

theorem next_process_two (f : Nat) (m : Mem) (a b : Nat) (A B : proc) (hab : a ≠ b)
    (hA : m.procs[a]? = some A) (hB : m.procs[b]? = some B) (hroot : m.tree.root = some a)
    (hmin : m.tree.min_vruntime = some a)
    (hAl : A.l = none) (hAr : A.r = some b) (hAc : A.color = Color.BLACK)
    (hBc : B.color = Color.RED)
    (hpar : A.parent = none ∨ ∃ c y, A.parent = some c ∧ m.procs[c]? = some y) :
    (next_process (f + 1) m).map Prod.fst = Except.ok (some a) := by
  have hl : a < m.procs.length := by
    by_contra hl
    simp [List.getElem?_eq_none (not_lt.mp hl)] at hA
  have hl2 : b < m.procs.length := by
    by_contra hl
    simp [List.getElem?_eq_none (not_lt.mp hl)] at hB
  have hba : b ≠ a := fun e => hab e.symm
  have hA2 : m.procs[a] = A := by
    rw [List.getElem?_eq_getElem hl] at hA
    exact Option.some.inj hA
  have hB2 : m.procs[b] = B := by
    rw [List.getElem?_eq_getElem hl2] at hB
    exact Option.some.inj hB
  rcases hpar with hpn | ⟨c, y, hpc, hy⟩
  · simp [next_process, deleteproc, transplant, fixdelete, nullOrBlack, setParent, setRoot, setL,
      setR, wr, rd, hA, hB, hroot, hmin, List.getElem?_set, hl, hl2, hab, hba, hAl, hAr, hAc, hBc,
      hA2, hB2, hpn, bind, Except.bind, pure, Except.pure, Except.map]
  · have hl3 : c < m.procs.length := by
      by_contra hl
      simp [List.getElem?_eq_none (not_lt.mp hl)] at hy
    have hy2 : m.procs[c] = y := by
      rw [List.getElem?_eq_getElem hl3] at hy
      exact Option.some.inj hy
    by_cases hca : c = a
    · subst hca
      have hyA : y = A := by rw [← hy2, hA2]
      subst hyA
      simp [next_process, deleteproc, transplant, fixdelete, nullOrBlack, setParent, setRoot, setL,
        setR, wr, rd, hA, hB, hroot, hmin, List.getElem?_set, hl, hl2, hab, hba, hAl, hAr, hAc,
        hBc, hA2, hB2, hpc, bind, Except.bind, pure, Except.pure, Except.map]
    · by_cases hcb : c = b
      · subst hcb
        have hyB : y = B := by rw [← hy2, hB2]
        subst hyB
        by_cases hyl : y.l = some a
        · simp [next_process, deleteproc, transplant, fixdelete, nullOrBlack, setParent, setRoot,
            setL, setR, wr, rd, hA, hB, hroot, hmin, List.getElem?_set, hl, hl2, hab, hba, hAl,
            hAr, hAc, hBc, hA2, hB2, hpc, hyl, bind, Except.bind, pure, Except.pure, Except.map]
        · have hyl2 : ¬ some a = y.l := fun e => hyl e.symm
          simp [next_process, deleteproc, transplant, fixdelete, nullOrBlack, setParent, setRoot,
            setL, setR, wr, rd, hA, hB, hroot, hmin, List.getElem?_set, hl, hl2, hab, hba, hAl,
            hAr, hAc, hBc, hA2, hB2, hpc, hyl, hyl2, bind, Except.bind, pure, Except.pure,
            Except.map]
      · have hac : a ≠ c := fun e => hca e.symm
        have hbc : b ≠ c := fun e => hcb e.symm
        by_cases hyl : y.l = some a
        · simp [next_process, deleteproc, transplant, fixdelete, nullOrBlack, setParent, setRoot,
            setL, setR, wr, rd, hA, hB, hy, hroot, hmin, List.getElem?_set, hl, hl2, hl3, hab, hba,
            hAl, hAr, hAc, hBc, hA2, hB2, hy2, hpc, hyl, hca, hcb, hac, hbc, bind, Except.bind,
            pure, Except.pure, Except.map]
        · have hyl2 : ¬ some a = y.l := fun e => hyl e.symm
          simp [next_process, deleteproc, transplant, fixdelete, nullOrBlack, setParent, setRoot,
            setL, setR, wr, rd, hA, hB, hy, hroot, hmin, List.getElem?_set, hl, hl2, hl3, hab, hba,
            hAl, hAr, hAc, hBc, hA2, hB2, hy2, hpc, hyl, hyl2, hca, hcb, hac, hbc, bind,
            Except.bind, pure, Except.pure, Except.map]

theorem add_to_tree_first_spec (f : Nat) (m : Mem) (a : Nat) (A : proc)
    (hA : m.procs[a]? = some A) (hroot : m.tree.root = none)
    (hmin : m.tree.min_vruntime = none) :
    ∃ m1, add_to_tree (f + 1) m (some a) = Except.ok m1 ∧
      m1.procs = m.procs.set a { A with color := Color.BLACK, p := none, l := none, r := none } ∧
      m1.tree.root = some a ∧ m1.tree.length = wrapInt (m.tree.length + 1) ∧
      m1.tree.total_weight = wrapInt (m.tree.total_weight + A.weight) ∧
      m1.tree.min_vruntime = some a :=
  ⟨_, add_to_tree_first f m a A hA hroot hmin, rfl, rfl, rfl, rfl, rfl⟩

theorem add_to_tree_second_spec (f : Nat) (m : Mem) (a b : Nat) (A B : proc) (hab : a ≠ b)
    (hA : m.procs[a]? = some A) (hB : m.procs[b]? = some B) (hroot : m.tree.root = some a)
    (hAl : A.l = none) (hAr : A.r = none) (hAc : A.color = Color.BLACK)
    (hv : ¬ B.vruntime < A.vruntime) (hmin : m.tree.min_vruntime = some a) :
    ∃ m2, add_to_tree (f + 2) m (some b) = Except.ok m2 ∧
      m2.procs[a]? = some { A with r := some b } ∧
      m2.procs[b]? = some { B with color := Color.RED, p := some a, l := none, r := none } ∧
      (∀ j, j ≠ a → j ≠ b → m2.procs[j]? = m.procs[j]?) ∧
      m2.tree.root = some a ∧ m2.tree.length = wrapInt (m.tree.length + 1) ∧
      m2.tree.total_weight = wrapInt (m.tree.total_weight + B.weight) ∧
      m2.tree.min_vruntime = some a := by
  have hl := getElem?_lt hA
  have hl2 := getElem?_lt hB
  have hba : b ≠ a := fun e => hab e.symm
  refine ⟨_, add_to_tree_second f m a b A B hab hA hB hroot hAl hAr hAc hv hmin, ?_, ?_, ?_,
    hroot, rfl, rfl, hmin⟩
  · simp [List.getElem?_set, hl]
  · simp [List.getElem?_set, hl2, hab, hba]
  · intro j hja hjb
    have h1 : ¬ a = j := fun e => hja e.symm
    have h2 : ¬ b = j := fun e => hjb e.symm
    simp [List.getElem?_set, h1, h2]

theorem inorder_two (f : Nat) (m : Mem) (a b : Nat) (A B : proc)
    (hA : m.procs[a]? = some A) (hB : m.procs[b]? = some B)
    (hAl : A.l = none) (hAr : A.r = some b) (hBl : B.l = none) (hBr : B.r = none) :
    inorder (f + 3) m (some a) = Except.ok [a, b] := by
  simp [inorder, rd, hA, hB, hAl, hAr, hBl, hBr, bind, Except.bind, pure, Except.pure]

/-- C23: ties go right.  For two distinct records `A` and `B` of the table
with equal `vruntime` (whatever their other fields; `A.parent` null or a slot
of the table), `add_to_tree(A)` then `add_to_tree(B)` on an empty tree return
and give a Black root `A` with Red right child `B` and no other link,
in-order traversal `[A, B]`, `min_vruntime == A`, `length == 2` and
`total_weight == weight(A) + weight(B)` (as a 32-bit `int`), and the next
`next_process` call returns `A`. -/
theorem ties_go_right (fuel : Nat) (m : Mem) (a b : Nat) (A B : proc)
    (hfuel : 3 ≤ fuel) (hab : a ≠ b)
    (hA : m.procs[a]? = some A) (hB : m.procs[b]? = some B)
    (hv : A.vruntime = B.vruntime) (hE : m.tree.isEmpty)
    (hpar : A.parent = none ∨ ∃ c y, A.parent = some c ∧ m.procs[c]? = some y) :
    ∃ m2, addAll fuel m [a, b] = Except.ok m2 ∧
      m2.tree.root = some a ∧
      m2.procs[a]? = some { A with color := Color.BLACK, p := none, l := none, r := some b } ∧
      m2.procs[b]? = some { B with color := Color.RED, p := some a, l := none, r := none } ∧
      (∀ j, j ≠ a → j ≠ b → m2.procs[j]? = m.procs[j]?) ∧
      inorder fuel m2 m2.tree.root = Except.ok [a, b] ∧
      m2.tree.min_vruntime = some a ∧ m2.tree.length = 2 ∧
      m2.tree.total_weight = wrapInt (A.weight + B.weight) ∧
      (-2 ^ 31 ≤ A.weight + B.weight → A.weight + B.weight < 2 ^ 31 →
        m2.tree.total_weight = A.weight + B.weight) ∧
      (next_process fuel m2).map Prod.fst = Except.ok (some a) := by
  obtain ⟨f, rfl⟩ : ∃ f, fuel = f + 3 := ⟨fuel - 3, by omega⟩
  obtain ⟨hroot, hlen, htw, hmin⟩ := hE
  have hl := getElem?_lt hA
  have hl2 := getElem?_lt hB
  have hba : b ≠ a := fun e => hab e.symm
  obtain ⟨m1, h1, hp1, hr1, hn1, hw1, hc1⟩ := add_to_tree_first_spec (f + 2) m a A hA hroot hmin
  have hA1 : m1.procs[a]?
      = some { A with color := Color.BLACK, p := none, l := none, r := none } := by
    rw [hp1]
    simp [List.getElem?_set, hl]
  have hB1 : m1.procs[b]? = some B := by
    rw [hp1]
    simp [List.getElem?_set, hab, hB]
  obtain ⟨m2, h2, hA2, hB2, ho2, hr2, hn2, hw2, hc2⟩ :=
    add_to_tree_second_spec (f + 1) m1 a b _ B hab hA1 hB1 hr1 rfl rfl rfl (by simp [hv]) hc1
  have hadd : addAll (f + 3) m [a, b] = Except.ok m2 := by
    simp only [addAll, bind, Except.bind, pure, Except.pure]
    rw [show f + 3 = f + 2 + 1 from rfl, h1]
    simp only []
    rw [show f + 2 + 1 = (f + 1) + 2 from rfl, h2]
  have hother : ∀ j, j ≠ a → j ≠ b → m2.procs[j]? = m.procs[j]? := by
    intro j hja hjb
    rw [ho2 j hja hjb, hp1]
    have h1 : ¬ a = j := fun e => hja e.symm
    simp [List.getElem?_set, h1]
  have htot : m2.tree.total_weight = wrapInt (A.weight + B.weight) := by
    rw [hw2, hw1, htw, wrapInt_add, zero_add]
  refine ⟨m2, hadd, hr2, hA2, hB2, hother, ?_, hc2, ?_, htot, ?_, ?_⟩
  · rw [hr2]
    exact inorder_two f m2 a b _ _ hA2 hB2 rfl rfl rfl rfl
  · rw [hn2, hn1, hlen]
    decide
  · intro g1 g2
    rw [htot]
    unfold wrapInt
    omega
  · refine next_process_two (f + 2) m2 a b _ _ hab hA2 hB2 hr2 hc2 rfl rfl rfl rfl ?_
    rcases hpar with hpn | ⟨c, y, hpc, hy⟩
    · exact Or.inl hpn
    · have hlc := getElem?_lt hy
      by_cases hca : c = a
      · exact Or.inr ⟨c, _, hpc, by rw [hca]; exact hA2⟩
      · by_cases hcb : c = b
        · exact Or.inr ⟨c, _, hpc, by rw [hcb]; exact hB2⟩
        · exact Or.inr ⟨c, y, hpc, by rw [hother c hca hcb]; exact hy⟩

/-- Witness of `ties_go_right` on `tieTable`: slot 1 is added before slot 2. -/
theorem ties_go_right_witness :
    ∃ m2, addAll 16 tieTable [1, 2] = Except.ok m2 ∧ m2.tree.root = some 1 ∧
      inorder 16 m2 m2.tree.root = Except.ok [1, 2] ∧ m2.tree.min_vruntime = some 1 ∧
      m2.tree.length = 2 ∧ m2.tree.total_weight = 89841 ∧
      (next_process 16 m2).map Prod.fst = Except.ok (some 1) := by
  obtain ⟨m2, h1, h2, _, _, _, h6, h7, h8, _, h10, h11⟩ :=
    ties_go_right 16 tieTable 1 2 _ _ (by decide) (by decide) rfl rfl rfl ⟨rfl, rfl, rfl, rfl⟩
      (Or.inr ⟨0, _, rfl, rfl⟩)
  exact ⟨m2, h1, h2, h6, h7, h8, h10 (by decide) (by decide), h11⟩


end CfsXv6
